import Mathlib

/-!
Chain core of the aergo node: state DB, block state, transaction executor,
block ingestion, anchors and missing ranges, and the RPC and peer handlers

A shallow embedding of `types/state.go`, `state/statedb.go`,
`blockchain/chainhandle.go`, `blockchain/chainanchor.go`, the transaction hash
of `types/blockchain.go`, `CommitTX` and `ListBlockHeaders` of
`rpc/grpcserver.go`, the block headers handler of `p2p/subprotocolblock.go`
and `consensus/chain/tx.go`, followed by theorems about them.

Conventions of the embedding.
* A Go `[]byte` is a `List Nat`; a `[32]byte` (`HashID`, `BlockID`,
  `AccountID`) is a `List Nat` as well, the zero value being 32 zero bytes.
* A Go `uint64` is a `Nat`, arithmetic on it is reduced modulo `2^64`.
* A Go pointer `*State` is an `Option State` (`none` is `nil`).
* A Go `map[K]V` is a list of key/value pairs without repeated keys
  (`GoMap`); the order of the list is the order in which `range` visits it.
* A Go `error` result is an `Option Err` (`none` is `nil`).
* A loop that the source does not bound takes a `fuel` argument and returns
  `none` when the fuel runs out; a panic is an error of its own.
-/

namespace Aergo

/-! ## Go maps -/

/-- Lookup in a list of pairs: the value of the first pair with the key. -/
def lookupPairs {K V : Type} [DecidableEq K] : List (K × V) → K → Option V
  | [], _ => none
  | (a, b) :: t, k => if a = k then some b else lookupPairs t k

/-- Removal of every pair with the key from a list of pairs. -/
def erasePairs {K V : Type} [DecidableEq K] : List (K × V) → K → List (K × V)
  | [], _ => []
  | (a, b) :: t, k => if a = k then erasePairs t k else (a, b) :: erasePairs t k

theorem mem_keys_erasePairs {K V : Type} [DecidableEq K] (l : List (K × V)) (k x : K) :
    x ∈ (erasePairs l k).map Prod.fst ↔ x ∈ l.map Prod.fst ∧ x ≠ k := by
  induction l with
  | nil => simp [erasePairs]
  | cons p t ih =>
    obtain ⟨a, b⟩ := p
    by_cases h : a = k
    · subst h
      simp only [erasePairs, if_true, ih, List.map_cons, List.mem_cons]
      constructor
      · rintro ⟨h1, h2⟩; exact ⟨Or.inr h1, h2⟩
      · rintro ⟨h1 | h1, h2⟩
        · exact absurd h1 h2
        · exact ⟨h1, h2⟩
    · simp only [erasePairs, if_neg h, List.map_cons, List.mem_cons, ih]
      constructor
      · rintro (h1 | ⟨h1, h2⟩)
        · exact ⟨Or.inl h1, by rw [h1]; exact h⟩
        · exact ⟨Or.inr h1, h2⟩
      · rintro ⟨h1 | h1, h2⟩
        · exact Or.inl h1
        · exact Or.inr ⟨h1, h2⟩

theorem nodup_keys_erasePairs {K V : Type} [DecidableEq K] (l : List (K × V)) (k : K)
    (h : (l.map Prod.fst).Nodup) : ((erasePairs l k).map Prod.fst).Nodup := by
  induction l with
  | nil => simp [erasePairs]
  | cons p t ih =>
    obtain ⟨a, b⟩ := p
    simp only [List.map_cons, List.nodup_cons] at h
    by_cases hk : a = k
    · simp only [erasePairs, if_pos hk]; exact ih h.2
    · simp only [erasePairs, if_neg hk, List.map_cons, List.nodup_cons]
      refine ⟨fun hm => h.1 ((mem_keys_erasePairs t k a).1 hm).1, ih h.2⟩

theorem nodup_keys_cons_erasePairs {K V : Type} [DecidableEq K] (l : List (K × V)) (k : K)
    (v : V) (h : (l.map Prod.fst).Nodup) : (((k, v) :: erasePairs l k).map Prod.fst).Nodup := by
  simp only [List.map_cons, List.nodup_cons]
  exact ⟨fun hm => ((mem_keys_erasePairs l k k).1 hm).2 rfl, nodup_keys_erasePairs l k h⟩

/-- A Go map: key/value pairs, at most one pair per key. -/
structure GoMap (K V : Type) where
  entries : List (K × V)
  nodup : (entries.map Prod.fst).Nodup

instance {K V : Type} [DecidableEq K] [DecidableEq V] : DecidableEq (GoMap K V) :=
  fun a b => decidable_of_iff (a.entries = b.entries)
    ⟨fun h => by cases a; cases b; cases h; rfl, fun h => by rw [h]⟩

instance {K V : Type} [Repr K] [Repr V] : Repr (GoMap K V) :=
  ⟨fun m n => reprPrec m.entries n⟩

namespace GoMap

variable {K V : Type} [DecidableEq K]

/-- The empty map, `make(map[K]V)`. -/
def empty : GoMap K V := ⟨[], List.nodup_nil⟩

/-- Lookup `m[k]` with the presence flag: `none` when the key is absent. -/
def get? (m : GoMap K V) (k : K) : Option V := lookupPairs m.entries k

/-- Assignment `m[k] = v`. -/
def set (m : GoMap K V) (k : K) (v : V) : GoMap K V :=
  ⟨(k, v) :: erasePairs m.entries k, nodup_keys_cons_erasePairs m.entries k v m.nodup⟩

/-- Presence of a key, the `ok` of `_, ok := m[k]`. -/
def contains (m : GoMap K V) (k : K) : Bool := (get? m k).isSome

/-- The keys, in the order `range` visits them. -/
def keys (m : GoMap K V) : List K := m.entries.map Prod.fst

/-- The number of keys, `len(m)`. -/
def len (m : GoMap K V) : Nat := m.entries.length

/-- The loop `for k, v := range src { dst[k] = v }`. -/
def assignAll (dst src : GoMap K V) : GoMap K V :=
  src.entries.foldl (fun acc kv => set acc kv.1 kv.2) dst

end GoMap

/-! ## `types/state.go` -/

/-- The type `HashID`, a `[32]byte`. -/
abbrev HashID := List Nat
/-- The type `BlockID`. -/
abbrev BlockID := HashID
/-- The type `AccountID`. -/
abbrev AccountID := HashID

/-- Zero value `types.HashID{}`. -/
def emptyHashID : HashID := List.replicate 32 0
/-- Zero value `types.BlockID{}`. -/
def emptyBlockID : BlockID := List.replicate 32 0
/-- Zero value `types.AccountID{}`. -/
def emptyAccountID : AccountID := List.replicate 32 0

/-- `ToHashID`: `copy` into a zeroed 32-byte buffer. -/
def ToHashID (hash : List Nat) : HashID :=
  hash.take 32 ++ List.replicate (32 - hash.length) 0

/-- `ToBlockID`. -/
def ToBlockID (blockHash : List Nat) : BlockID := ToHashID blockHash

/-- The account state `State`. -/
structure State where
  Nonce : Nat
  Balance : Nat
  CodeHash : List Nat
  StorageRoot : List Nat
deriving DecidableEq, Repr

/-- A `*State`. -/
abbrev StatePtr := Option State

/-- `NewState`. -/
def NewState : State := { Nonce := 0, Balance := 0, CodeHash := [], StorageRoot := [] }

/-- `State.IsEmpty`. -/
def State.IsEmpty (st : State) : Bool := st.Nonce == 0 && st.Balance == 0

/-- The struct `BlockInfo`. -/
structure BlockInfo where
  BlockNo : Nat
  BlockHash : BlockID
  PrevHash : BlockID
deriving DecidableEq, Repr

/-- The struct `undoStates`. -/
structure undoStates where
  StateRoot : HashID
  Accounts : GoMap AccountID StatePtr
deriving DecidableEq, Repr

/-- The struct `BlockState`, which embeds `BlockInfo`. -/
structure BlockState extends BlockInfo where
  accounts : GoMap AccountID StatePtr
  Undo : undoStates
deriving DecidableEq, Repr

/-- `NewBlockInfo`. -/
def NewBlockInfo (blockNo : Nat) (blockHash prevHash : BlockID) : BlockInfo :=
  { BlockNo := blockNo, BlockHash := blockHash, PrevHash := prevHash }

/-- `NewBlockState`: empty account map, empty undo map, zero undo root. -/
def NewBlockState (blockInfo : BlockInfo) : BlockState :=
  { toBlockInfo := blockInfo, accounts := GoMap.empty,
    Undo := { StateRoot := emptyHashID, Accounts := GoMap.empty } }

/-- `BlockState.GetAccount`: the state and the presence flag in one option. -/
def BlockState.GetAccount (bs : BlockState) (aid : AccountID) : Option StatePtr :=
  GoMap.get? bs.accounts aid

/-- `BlockState.GetAccountStates`. -/
def BlockState.GetAccountStates (bs : BlockState) : GoMap AccountID StatePtr :=
  bs.accounts

/-- `BlockState.PutAccount`. -/
def BlockState.PutAccount (bs : BlockState) (aid : AccountID)
    (stateBefore stateChanged : StatePtr) : BlockState :=
  let undo :=
    if !(GoMap.contains bs.Undo.Accounts aid) then
      { bs.Undo with Accounts := GoMap.set bs.Undo.Accounts aid stateBefore }
    else bs.Undo
  { bs with Undo := undo, accounts := GoMap.set bs.accounts aid stateChanged }

/-- One `PutAccount` call: the account, `stateBefore` and `stateChanged`. -/
structure PutCall where
  aid : AccountID
  stateBefore : StatePtr
  stateChanged : StatePtr
deriving DecidableEq, Repr

/-- A sequence of `PutAccount` calls on a block state, in order. -/
def putAccounts (bs : BlockState) (calls : List PutCall) : BlockState :=
  calls.foldl (fun b c => b.PutAccount c.aid c.stateBefore c.stateChanged) bs

/-- The calls of a sequence that write the account `aid`, in order. -/
def callsFor (calls : List PutCall) (aid : AccountID) : List PutCall :=
  calls.filter (fun c => c.aid = aid)

/-- `BlockState.SetBlockHash` (on a non-nil receiver). -/
def BlockState.SetBlockHash (bs : BlockState) (blockHash : BlockID) : BlockState :=
  { bs with BlockHash := blockHash }

/-- `ToAccountID`: the trie hasher (sha512/256, a library function taken as a
parameter) applied to the address, copied into a `HashID`. -/
def ToAccountID (TrieHasher : List Nat → List Nat) (account : List Nat) : AccountID :=
  ToHashID (TrieHasher account)

/-! ## `types/blockchain.go` (the parts the executor reads) -/

/-- The message `TxBody`. `Payload` is `none` for a nil slice, since the
executor tests `Payload != nil`. `Type_` (the field `Type`) is the enum value: 0 is `NORMAL`,
1 is `GOVERNANCE`. -/
structure TxBody where
  Nonce : Nat
  Account : List Nat
  Recipient : List Nat
  Amount : Nat
  Payload : Option (List Nat)
  Limit : Nat
  Price : Nat
  Type_ : Nat
  Sign : List Nat
deriving DecidableEq, Repr

/-- The message `Tx`. -/
structure Tx where
  Hash : List Nat
  Body : TxBody
deriving DecidableEq, Repr

/-- Enum value `TxType_NORMAL`. -/
def TxType_NORMAL : Nat := 0
/-- Enum value `TxType_GOVERNANCE`. -/
def TxType_GOVERNANCE : Nat := 1

/-- The message `BlockHeader` (fields the chain core reads). -/
structure BlockHeader where
  PrevBlockHash : List Nat
  BlockNo : Nat
  Timestamp : Int
deriving DecidableEq, Repr

/-- The message `Block`. -/
structure Block where
  Hash : List Nat
  Header : BlockHeader
  Txs : List Tx
deriving DecidableEq, Repr

/-- The block state `x` directly follows `y`: one block higher, and its
previous hash is the hash of `y`. -/
def Follows (x y : BlockState) : Prop :=
  x.BlockNo = y.BlockNo + 1 ∧ x.PrevHash = y.BlockHash

/-- The block states `ups`, the newest first, form a chain on top of `base`
with block numbers below `2^64`. -/
def Linked : List BlockState → BlockState → Prop
  | [], _ => True
  | x :: rest, base => Follows x (rest.headD base) ∧ x.BlockNo < 2 ^ 64 ∧ Linked rest base

/-- The struct `Genesis`: the allocation map and the hash of its block. -/
structure Genesis where
  Balance : GoMap String StatePtr
  BlockHash : List Nat
deriving DecidableEq, Repr

/-! ## `state/statedb.go` -/

/-- Errors of the chain core, one constructor per error site of the source;
`nilDereference` stands for the panic of reading through a nil `*State`, and
`external` for errors of the trie, the store, the contract VM and the
governance handler. `notFound` is the error of a read of the block store,
`orphanFromBP` and `invalidOrphanBlockNo` are the errors `addBlock` and
`connectOrphan` make, `panic` is the `panic(err)` of a failed reorganization. -/
inductive Err where
  | invalidAccountID
  | applyInvalidBlockNo
  | applyInvalidPrevBlock
  | rollbackInvalidBlockNo
  | blockStateNotFound
  | nilDereference
  | external (code : Nat)
  | notFound
  | orphanFromBP
  | invalidOrphanBlockNo
  | panic
deriving DecidableEq, Repr

deriving instance DecidableEq for Except

/-- The errors `Apply` returns for a block state out of sequence. -/
def Err.isInvalidSequence : Err → Bool
  | .applyInvalidBlockNo => true
  | .applyInvalidPrevBlock => true
  | _ => false

/-- The trie of `pkg/trie`: its exported field `Root` and the rest of it. -/
structure Trie (C : Type) where
  Root : List Nat
  cache : C
deriving DecidableEq, Repr

/-- The struct `ChainStateDB` after `Init`: `latest` and `trie` are set.
`statedb` holds the block states written by `saveBlockState`. -/
structure ChainStateDB (C : Type) where
  accounts : GoMap AccountID StatePtr
  trie : Trie C
  latest : BlockInfo
  statedb : GoMap BlockID BlockState
deriving DecidableEq, Repr

/-- What the chain core calls outside `src/`: library hashes, protobuf
serialization, the methods of the trie, the persistence of the state DB and
the contract and governance handlers. Every method that can fail returns the
object it may have changed together with its error, a number that the
embedding wraps in `Err.external`. The contract VM and the governance handler
are taken to act on the account states they are handed; their own databases
are not part of the embedding. -/
structure Env (C CS : Type) where
  TrieHasher : List Nat → List Nat
  sha256 : List Nat → List Nat
  ToAddress : String → List Nat
  Marshal : StatePtr → Except Nat (List Nat)
  trieUpdate : Trie C → List (List Nat) → List (List Nat) → Trie C × Option Nat
  trieCommit : Trie C → Trie C
  trieRevert : Trie C → List Nat → Trie C × Option Nat
  trieLoadCache : Trie C → List Nat → Trie C × Option Nat
  saveStateDB : GoMap AccountID StatePtr → BlockInfo → Option Nat
  OpenContractState : State → Except Nat CS
  contractCreate : CS → State → List Nat → List Nat → List Nat → State × Option Nat
  contractCall : CS → State → TxBody → List Nat → List Nat → Nat → Int → CS × State × Option Nat
  CommitContractState : CS → State → State × Option Nat
  executeGovernanceTx : TxBody → State → State → Nat → State × State × Option Nat
  calculateBlockHash : BlockHeader → List Nat

/-- The error of a call outside `src/`. -/
def extErr (code : Option Nat) : Option Err := code.map Err.external

/-- `2^64`, the modulus of `uint64`. -/
def u64 : Nat := 2 ^ 64

/-- `bytes.Compare`: lexicographic, `-1`, `0` or `1`. -/
def bytesCompare : List Nat → List Nat → Int
  | [], [] => 0
  | [], _ :: _ => -1
  | _ :: _, [] => 1
  | a :: as, b :: bs =>
    if a < b then -1 else if b < a then 1 else bytesCompare as bs

/-- The `sort.Slice` call of `updateTrie`: ascending for `bytes.Compare`. -/
def sortAccountIDs (accs : List AccountID) : List AccountID :=
  accs.insertionSort (fun a b => bytesCompare a b ≤ 0)

section StateDB

variable {C CS : Type} (env : Env C CS)

/-- `getAccountState`: a missing account is created empty in the committed map. -/
def getAccountState (sdb : ChainStateDB C) (aid : AccountID) :
    ChainStateDB C × Except Err StatePtr :=
  if aid = emptyAccountID then (sdb, .error .invalidAccountID)
  else
    match GoMap.get? sdb.accounts aid with
    | some state => (sdb, .ok state)
    | none =>
      ({ sdb with accounts := GoMap.set sdb.accounts aid (some NewState) }, .ok (some NewState))

/-- The copy `types.Clone(*state).(types.State)` of a `*State`. -/
def cloneState : StatePtr → Except Err State
  | some st => .ok st
  | none => .error .nilDereference

/-- `GetAccountStateClone`. -/
def GetAccountStateClone (sdb : ChainStateDB C) (aid : AccountID) :
    ChainStateDB C × Except Err State :=
  match getAccountState sdb aid with
  | (sdb1, .error e) => (sdb1, .error e)
  | (sdb1, .ok state) => (sdb1, cloneState state)

/-- `getBlockAccount`. -/
def getBlockAccount (sdb : ChainStateDB C) (bs : BlockState) (aid : AccountID) :
    ChainStateDB C × Except Err StatePtr :=
  if aid = emptyAccountID then (sdb, .error .invalidAccountID)
  else
    match bs.GetAccount aid with
    | some prev => (sdb, .ok prev)
    | none => getAccountState sdb aid

/-- `GetBlockAccountClone`. -/
def GetBlockAccountClone (sdb : ChainStateDB C) (bs : BlockState) (aid : AccountID) :
    ChainStateDB C × Except Err State :=
  match getBlockAccount sdb bs aid with
  | (sdb1, .error e) => (sdb1, .error e)
  | (sdb1, .ok state) => (sdb1, cloneState state)

/-- What the committed map holds for an account as `getAccountState` reads
it: the stored pointer, or a new empty state when the key is absent. -/
def peekAccount (accounts : GoMap AccountID StatePtr) (aid : AccountID) : StatePtr :=
  (GoMap.get? accounts aid).getD (some NewState)

/-- The result of `GetBlockAccountClone` as a function of the committed map
and the block state. -/
def blockView (accounts : GoMap AccountID StatePtr) (bs : BlockState) (aid : AccountID) :
    Except Err State :=
  if aid = emptyAccountID then .error .invalidAccountID
  else
    match bs.GetAccount aid with
    | some prev => cloneState prev
    | none => cloneState (peekAccount accounts aid)

/-- The loop of `updateTrie` that fills `vals`: `proto.Marshal(accounts[v])`
for each sorted key, stopping at the first error. -/
def marshalAll (accounts : GoMap AccountID StatePtr) :
    List AccountID → Except Err (List (List Nat))
  | [] => .ok []
  | v :: rest =>
    match env.Marshal ((GoMap.get? accounts v).getD none) with
    | .error e => .error (.external e)
    | .ok b =>
      match marshalAll accounts rest with
      | .error e => .error e
      | .ok bs => .ok (b :: bs)

/-- `updateTrie`. -/
def updateTrie (sdb : ChainStateDB C) (bstate : BlockState) : ChainStateDB C × Option Err :=
  let accounts := bstate.GetAccountStates
  if accounts.len ≤ 0 then (sdb, none)
  else
    let accs := sortAccountIDs (GoMap.keys accounts)
    match marshalAll env accounts accs with
    | .error e => (sdb, some e)
    | .ok vals =>
      match env.trieUpdate sdb.trie accs vals with
      | (t, some e) => ({ sdb with trie := t }, some (.external e))
      | (t, none) => ({ sdb with trie := env.trieCommit t }, none)

/-- `revertTrie`. -/
def revertTrie (sdb : ChainStateDB C) (prevBlockStateRoot : HashID) :
    ChainStateDB C × Option Err :=
  if sdb.trie.Root = prevBlockStateRoot then (sdb, none)
  else
    match env.trieRevert sdb.trie prevBlockStateRoot with
    | (t, some _) =>
      let t1 : Trie C := { t with Root := prevBlockStateRoot }
      let r := env.trieLoadCache t1 t1.Root
      ({ sdb with trie := r.1 }, extErr r.2)
    | (t, none) => ({ sdb with trie := t }, none)

/-- Modelled from the spec: `saveBlockState`, which is not in `src/`. The
block state is persisted, and retained keyed by its block hash. -/
def saveBlockState (sdb : ChainStateDB C) (bstate : BlockState) : ChainStateDB C :=
  { sdb with statedb := GoMap.set sdb.statedb bstate.BlockHash bstate }

/-- Modelled from the spec: `loadBlockState`, which is not in `src/`. The
stored block state for a block hash, an error when there is none. -/
def loadBlockState (sdb : ChainStateDB C) (bid : BlockID) : Except Err BlockState :=
  match GoMap.get? sdb.statedb bid with
  | some bs => .ok bs
  | none => .error .blockStateNotFound

/-- The block state as `apply` leaves it: the undo root is the current trie
root when it was still empty. -/
def withUndoRoot (sdb : ChainStateDB C) (bstate : BlockState) : BlockState :=
  if bstate.Undo.StateRoot = emptyHashID then
    { bstate with Undo := { bstate.Undo with StateRoot := ToHashID sdb.trie.Root } }
  else bstate

/-- The unexported `apply` (named `applyState` since `apply` and `Apply` differ
by case only). -/
def applyState (sdb : ChainStateDB C) (bstate0 : BlockState) : ChainStateDB C × Option Err :=
  let bstate := withUndoRoot sdb bstate0
  let sdb1 := saveBlockState sdb bstate
  let sdb2 := { sdb1 with accounts := GoMap.assignAll sdb1.accounts bstate.GetAccountStates }
  match updateTrie env sdb2 bstate with
  | (sdb3, some e) => (sdb3, some e)
  | (sdb3, none) =>
    let sdb4 := { sdb3 with latest := bstate.toBlockInfo }
    (sdb4, extErr (env.saveStateDB sdb4.accounts sdb4.latest))

/-- `Apply`. -/
def Apply (sdb : ChainStateDB C) (bstate : BlockState) : ChainStateDB C × Option Err :=
  if (sdb.latest.BlockNo + 1) % u64 ≠ bstate.BlockNo then (sdb, some .applyInvalidBlockNo)
  else if sdb.latest.BlockHash ≠ bstate.PrevHash then (sdb, some .applyInvalidPrevBlock)
  else applyState env sdb bstate

/-- The `for` loop of `Rollback`; `none` when `fuel` iterations did not reach
its end. The error of the pair is that of an early `return err`. -/
def rollbackLoop (blockNo : Nat) :
    Nat → ChainStateDB C → BlockInfo → Option (ChainStateDB C × Option Err)
  | fuel, sdb, target =>
    if target.BlockNo ≥ blockNo then
      match fuel with
      | 0 => none
      | fuel + 1 =>
        match loadBlockState sdb target.BlockHash with
        | .error e => some (sdb, some e)
        | .ok bs =>
          let sdb1 := { sdb with latest := bs.toBlockInfo }
          if target.BlockNo = blockNo then some (sdb1, none)
          else
            let sdb2 := { sdb1 with accounts := GoMap.assignAll sdb1.accounts bs.Undo.Accounts }
            match revertTrie env sdb2 bs.Undo.StateRoot with
            | (sdb3, some e) => some (sdb3, some e)
            | (sdb3, none) =>
              rollbackLoop blockNo fuel sdb3
                { BlockNo := (sdb3.latest.BlockNo + u64 - 1) % u64,
                  BlockHash := sdb3.latest.PrevHash,
                  PrevHash := emptyBlockID }
    else some (sdb, none)

/-- `Rollback`, its loop bounded by `fuel`. -/
def Rollback (fuel : Nat) (sdb : ChainStateDB C) (blockNo : Nat) :
    Option (ChainStateDB C × Option Err) :=
  if sdb.latest.BlockNo ≤ blockNo then some (sdb, some .rollbackInvalidBlockNo)
  else
    match rollbackLoop env blockNo fuel sdb sdb.latest with
    | none => none
    | some (sdb1, some e) => some (sdb1, some e)
    | some (sdb1, none) => some (sdb1, extErr (env.saveStateDB sdb1.accounts sdb1.latest))

/-- The block info `SetGenesis` makes for the genesis block. -/
def genesisInfo (genesisBlock : Genesis) : BlockInfo :=
  { BlockNo := 0, BlockHash := ToBlockID genesisBlock.BlockHash, PrevHash := emptyBlockID }

/-- The block state `SetGenesis` builds: one `PutAccount` with a nil
pre-image for each entry of the allocation. -/
def genesisBlockState (genesisBlock : Genesis) : BlockState :=
  genesisBlock.Balance.entries.foldl
    (fun bs ab => bs.PutAccount (ToAccountID env.TrieHasher (env.ToAddress ab.1)) none ab.2)
    (NewBlockState (genesisInfo genesisBlock))

/-- `SetGenesis`. -/
def SetGenesis (sdb : ChainStateDB C) (genesisBlock : Genesis) : ChainStateDB C × Option Err :=
  let sdb1 := { sdb with latest := genesisInfo genesisBlock }
  applyState env sdb1 (genesisBlockState env genesisBlock)

/-- Two state DBs that differ at most by accounts `getAccountState` created
empty: same trie, `latest` and store, and every account reads the same. -/
def SameView (Sp S : ChainStateDB C) : Prop :=
  Sp.trie = S.trie ∧ Sp.latest = S.latest ∧ Sp.statedb = S.statedb ∧
  ∀ x, peekAccount Sp.accounts x = peekAccount S.accounts x

/-- The state DBs reached from `S0` by successful `Apply` calls, each one
possibly preceded by reads that create empty accounts, together with the
block states stored on the way, the newest first. `Q` is a property of every
applied block state and the state DB it was applied to. -/
inductive Reach (Q : ChainStateDB C → BlockState → Prop) (S0 : ChainStateDB C) :
    List BlockState → ChainStateDB C → Prop
  | start : Reach Q S0 [] S0
  | step {L : List BlockState} {S : ChainStateDB C} (Sp : ChainStateDB C) (bs : BlockState) :
      Reach Q S0 L S → SameView Sp S → Q Sp bs → (Apply env Sp bs).2 = none →
      Reach Q S0 (withUndoRoot Sp bs :: L) (Apply env Sp bs).1

/-- `GetHash`: the current trie root. -/
def GetHash (sdb : ChainStateDB C) : List Nat := sdb.trie.Root

/-- `Apply` called for block states in order, stopping at the first error. -/
def applyAll : ChainStateDB C → List BlockState → ChainStateDB C × Option Err
  | sdb, [] => (sdb, none)
  | sdb, bs :: rest =>
    match Apply env sdb bs with
    | (sdb1, some e) => (sdb1, some e)
    | (sdb1, none) => applyAll sdb1 rest

/-- One full iteration of the loop of `Rollback` on the loaded block state
`bs`: `latest` becomes its block info, the pre-images of its undo record are
written back, and the trie is reverted to its undo root. -/
def undoBlock (sdb : ChainStateDB C) (bs : BlockState) : ChainStateDB C :=
  (revertTrie env
    { accounts := GoMap.assignAll sdb.accounts bs.Undo.Accounts,
      trie := sdb.trie, latest := bs.toBlockInfo, statedb := sdb.statedb }
    bs.Undo.StateRoot).1

/-- Full iterations of the loop of `Rollback` on a list of block states,
the newest first. -/
def undoBlocks (sdb : ChainStateDB C) (ups : List BlockState) : ChainStateDB C :=
  ups.foldl (undoBlock env) sdb

/-- The trie reverts of the full iterations of the loop of `Rollback` on the
block states `ups`, the newest first, all return without error. -/
def undoSucceeds (sdb : ChainStateDB C) : List BlockState → Bool
  | [] => true
  | bs :: rest =>
    (revertTrie env
      { accounts := GoMap.assignAll sdb.accounts bs.Undo.Accounts,
        trie := sdb.trie, latest := bs.toBlockInfo, statedb := sdb.statedb }
      bs.Undo.StateRoot).2.isNone && undoSucceeds (undoBlock env sdb bs) rest

/-- The block states `applyAll` has stored, the newest first: each one with
its undo root as `apply` completed it. -/
def storedStates : ChainStateDB C → List BlockState → List BlockState
  | _, [] => []
  | sdb, bs :: rest => storedStates (Apply env sdb bs).1 rest ++ [withUndoRoot sdb bs]

end StateDB

/-! ## `blockchain/chainhandle.go`: the executor -/

/-- `Block.BlockHash`: the stored hash, calculated when it is empty. -/
def Block.BlockHash (calculateBlockHash : BlockHeader → List Nat) (block : Block) : List Nat :=
  if block.Hash.length = 0 then calculateBlockHash block.Header else block.Hash

/-- `Block.PrevBlockID`. -/
def Block.PrevBlockID (block : Block) : BlockID := ToBlockID block.Header.PrevBlockHash

/-- `[]byte(strconv.FormatUint(n, 10))`: the ASCII decimal digits of `n`. -/
def formatUint (n : Nat) : List Nat := (Nat.toDigits 10 n).map Char.toNat

section Executor

variable {C CS : Type} (env : Env C CS)

/-- `Block.BlockID`. -/
def Block.BlockID (block : Block) : BlockID :=
  ToBlockID (block.BlockHash env.calculateBlockHash)

/-- The recipient address `executeTx` works with: `body.Recipient` when it is
not empty, else the new contract address `0x0C ++ sha256(account ++ nonce)`. -/
def txRecipient (txBody : TxBody) : List Nat :=
  if txBody.Recipient.length > 0 then txBody.Recipient
  else [0x0C] ++ env.sha256 (txBody.Account ++ formatUint txBody.Nonce)

/-- The receiver `AccountID` of `executeTx`. -/
def txReceiverID (txBody : TxBody) : AccountID :=
  ToAccountID env.TrieHasher (txRecipient env txBody)

/-- The payload branch of a `NORMAL` transaction in `executeTx`. An error is
an early `return err`; otherwise the receiver post-image as the contract VM
left it. -/
def execPayload (tx : Tx) (payload recipient : List Nat) (createContract : Bool)
    (blockNo : Nat) (ts : Int) (receiverChange : State) : Except Err State :=
  match env.OpenContractState receiverChange with
  | .error e => .error (.external e)
  | .ok contractState =>
    if createContract then
      match env.contractCreate contractState receiverChange payload recipient tx.Hash with
      | (_, some e) => .error (.external e)
      | (rc, none) => .ok rc
    else
      match env.contractCall contractState receiverChange tx.Body recipient tx.Hash blockNo ts with
      | (_, _, some e) => .error (.external e)
      | (cs1, rc, none) =>
        match env.CommitContractState cs1 rc with
        | (_, some e) => .error (.external e)
        | (rc1, none) => .ok rc1

/-- The `switch txBody.Type` of `executeTx`. An error is an early
`return err`; otherwise the two post-images and the value of `err` the
function goes on with. The sender's subtraction is reached only when the
balance covers the amount, so it cannot wrap; the receiver's addition is
reduced modulo `2^64`. -/
def execTxType (tx : Tx) (senderID receiverID : AccountID) (recipient : List Nat)
    (createContract : Bool) (blockNo : Nat) (ts : Int) (senderState receiverState : State) :
    Except Err (State × State × Option Err) :=
  let txBody := tx.Body
  if txBody.Type_ = TxType_NORMAL then
    let senderChange : State :=
      if senderID ≠ receiverID then
        if senderState.Balance < txBody.Amount then { senderState with Balance := 0 }
        else { senderState with Balance := senderState.Balance - txBody.Amount }
      else senderState
    let receiverChange : State :=
      if senderID ≠ receiverID then
        { receiverState with Balance := (receiverState.Balance + txBody.Amount) % u64 }
      else receiverState
    match txBody.Payload with
    | some payload =>
      match execPayload env tx payload recipient createContract blockNo ts receiverChange with
      | .error e => .error e
      | .ok rc => .ok (senderChange, rc, none)
    | none => .ok (senderChange, receiverChange, none)
  else if txBody.Type_ = TxType_GOVERNANCE then
    match env.executeGovernanceTx txBody senderState receiverState blockNo with
    | (sc, rc, e) => .ok (sc, rc, extErr e)
  else .ok (senderState, receiverState, none)

/-- `executeTx`: the state DB (whose committed map `getAccountState` may
extend), the block state, and the error. -/
def executeTx (sdb : ChainStateDB C) (bs : BlockState) (tx : Tx) (blockNo : Nat) (ts : Int) :
    ChainStateDB C × BlockState × Option Err :=
  let txBody := tx.Body
  let senderID := ToAccountID env.TrieHasher txBody.Account
  match GetBlockAccountClone sdb bs senderID with
  | (sdb1, .error e) => (sdb1, bs, some e)
  | (sdb1, .ok senderState) =>
    let createContract : Bool := !(decide (txBody.Recipient.length > 0))
    let recipient := txRecipient env txBody
    let receiverID := ToAccountID env.TrieHasher recipient
    match GetBlockAccountClone sdb1 bs receiverID with
    | (sdb2, .error e) => (sdb2, bs, some e)
    | (sdb2, .ok receiverState) =>
      match execTxType env tx senderID receiverID recipient createContract blockNo ts
          senderState receiverState with
      | .error e => (sdb2, bs, some e)
      | .ok (senderChange0, receiverChange, err) =>
        let senderChange : State := { senderChange0 with Nonce := txBody.Nonce }
        let bs1 := bs.PutAccount senderID (some senderState) (some senderChange)
        let bs2 :=
          if senderID ≠ receiverID then
            bs1.PutAccount receiverID (some receiverState) (some receiverChange)
          else bs1
        (sdb2, bs2, err)

/-- The loop of `executor.execute` over the transactions of the block, left
at the first error. -/
def executeTxs (blockNo : Nat) (ts : Int) :
    ChainStateDB C → BlockState → List Tx → ChainStateDB C × BlockState × Option Err
  | sdb, bs, [] => (sdb, bs, none)
  | sdb, bs, tx :: rest =>
    match executeTx env sdb bs tx blockNo ts with
    | (sdb1, bs1, some e) => (sdb1, bs1, some e)
    | (sdb1, bs1, none) => executeTxs blockNo ts sdb1 bs1 rest

/-- `newExecutor` followed by `executor.execute`: with a block state from the
block producer nothing is executed, else the transactions run over a fresh
block state; then the block state is applied. -/
def execute (sdb : ChainStateDB C) (bState : Option BlockState) (block : Block) :
    ChainStateDB C × Option Err :=
  match bState with
  | some bs => Apply env sdb bs
  | none =>
    let bs0 := NewBlockState
      (NewBlockInfo block.Header.BlockNo (block.BlockID env) block.PrevBlockID)
    match executeTxs env block.Header.BlockNo block.Header.Timestamp sdb bs0 block.Txs with
    | (sdb1, _, some e) => (sdb1, some e)
    | (sdb1, bs1, none) => Apply env sdb1 bs1

/-- The executor run over successive blocks received from the network (no
block state from a block producer), stopping at the first error. -/
def executeAll : ChainStateDB C → List Block → ChainStateDB C × Option Err
  | sdb, [] => (sdb, none)
  | sdb, block :: rest =>
    match execute env sdb none block with
    | (sdb1, some e) => (sdb1, some e)
    | (sdb1, none) => executeAll sdb1 rest

end Executor

/-- The undo record of a block state is complete for the committed map
`accounts`: every pre-image is what the account read as in `accounts`, and
every changed account has a pre-image. -/
def UndoComplete (accounts : GoMap AccountID StatePtr) (bs : BlockState) : Prop :=
  (∀ x v, GoMap.get? bs.Undo.Accounts x = some v → v = peekAccount accounts x) ∧
  (∀ x, GoMap.get? bs.Undo.Accounts x = none → GoMap.get? bs.accounts x = none)

/-- The block info the executor gives the block state of a block. -/
def blockInfoOf {C CS : Type} (env : Env C CS) (block : Block) : BlockInfo :=
  NewBlockInfo block.Header.BlockNo (block.BlockID env) block.PrevBlockID

/-- A block whose transactions are all `NORMAL` and without payload. -/
def PlainBlock (block : Block) : Prop :=
  ∀ tx ∈ block.Txs, tx.Body.Type_ = TxType_NORMAL ∧ tx.Body.Payload = none

instance (block : Block) : Decidable (PlainBlock block) := by
  unfold PlainBlock
  infer_instance

/-! ## The block store and the chain service -/

/-- Modelled from the spec: the block store `ChainDB`, which is not in
`src/`. It holds the persisted keys `block/<hash>`, `blockno/<n>` (main chain
only) and `tx/<hash>`, and the `latest` pointer. -/
structure ChainDB where
  blocks : GoMap (List Nat) Block
  blockNos : GoMap Nat (List Nat)
  txs : GoMap (List Nat) (List Nat × Nat)
  latest : Nat
deriving DecidableEq, Repr

/-- Modelled from the spec: `ChainDB.getBestBlockNo`, which is not in `src/`;
it returns `latest`. -/
def ChainDB.getBestBlockNo (cdb : ChainDB) : Nat := cdb.latest

/-- Modelled from the spec: `ChainDB.getBlock`, which is not in `src/`; the
block stored under the hash, or a NotFound error. -/
def ChainDB.getBlock (cdb : ChainDB) (blockHash : List Nat) : Except Err Block :=
  match GoMap.get? cdb.blocks blockHash with
  | some b => .ok b
  | none => .error .notFound

/-- Modelled from the spec: `ChainDB.getHashByNo`, which is not in `src/`;
the hash the main index holds for the block number, or a NotFound error. -/
def ChainDB.getHashByNo (cdb : ChainDB) (blockNo : Nat) : Except Err (List Nat) :=
  match GoMap.get? cdb.blockNos blockNo with
  | some h => .ok h
  | none => .error .notFound

/-- Modelled from the spec: `ChainDB.getBlockByNo`, which is not in `src/`;
it resolves the block number via the main index. -/
def ChainDB.getBlockByNo (cdb : ChainDB) (blockNo : Nat) : Except Err Block :=
  match cdb.getHashByNo blockNo with
  | .error e => .error e
  | .ok h => cdb.getBlock h

/-- Modelled from the spec: the orphan pool, which is not in `src/` apart
from the lookup `connectOrphan` makes in its `cache`: the parked blocks, each
under the `BlockID` of its parent. -/
structure OrphanPool where
  cache : GoMap BlockID Block
deriving DecidableEq, Repr

/-- What `addBlock` does to the store transaction and to other actors, in
the order in which it happens: opening, committing and discarding a store
transaction; a successful `executeBlock` and a successful `cdb.addBlock`;
the `MemPoolDel` request; `cdb.setLatest`; `StatusUpdate` and `notifyBlock`;
the `GetMissingBlocks` request. -/
inductive Event where
  | newTx
  | txCommit
  | txDiscard
  | executeBlock (block : Block)
  | storeAddBlock (block : Block)
  | memPoolDel (blockNo : Nat) (txs : List Tx)
  | setLatest (blockNo : Nat)
  | statusUpdate (block : Block)
  | notifyBlock (block : Block)
  | getMissingBlocks (toWhom : String) (hashes : List (List Nat))
deriving DecidableEq, Repr

/-- The struct `ChainService`: block store, state DB and orphan pool,
together with the record of the effects so far, the oldest first. -/
structure ChainService (C : Type) where
  cdb : ChainDB
  sdb : ChainStateDB C
  op : OrphanPool
  trace : List Event
deriving DecidableEq, Repr

section ChainReads

variable {C : Type}

/-- `ChainService.getBestBlockNo`. -/
def ChainService.getBestBlockNo (cs : ChainService C) : Nat := cs.cdb.getBestBlockNo

/-- `ChainService.getBestBlock`. -/
def ChainService.getBestBlock (cs : ChainService C) : Except Err Block :=
  cs.cdb.getBlockByNo cs.cdb.getBestBlockNo

/-- `ChainService.getBlockByNo`. -/
def ChainService.getBlockByNo (cs : ChainService C) (blockNo : Nat) : Except Err Block :=
  cs.cdb.getBlockByNo blockNo

/-- `ChainService.getBlock`. -/
def ChainService.getBlock (cs : ChainService C) (blockHash : List Nat) : Except Err Block :=
  cs.cdb.getBlock blockHash

/-- `ChainService.getHashByNo`. -/
def ChainService.getHashByNo (cs : ChainService C) (blockNo : Nat) : Except Err (List Nat) :=
  cs.cdb.getHashByNo blockNo

/-! ## `blockchain/chainanchor.go` -/

/-- The type `ChainAnchor`. -/
abbrev ChainAnchor := List (List Nat)

/-- How the first loop of `getAnchorsFromHash` ends: with a `return` (of nil
after a failed lookup, of the anchors at block 0), or with its ten iterations
used up. -/
inductive LatestAnchors where
  | returned (anchors : Option ChainAnchor)
  | next (anchors : ChainAnchor) (latestNo : Nat)
deriving DecidableEq, Repr

/-- The first loop of `getAnchorsFromHash`, `n` iterations from its end. -/
def anchorsLatest (cs : ChainService C) : Nat → ChainAnchor → Nat → LatestAnchors
  | 0, anchors, latestNo => .next anchors latestNo
  | n + 1, anchors, latestNo =>
    match cs.getHashByNo latestNo with
    | .error _ => .returned none
    | .ok blockHash =>
      if latestNo = 0 then .returned (some (anchors ++ [blockHash]))
      else anchorsLatest cs n (anchors ++ [blockHash]) (latestNo - 1)

/-- The second loop of `getAnchorsFromHash`, `n` iterations from its end,
with the `return anchors` that follows it. -/
def anchorsExponential (cs : ChainService C) : Nat → ChainAnchor → Nat → Nat → Option ChainAnchor
  | 0, anchors, _, _ => some anchors
  | n + 1, anchors, latestNo, dec =>
    match cs.getHashByNo latestNo with
    | .error _ => none
    | .ok blockHash =>
      if latestNo ≤ dec then
        if latestNo = 0 then some (anchors ++ [blockHash])
        else anchorsExponential cs n (anchors ++ [blockHash]) 0 dec
      else anchorsExponential cs n (anchors ++ [blockHash]) (latestNo - dec) ((dec * 2) % u64)

/-- `getAnchorsFromHash`; `none` is the nil it returns when a lookup fails. -/
def getAnchorsFromHash (cs : ChainService C) (blockHash : List Nat) : Option ChainAnchor :=
  match anchorsLatest cs 10 [blockHash] cs.getBestBlockNo with
  | .returned r => r
  | .next anchors latestNo => anchorsExponential cs 10 anchors latestNo 1

/-- The block numbers the first loop of `getAnchorsFromHash` reads, and the
block number it hands to the second loop when it does not return. -/
def latestNos : Nat → Nat → List Nat × Option Nat
  | 0, latestNo => ([], some latestNo)
  | n + 1, latestNo =>
    if latestNo = 0 then ([0], none)
    else (latestNo :: (latestNos n (latestNo - 1)).1, (latestNos n (latestNo - 1)).2)

/-- The block numbers the second loop of `getAnchorsFromHash` reads. -/
def expNos : Nat → Nat → Nat → List Nat
  | 0, _, _ => []
  | n + 1, latestNo, dec =>
    latestNo ::
      (if latestNo ≤ dec then (if latestNo = 0 then [] else expNos n 0 dec)
       else expNos n (latestNo - dec) ((dec * 2) % u64))

/-- The block numbers `getAnchorsFromHash` reads, in order, for a chain whose
best block number is `latest`. -/
def anchorNos (latest : Nat) : List Nat :=
  match (latestNos 10 latest).2 with
  | none => (latestNos 10 latest).1
  | some latestNo => (latestNos 10 latest).1 ++ expNos 10 latestNo 1

/-- The block number of the block a hash identifies in the block store, when
it identifies one. -/
def blockNoOfHash (cs : ChainService C) (h : List Nat) : Option Nat :=
  match cs.getBlock h with
  | .ok b => some b.Header.BlockNo
  | .error _ => none

/-! ## `blockchain/chainhandle.go`: missing-range resolution -/

/-- Step 2 of `handleMissing`, the loop over the candidate hashes; the result
is the variable `mainblock` after the loop (`none` is nil). A failed `getBlock`
is taken to return a nil block with its error. -/
def findAncestor (cs : ChainService C) : Option Block → List (List Nat) → Option Block
  | mainblock, [] => mainblock
  | _, hash :: rest =>
    match cs.cdb.getBlock hash with
    | .error _ => findAncestor cs none rest
    | .ok mainblock =>
      match cs.cdb.getHashByNo mainblock.Header.BlockNo with
      | .error _ => findAncestor cs (some mainblock) rest
      | .ok mainhash =>
        if mainhash = mainblock.Hash then some mainblock
        else findAncestor cs none rest

/-- Step 3 of `handleMissing`: the loop `for i := 0; i < loop; i++` from its
counter `i` on, `n` iterations from its end. Reading through the nil block of
a failed `getBlockByNo` is the error `nilDereference`. -/
def collectMissing (cs : ChainService C) (mainBlockNo : Nat) :
    Nat → Nat → List (List Nat) → List Nat → Except Err (List (List Nat) × List Nat)
  | 0, _, rhashes, rnos => .ok (rhashes, rnos)
  | n + 1, i, rhashes, rnos =>
    match cs.getBlockByNo ((mainBlockNo + i) % u64) with
    | .error _ => .error .nilDereference
    | .ok tBlock =>
      collectMissing cs mainBlockNo n (i + 1) (rhashes ++ [tBlock.Hash])
        (rnos ++ [tBlock.Header.BlockNo])

/-- `handleMissing`. `stopHash` is `none` for a nil slice; the result `none`
is the pair of nil slices. -/
def handleMissing (cs : ChainService C) (stopHash : Option (List Nat))
    (Hashes : List (List Nat)) : Except Err (Option (List (List Nat) × List Nat)) :=
  let stop :=
    match stopHash with
    | none => cs.getBestBlock
    | some h => cs.cdb.getBlock h
  match stop with
  | .error _ => .ok none
  | .ok stopBlock =>
    match findAncestor cs none Hashes with
    | none => .ok none
    | some mainblock =>
      let mainBlockNo := mainblock.Header.BlockNo
      let loop := (stopBlock.Header.BlockNo + u64 - mainBlockNo) % u64
      match collectMissing cs mainBlockNo loop 0 [] [] with
      | .error e => .error e
      | .ok r => .ok (some r)

end ChainReads

/-- The hash the main index holds for a block number, empty when it holds
none. -/
def hashAt {C : Type} (cs : ChainService C) (blockNo : Nat) : List Nat :=
  match cs.getHashByNo blockNo with
  | .ok h => h
  | .error _ => []


/-- The block a hash identifies on the main chain: the stored block of that
hash, when the main index maps its block number back to its hash. -/
def mainChainBlock {C : Type} (cs : ChainService C) (h : List Nat) : Option Block :=
  match cs.cdb.getBlock h with
  | .error _ => none
  | .ok b =>
    match cs.cdb.getHashByNo b.Header.BlockNo with
    | .error _ => none
    | .ok mainhash => if mainhash = b.Hash then some b else none


/-! ## `blockchain/chainhandle.go`: block ingestion -/

/-- Removal of a key from a Go map, `delete(m, k)`. -/
def GoMap.erase {K V : Type} [DecidableEq K] (m : GoMap K V) (k : K) : GoMap K V :=
  ⟨erasePairs m.entries k, nodup_keys_erasePairs m.entries k m.nodup⟩

/-- A write of a store transaction: a block under its hash, a main-index
entry, or a transaction-index entry. -/
inductive StoreWrite where
  | block (hash : List Nat) (b : Block)
  | blockNo (blockNo : Nat) (hash : List Nat)
  | tx (txHash : List Nat) (blockHash : List Nat) (idx : Nat)
deriving DecidableEq, Repr

/-- Modelled from the spec: `ChainDB.isMainChain`, which is not in `src/`;
true iff the previous hash of the block is the main-index hash of `latest`. -/
def ChainDB.isMainChain (cdb : ChainDB) (block : Block) : Except Err Bool :=
  match cdb.getHashByNo cdb.latest with
  | .error e => .error e
  | .ok h => .ok (decide (block.Header.PrevBlockHash = h))

/-- Modelled from the spec: the writes of `ChainDB.addBlock`, which is not in
`src/`: the block under its hash and, for a main-chain block, its main-index
entry and one transaction-index entry per transaction. -/
def ChainDB.addBlockWrites (blockHash : List Nat) (block : Block) (isMainChain : Bool) :
    List StoreWrite :=
  StoreWrite.block blockHash block ::
    (if isMainChain then
      StoreWrite.blockNo block.Header.BlockNo blockHash ::
        (List.zip block.Txs (List.range block.Txs.length)).map
          (fun ti => StoreWrite.tx ti.1.Hash blockHash ti.2)
     else [])

/-- Modelled from the spec: the commit of a store transaction, all its
writes taking effect. -/
def ChainDB.commit (cdb : ChainDB) (writes : List StoreWrite) : ChainDB :=
  writes.foldl
    (fun db w =>
      match w with
      | .block h b => { db with blocks := GoMap.set db.blocks h b }
      | .blockNo n h => { db with blockNos := GoMap.set db.blockNos n h }
      | .tx t h i => { db with txs := GoMap.set db.txs t (h, i) })
    cdb

/-- Modelled from the spec: `ChainDB.setLatest`, which is not in `src/`. -/
def ChainDB.setLatest (cdb : ChainDB) (blockNo : Nat) : ChainDB :=
  { cdb with latest := blockNo }

/-- What block ingestion calls outside `src/`: the environment of the state
DB, the consensus header check, the block verifier, the failures of
`cdb.addBlock` and of the orphan pool, and the reorganization. An error is a
number that the embedding wraps in `Err.external`. -/
structure ChainEnv (C CS : Type) where
  stateEnv : Env C CS
  IsBlockValid : Block → Block → Option Nat
  VerifyBlock : Block → Option Nat
  cdbAddBlock : ChainDB → Block → Option Nat
  addOrphan : OrphanPool → Block → Option Nat
  needReorg : ChainService C → Block → Bool
  reorg : ChainService C → Block → ChainService C × Option Nat

section AddBlock

variable {C CS : Type} (env : ChainEnv C CS)

/-- `ChainService.isOrphan`. -/
def ChainService.isOrphan (cs : ChainService C) (block : Block) : Bool :=
  match cs.getBlock block.Header.PrevBlockHash with
  | .error _ => true
  | .ok _ => false

/-- `ChainService.addOrphan`; the pool itself is modelled from the spec: the
block is parked under the `BlockID` of its parent, where `connectOrphan`
looks for it. -/
def ChainService.addOrphan (cs : ChainService C) (block : Block) :
    ChainService C × Option Err :=
  match env.addOrphan cs.op block with
  | some e => (cs, some (.external e))
  | none =>
    ({ cs with op := { cache := GoMap.set cs.op.cache (ToBlockID block.Header.PrevBlockHash)
                         block } }, none)

/-- `ChainService.handleOrphan`. -/
def ChainService.handleOrphan (cs : ChainService C) (block : Block) (peerID : String) :
    ChainService C × Option Err :=
  match cs.addOrphan env block with
  | (cs1, some e) => (cs1, some e)
  | (cs1, none) =>
    let anchors := getAnchorsFromHash cs1 block.Hash
    let hashes := anchors.getD []
    ({ cs1 with trace := cs1.trace ++ [.getMissingBlocks peerID hashes] }, none)

/-- `ChainService.connectOrphan`: the parked child of the block, taken out of
the pool; `none` when there is none. -/
def ChainService.connectOrphan (cs : ChainService C) (block : Block) :
    ChainService C × Except Err (Option Block) :=
  let hash := block.BlockHash env.stateEnv.calculateBlockHash
  let orphanID := ToBlockID hash
  match GoMap.get? cs.op.cache orphanID with
  | none => (cs, .ok none)
  | some orphanBlock =>
    if (block.Header.BlockNo + 1) % u64 ≠ orphanBlock.Header.BlockNo then
      (cs, .error .invalidOrphanBlockNo)
    else
      ({ cs with op := { cache := GoMap.erase cs.op.cache orphanID } }, .ok (some orphanBlock))

/-- `ChainService.executeBlock`. -/
def ChainService.executeBlock (cs : ChainService C) (bstate : Option BlockState)
    (block : Block) : ChainService C × Option Err :=
  match execute env.stateEnv cs.sdb bstate block with
  | (sdb1, some e) => ({ cs with sdb := sdb1 }, some e)
  | (sdb1, none) =>
    ({ cs with sdb := sdb1, trace := cs.trace ++ [.executeBlock block] }, none)

/-- The loop `for tblock != nil` of `addBlock`, entered with a non-nil
`tblock`; `none` when `fuel` iterations did not reach its end. The result is
the error of an early `return err`, or `lastBlock`. The store transaction
`dbtx` of an iteration is declared inside the loop body. -/
def addBlockLoop (nblock : Block) (isMainChain : Bool) :
    Nat → ChainService C → Block → Option BlockState →
      Option (ChainService C × Except Err Block)
  | 0, _, _, _ => none
  | fuel + 1, cs, tblock, usedBstate =>
    let blockNo := tblock.Header.BlockNo
    let cs1 : ChainService C := { cs with trace := cs.trace ++ [.newTx] }
    match (if usedBstate.isNone then env.VerifyBlock tblock else none) with
    | some e => some (cs1, .error (.external e))
    | none =>
      match (if isMainChain then cs1.executeBlock env usedBstate tblock else (cs1, none)) with
      | (cs2, some e) => some (cs2, .error e)
      | (cs2, none) =>
        match env.cdbAddBlock cs2.cdb tblock with
        | some e => some (cs2, .error (.external e))
        | none =>
          let dbtx := ChainDB.addBlockWrites
            (tblock.BlockHash env.stateEnv.calculateBlockHash) tblock isMainChain
          let cs3 : ChainService C :=
            { cs2 with cdb := cs2.cdb.commit dbtx,
                       trace := cs2.trace ++ [.storeAddBlock tblock, .txCommit] }
          let cs4 : ChainService C :=
            if isMainChain then
              { cs3 with cdb := cs3.cdb.setLatest blockNo,
                         trace := cs3.trace ++ [.memPoolDel blockNo tblock.Txs, .setLatest blockNo,
                                                .statusUpdate nblock, .notifyBlock tblock] }
            else cs3
          match cs4.connectOrphan env tblock with
          | (cs5, .error e) => some (cs5, .error e)
          | (cs5, .ok none) => some (cs5, .ok tblock)
          | (cs5, .ok (some next)) => addBlockLoop nblock isMainChain fuel cs5 next none

/-- The deferred function of `addBlock`: it discards the store transaction
its variable `dbtx` points to, when that is not nil. -/
def deferredDiscard (dbtx : Option Unit) (cs : ChainService C) : ChainService C :=
  match dbtx with
  | some _ => { cs with trace := cs.trace ++ [.txDiscard] }
  | none => cs

/-- `ChainService.addBlock`, its loop bounded by `fuel`. The variable
`var dbtx *db.Transaction` of the function is never assigned: the loop body
declares a `dbtx` of its own with `:=`, so the deferred function always sees
nil. -/
def ChainService.addBlock (fuel : Nat) (cs : ChainService C) (nblock : Block)
    (usedBstate : Option BlockState) (peerID : String) :
    Option (ChainService C × Option Err) :=
  match cs.getBestBlock with
  | .error e => some (cs, some e)
  | .ok bestBlock =>
    match env.IsBlockValid nblock bestBlock with
    | some e => some (cs, some (.external e))
    | none =>
      if cs.isOrphan nblock then
        if usedBstate.isSome then some (cs, some .orphanFromBP)
        else some (cs.handleOrphan env nblock peerID)
      else
        match cs.cdb.isMainChain nblock with
        | .error e => some (cs, some e)
        | .ok isMainChain =>
          let dbtx : Option Unit := none
          match addBlockLoop env nblock isMainChain fuel cs nblock usedBstate with
          | none => none
          | some (cs1, .error e) => some (deferredDiscard dbtx cs1, some e)
          | some (cs1, .ok lastBlock) =>
            if env.needReorg cs1 lastBlock then
              match env.reorg cs1 lastBlock with
              | (cs2, some _) => some (deferredDiscard dbtx cs2, some .panic)
              | (cs2, none) => some (deferredDiscard dbtx cs2, none)
            else some (deferredDiscard dbtx cs1, none)

/-- The effects of one full iteration of the loop of `addBlock` on the
main-chain block `b`, in order. -/
def iterationEvents (nblock b : Block) : List Event :=
  [.newTx, .executeBlock b, .storeAddBlock b, .txCommit,
   .memPoolDel b.Header.BlockNo b.Txs, .setLatest b.Header.BlockNo,
   .statusUpdate nblock, .notifyBlock b]

end AddBlock

/-! ## `types/blockchain.go`: the transaction hash -/

/-- `binary.LittleEndian` on `size` bytes: byte `i` is `byte(v >> (8*i))`. -/
def littleEndian : Nat → Nat → List Nat
  | 0, _ => []
  | size + 1, v => v % 256 :: littleEndian size (v / 256)

/-- A running `hash.Hash`: the bytes written to it so far. -/
structure Digest where
  written : List Nat
deriving DecidableEq, Repr

/-- `sha256.New()`. -/
def Digest.New : Digest := { written := [] }

/-- `digest.Write(p)`; a nil slice writes nothing. -/
def Digest.Write (d : Digest) (p : List Nat) : Digest := { written := d.written ++ p }

/-- `binary.Write(digest, binary.LittleEndian, v)` for a `uint64`: the eight
bytes of `v`. -/
def binaryWriteUint64 (d : Digest) (v : Nat) : Digest := d.Write (littleEndian 8 (v % u64))

/-- `binary.Write(digest, binary.LittleEndian, v)` for a value of the enum
`TxType`. The Go type is declared outside `src/` in the generated protobuf
code, where every enum is an `int32`; `binary.Write` writes a value of a
fixed-size type on the bytes of that size, here four. -/
def binaryWriteTxType (d : Digest) (v : Nat) : Digest :=
  d.Write (littleEndian 4 (v % 2 ^ 32))

/-- `digest.Sum(nil)`: the digest of what was written. -/
def Digest.Sum (sha256 : List Nat → List Nat) (d : Digest) : List Nat := sha256 d.written

/-- The digest of `CalculateTxHash` after its nine writes. -/
def txDigest (tx : Tx) : Digest :=
  let txBody := tx.Body
  let digest := Digest.New
  let digest := binaryWriteUint64 digest txBody.Nonce
  let digest := digest.Write txBody.Account
  let digest := digest.Write txBody.Recipient
  let digest := binaryWriteUint64 digest txBody.Amount
  let digest := digest.Write (txBody.Payload.getD [])
  let digest := binaryWriteUint64 digest txBody.Limit
  let digest := binaryWriteUint64 digest txBody.Price
  let digest := binaryWriteTxType digest txBody.Type_
  digest.Write txBody.Sign

/-- `Tx.CalculateTxHash`, with sha256 as a parameter. -/
def Tx.CalculateTxHash (sha256 : List Nat → List Nat) (tx : Tx) : List Nat :=
  (txDigest tx).Sum sha256

/-- The base-128 varint of protocol buffers, low group first, with the
continuation bit on every byte but the last; `fuel` bounds the number of
continuation bytes. -/
def varint : Nat → Nat → List Nat
  | 0, v => [v % 128]
  | fuel + 1, v => if v < 128 then [v] else (v % 128 + 128) :: varint fuel (v / 128)

/-- The byte string claim C22 describes, in the words of the spec: nonce,
account, recipient, amount, payload, limit, price, the type as a varint, and
the signature. -/
def txHashInputVarint (tx : Tx) : List Nat :=
  littleEndian 8 (tx.Body.Nonce % u64) ++ tx.Body.Account ++ tx.Body.Recipient
    ++ littleEndian 8 (tx.Body.Amount % u64) ++ tx.Body.Payload.getD []
    ++ littleEndian 8 (tx.Body.Limit % u64) ++ littleEndian 8 (tx.Body.Price % u64)
    ++ varint 9 (tx.Body.Type_ % 2 ^ 32) ++ tx.Body.Sign


/-! ## `rpc/grpcserver.go`: `CommitTX` -/

/-- The enum `CommitStatus`, declared outside `src/`: its zero value `TX_OK`,
which a fresh `CommitResult` holds, `TX_INVALID_HASH`, and its other values. -/
inductive CommitStatus where
  | TX_OK
  | TX_INVALID_HASH
  | other (code : Nat)
deriving DecidableEq, Repr

/-- The message `CommitResult`. -/
structure CommitResult where
  Hash : List Nat
  Error : CommitStatus
deriving DecidableEq, Repr

/-- How an RPC handler ends without a result: the two `status.Errorf`
returns, the error of a request future, and the panic of a write through a
nil entry or past the end of a slice. -/
inductive RpcErr where
  | invalidArgument
  | internal
  | future (code : Nat)
  | panic
deriving DecidableEq, Repr

/-- What a `MemPoolPut` request comes back with: an error of the future, a
result that is no `*MemPoolPutRsp`, or the response with its list `Err`, in
which `none` is a nil error. -/
inductive PutResult where
  | failed (code : Nat)
  | wrongType
  | rsp (Err : List (Option Nat))
deriving DecidableEq, Repr

/-- What `CommitTX` calls outside `src/`: sha256, the mempool, an actor with a
state of its own that answers one request after the other, and
`convertError`. -/
structure RpcEnv (M : Type) where
  sha256 : List Nat → List Nat
  memPoolPut : M → List Tx → M × PutResult
  convertError : Option Nat → CommitStatus

/-- The variables of the loop of `CommitTX`: the slice `results.Results`
(`none` is an entry not yet set), `start` and `cnt`; with them the mempool
and the batches sent to it so far, the oldest first. -/
structure CommitState (M : Type) where
  results : List (Option CommitResult)
  start : Nat
  cnt : Nat
  mempool : M
  sent : List (List Tx)
deriving DecidableEq, Repr

section CommitTX

variable {M : Type} (env : RpcEnv M)

/-- The loop `for j, err := range rsp.Err` of `CommitTX`, from index `j` on. -/
def applyPutErrors (start : Nat) :
    Nat → List (Option Nat) → List (Option CommitResult) →
      Except RpcErr (List (Option CommitResult))
  | _, [], results => .ok results
  | j, err :: rest, results =>
    match results[start + j]? with
    | some (some r) =>
      applyPutErrors start (j + 1) rest
        (results.set (start + j) (some { r with Error := env.convertError err }))
    | _ => .error .panic

/-- The body of the loop `for i, tx := range in.Txs` of `CommitTX`; the
second component is the error of an early return. -/
def commitStep (txs : List Tx) (st : CommitState M) (i : Nat) (tx : Tx) :
    CommitState M × Option RpcErr :=
  let hash := tx.Hash
  let r : CommitResult := { Hash := hash, Error := .TX_OK }
  let calculated := tx.CalculateTxHash env.sha256
  let r := if hash ≠ calculated then { r with Error := .TX_INVALID_HASH } else r
  let results := st.results.set i (some r)
  let cnt := st.cnt + 1
  if (0 < i ∧ i % 100 = 0) ∨ i + 1 = txs.length then
    let batch := (txs.drop st.start).take cnt
    match env.memPoolPut st.mempool batch with
    | (mp, .failed c) =>
      ({ st with results := results, cnt := cnt, mempool := mp, sent := st.sent ++ [batch] },
        some (.future c))
    | (mp, .wrongType) =>
      ({ st with results := results, cnt := cnt, mempool := mp, sent := st.sent ++ [batch] },
        some .internal)
    | (mp, .rsp errs) =>
      match applyPutErrors env st.start 0 errs results with
      | .error e =>
        ({ st with results := results, cnt := cnt, mempool := mp, sent := st.sent ++ [batch] },
          some e)
      | .ok results2 =>
        ({ results := results2, start := st.start + cnt, cnt := 0, mempool := mp,
           sent := st.sent ++ [batch] }, none)
  else ({ st with results := results, cnt := cnt }, none)

/-- The loop `for i, tx := range in.Txs` of `CommitTX`, from index `i` on. -/
def commitLoop (txs : List Tx) :
    Nat → List Tx → CommitState M → CommitState M × Option RpcErr
  | _, [], st => (st, none)
  | i, tx :: rest, st =>
    match commitStep env txs st i tx with
    | (st1, some e) => (st1, some e)
    | (st1, none) => commitLoop txs (i + 1) rest st1

/-- `CommitTX`. The input `none` is a nil `in.Txs`. The result is the state
the function ends in, of which `results` is what it returns when the error is
`none`. -/
def CommitTX (mempool : M) (txs : Option (List Tx)) : CommitState M × Option RpcErr :=
  match txs with
  | none =>
    ({ results := [], start := 0, cnt := 0, mempool := mempool, sent := [] },
      some .invalidArgument)
  | some txs =>
    commitLoop env txs 0 txs
      { results := List.replicate txs.length none, start := 0, cnt := 0, mempool := mempool,
        sent := [] }

end CommitTX

/-! ## `p2p/subprotocolblock.go` and `rpc/grpcserver.go`: block headers -/

/-- `2^32`, the modulus of `uint32`. -/
def u32 : Nat := 2 ^ 32

/-- The answers of the chain service to the requests `GetBlock` and
`GetBlockByNo`, as the two handlers read them: `none` when the request fails
or the block is nil. -/
structure BlockLookup where
  byHash : List Nat → Option Block
  byNo : Nat → Option Block

/-- The request for block headers (`GetBlockHeadersRequest`, `ListParams`):
a hash, a height (`uint64`) and a size (`uint32`). -/
structure HeadersRequest where
  Hash : List Nat
  Height : Nat
  Size : Nat
deriving DecidableEq, Repr

/-- `min` of `subprotocolblock.go`. -/
def minUint32 (a b : Nat) : Nat := if a < b then a else b

/-- The loop `for idx < maxFetchSize` of the two handlers, `n` iterations
from the cap: the blocks found, following the previous-block hashes. -/
def headersFromHash (lookup : BlockLookup) : Nat → List Nat → List Block
  | 0, _ => []
  | n + 1, hash =>
    match lookup.byHash hash with
    | none => []
    | some foundBlock =>
      foundBlock ::
        (if foundBlock.Header.PrevBlockHash.length = 0 then []
         else headersFromHash lookup n foundBlock.Header.PrevBlockHash)

/-- The loop `for i := height; i >= end; i--` of the two handlers on the
`uint64` counter `i`; `none` when `fuel` iterations did not reach its end. -/
def headersFromHeight (lookup : BlockLookup) (end_ : Nat) :
    Nat → Nat → List Block → Option (List Block)
  | 0, _, _ => none
  | fuel + 1, i, found =>
    if i < end_ then some found
    else
      match lookup.byNo i with
      | none => some found
      | some foundBlock =>
        headersFromHeight lookup end_ fuel ((i + u64 - 1) % u64) (found ++ [foundBlock])

/-- `listBlockHeadersRequestHandler.handle`: the blocks whose hashes and
headers the response carries. -/
def listBlockHeadersRequestHandler_handle (lookup : BlockLookup) (fuel : Nat)
    (data : HeadersRequest) : Option (List Block) :=
  let maxFetchSize := minUint32 1000 data.Size
  if data.Hash.length > 0 then some (headersFromHash lookup maxFetchSize data.Hash)
  else
    let end_ :=
      if data.Height ≥ maxFetchSize then
        (data.Height + u64 - (maxFetchSize + u32 - 1) % u32) % u64
      else 0
    headersFromHeight lookup end_ fuel data.Height []

/-- `AergoRPCService.ListBlockHeaders`: the blocks of the list it returns,
each with its body set to nil. -/
def ListBlockHeaders (lookup : BlockLookup) (fuel : Nat) (params : HeadersRequest) :
    Option (List Block) :=
  let maxFetchSize := if params.Size > 1000 then 1000 else params.Size
  let blocks :=
    if params.Hash.length > 0 then some (headersFromHash lookup maxFetchSize params.Hash)
    else
      let end_ :=
        if params.Height ≥ maxFetchSize then
          (params.Height + u64 - (maxFetchSize + u32 - 1) % u32) % u64
        else 0
      headersFromHeight lookup end_ fuel params.Height []
  blocks.map (fun bs => bs.map (fun b => { b with Txs := [] }))

/-! ## `consensus/chain/tx.go` -/

/-- The errors of a `TxOp` that `GatherTXs` tells apart: an `ErrTimeout`,
`errBlockSizeLimit` (both declared outside `src/`), and any other error. -/
inductive TxOpErr where
  | timeout
  | blockSizeLimit
  | other (code : Nat)
deriving DecidableEq, Repr

/-- A `TxOp` with the variables its closure captures as a state `S`: `Apply`
takes the state and the transaction and returns the new state, the block
state (`none` is nil) and the error. -/
abbrev TxOpFn (S : Type) := S → Tx → S × Option BlockState × Option TxOpErr

/-- `NewCompTxOp` for two operations, as `GatherTXs` calls it. -/
def NewCompTxOp {S1 S2 : Type} (f : TxOpFn S1) (g : TxOpFn S2) : TxOpFn (S1 × S2) :=
  fun s tx =>
    let blockState : Option BlockState := none
    match f s.1 tx with
    | (s1, _, some err) => ((s1, s.2), blockState, some err)
    | (s1, curState, none) =>
      let blockState := if curState.isSome then curState else blockState
      match g s.2 tx with
      | (s2, _, some err) => ((s1, s2), blockState, some err)
      | (s2, curState2, none) =>
        ((s1, s2), if curState2.isSome then curState2 else blockState, none)

/-- `newBlockLimitOp`; the state is the captured variable `size`, and
`txSize` is `proto.Size`. -/
def newBlockLimitOp (txSize : Tx → Nat) (maxBlockBodySize : Nat) : TxOpFn Nat :=
  fun size tx =>
    let size := size + txSize tx
    if size % u32 > maxBlockBodySize then (size, none, some .blockSizeLimit)
    else (size, none, none)

/-- The loop `for i, tx := range txIn` of `GatherTXs`, from index `i` on:
the variables `last` and `blockState` after it, or the error of the early
return. -/
def gatherLoop {S : Type} (op : TxOpFn S) :
    S → Nat → List Tx → Nat → Option BlockState →
      S × Except TxOpErr (Nat × Option BlockState)
  | s, _, [], last, blockState => (s, .ok (last, blockState))
  | s, i, tx :: rest, _, blockState =>
    let last := i
    match op s tx with
    | (s1, curState, err) =>
      let blockState := if curState.isSome then curState else blockState
      match err with
      | some .timeout => (s1, .ok (last, blockState))
      | some .blockSizeLimit => (s1, .ok (last, blockState))
      | some e => (s1, .error e)
      | none => gatherLoop op s1 (i + 1) rest last blockState

/-- `GatherTXs`; `txIn` is what `FetchTXs` got from the mempool, `s0` the
initial state of `txOp`. -/
def GatherTXs {S : Type} (txIn : List Tx) (txOp : TxOpFn S) (s0 : S) (txSize : Tx → Nat)
    (maxBlockBodySize : Nat) : Except TxOpErr (List Tx × Option BlockState) :=
  if txIn.length = 0 then .ok (txIn, none)
  else
    let op := NewCompTxOp (newBlockLimitOp txSize maxBlockBodySize) txOp
    match gatherLoop op (0, s0) 0 txIn 0 none with
    | (_, .error e) => .error e
    | (_, .ok (last, blockState)) => .ok (txIn.take (last + 1), blockState)


/-! ## A small environment for the examples -/

/-- An environment for the examples: the identity in place of sha512/256, a
32-byte copy in place of sha256, a two-number serialization, and a trie whose
root is a checksum of the last update; no method fails. -/
def demoEnv : Env Unit Unit where
  TrieHasher := fun d => d
  sha256 := fun d => ToHashID d
  ToAddress := fun a => a.toList.map Char.toNat
  Marshal := fun p =>
    match p with
    | some st => .ok [st.Nonce, st.Balance]
    | none => .ok []
  trieUpdate := fun t keys vals =>
    ({ t with Root := ToHashID [(t.Root.sum + keys.flatten.sum + vals.flatten.sum) % 256] }, none)
  trieCommit := fun t => t
  trieRevert := fun t root => ({ t with Root := root }, none)
  trieLoadCache := fun t _ => (t, none)
  saveStateDB := fun _ _ => none
  OpenContractState := fun _ => .ok ()
  contractCreate := fun _ st _ _ _ => (st, none)
  contractCall := fun cs st _ _ _ _ _ => (cs, st, none)
  CommitContractState := fun _ st => (st, none)
  executeGovernanceTx := fun _ s r _ => (s, r, none)
  calculateBlockHash := fun h => ToHashID (h.BlockNo :: h.PrevBlockHash)

/-- An account state for the examples. -/
def demoState (nonce balance : Nat) : State :=
  { Nonce := nonce, Balance := balance, CodeHash := [], StorageRoot := [] }

/-- A 32-byte identifier for the examples: the byte `b` followed by zeros. -/
def demoID (b : Nat) : HashID := ToHashID [b]

/-- A state DB for the examples: no account, a zero trie root, `latest` at
block 0 with hash `demoID 100`, nothing stored. -/
def demoDB : ChainStateDB Unit :=
  { accounts := GoMap.empty,
    trie := { Root := emptyHashID, cache := () },
    latest := { BlockNo := 0, BlockHash := demoID 100, PrevHash := emptyBlockID },
    statedb := GoMap.empty }

/-- The example state DB with two committed accounts: `demoID 65` (the account
of address `"A"`) holding `(nonceA, balA)` and `demoID 66` (that of `"B"`) holding `(0, balB)`. -/
def demoAccountsDB (nonceA balA balB : Nat) : ChainStateDB Unit :=
  { demoDB with
    accounts := (GoMap.set (GoMap.set GoMap.empty (demoID 65) (some (demoState nonceA balA)))
      (demoID 66) (some (demoState 0 balB))) }

/-- A payload-free `NORMAL` transaction from `demoID 65` to `recipient`. -/
def demoTx (recipient : List Nat) (amount nonce : Nat) : Tx :=
  { Hash := [],
    Body := { Nonce := nonce, Account := demoID 65, Recipient := recipient, Amount := amount,
              Payload := none, Limit := 0, Price := 0, Type_ := TxType_NORMAL, Sign := [] } }

/-- A block state for the examples: block 1 on top of `demoDB`, built by two
`PutAccount` calls. -/
def demoBS1 : BlockState :=
  ((NewBlockState (NewBlockInfo 1 (demoID 101) (demoID 100))).PutAccount (demoID 65)
    (some (demoState 0 100)) (some (demoState 1 70))).PutAccount (demoID 66)
    (some (demoState 0 0)) (some (demoState 0 30))

/-- A second block state for the examples: block 2 on top of `demoBS1`. -/
def demoBS2 : BlockState :=
  (NewBlockState (NewBlockInfo 2 (demoID 102) (demoID 101))).PutAccount (demoID 65)
    (some (demoState 1 70)) (some (demoState 2 0))

/-- A block state for the examples: block 2 on top of `demoBS1`, under the
block hash of `demoBS1` itself. -/
def demoBS2SameHash : BlockState :=
  (NewBlockState (NewBlockInfo 2 (demoID 101) (demoID 101))).PutAccount (demoID 65)
    (some (demoState 1 70)) (some (demoState 2 0))

/-- The example environment with a trie that cannot go back: `Revert` fails
with code 7 and `LoadCache` with code 8. -/
def demoFailEnv : Env Unit Unit :=
  { demoEnv with
    trieRevert := fun t _ => (t, some 7)
    trieLoadCache := fun t _ => (t, some 8) }

/-- The example state DB with the root of a trie nothing was written to: no
bytes. -/
def demoFreshDB : ChainStateDB Unit :=
  { demoDB with trie := { Root := [], cache := () } }

/-- A genesis for the examples that allocates nothing. -/
def demoBareGenesis : Genesis :=
  { Balance := GoMap.empty, BlockHash := demoID 100 }

/-- A genesis for the examples: block hash `demoID 100`, the account of
address `"A"` holding 100 and that of `"B"` holding 0. -/
def demoGenesis : Genesis :=
  { Balance := GoMap.set (GoMap.set GoMap.empty "A" (some (demoState 0 100)))
      "B" (some (demoState 0 0)),
    BlockHash := demoID 100 }

/-- Two blocks for the examples, on top of `demoGenesis`: A sends 30 to B in
block 1, then 999, more than it has, in block 2. -/
def demoBlocks : List Block :=
  [ { Hash := demoID 101,
      Header := { PrevBlockHash := demoID 100, BlockNo := 1, Timestamp := 0 },
      Txs := [demoTx (demoID 66) 30 1] },
    { Hash := demoID 102,
      Header := { PrevBlockHash := demoID 101, BlockNo := 2, Timestamp := 0 },
      Txs := [demoTx (demoID 66) 999 2] } ]

/-- A transaction for the examples that `executeTx` rejects: with the
identity in place of sha512/256 its empty account has the empty `AccountID`. -/
def demoBadTx : Tx :=
  { Hash := [],
    Body := { Nonce := 1, Account := [], Recipient := demoID 66, Amount := 1,
              Payload := none, Limit := 0, Price := 0, Type_ := TxType_NORMAL, Sign := [] } }

/-- A block for the examples whose second transaction fails. -/
def demoBadBlock : Block :=
  { Hash := demoID 101,
    Header := { PrevBlockHash := demoID 100, BlockNo := 1, Timestamp := 0 },
    Txs := [demoTx (demoID 66) 30 1, demoBadTx, demoTx (demoID 66) 5 2] }

theorem demoID_injective : Function.Injective (fun n : Nat => ToHashID [n]) := by
  intro a b h
  have h2 := congrArg List.head? h
  simpa [ToHashID] using h2

/-- The block of height `n` of the example chain: hash `demoID n`, parent
`demoID (n - 1)`, no transaction. -/
def demoBlockAt (n : Nat) : Block :=
  { Hash := ToHashID [n],
    Header := { PrevBlockHash := if n = 0 then [] else ToHashID [n - 1], BlockNo := n,
                Timestamp := 0 },
    Txs := [] }

/-- The block store of the example chain of best block number `latest`:
the blocks `demoBlockAt 0` to `demoBlockAt latest`, all in the main index. -/
def demoChainDB (latest : Nat) : ChainDB :=
  { blocks := ⟨(List.range (latest + 1)).map (fun n => (ToHashID [n], demoBlockAt n)), by
      rw [List.map_map]
      exact (List.nodup_range _).map demoID_injective⟩,
    blockNos := ⟨(List.range (latest + 1)).map (fun n => (n, ToHashID [n])), by
      rw [List.map_map]
      have : (Prod.fst ∘ fun n : Nat => (n, ToHashID [n])) = id := rfl
      rw [this, List.map_id]
      exact List.nodup_range _⟩,
    txs := GoMap.empty,
    latest := latest }

/-- The chain service of the example chain of best block number `latest`,
with the example state DB, no orphan and no effect so far. -/
def demoChain (latest : Nat) : ChainService Unit :=
  { cdb := demoChainDB latest, sdb := demoDB, op := { cache := GoMap.empty }, trace := [] }


/-- An environment of block ingestion for the examples: every header is
valid, nothing fails but, when `verifyFails` is set, the block verifier; no
reorganization is ever needed. -/
def demoChainEnv (verifyFails : Bool) : ChainEnv Unit Unit where
  stateEnv := demoEnv
  IsBlockValid := fun _ _ => none
  VerifyBlock := fun _ => if verifyFails then some 1 else none
  cdbAddBlock := fun _ _ => none
  addOrphan := fun _ _ => none
  needReorg := fun _ _ => false
  reorg := fun cs _ => (cs, none)

/-- A chain service for the examples: the genesis of the example chain in
the block store, the state DB after `demoGenesis`, and the second of
`demoBlocks` parked in the orphan pool under the hash of the first. -/
def demoIngest : ChainService Unit :=
  { cdb := demoChainDB 0,
    sdb := (SetGenesis demoEnv demoDB demoGenesis).1,
    op := { cache := GoMap.set GoMap.empty (demoID 101)
              { Hash := demoID 102,
                Header := { PrevBlockHash := demoID 101, BlockNo := 2, Timestamp := 0 },
                Txs := [demoTx (demoID 66) 999 2] } },
    trace := [] }

/-- The first of `demoBlocks`. -/
def demoBlock1 : Block :=
  { Hash := demoID 101,
    Header := { PrevBlockHash := demoID 100, BlockNo := 1, Timestamp := 0 },
    Txs := [demoTx (demoID 66) 30 1] }

/-- The second of `demoBlocks`. -/
def demoBlock2 : Block :=
  { Hash := demoID 102,
    Header := { PrevBlockHash := demoID 101, BlockNo := 2, Timestamp := 0 },
    Txs := [demoTx (demoID 66) 999 2] }


/-- A branch block for the examples: height 3 on top of block 2 of the
example chain, with a hash of its own. -/
def demoBranchBlock : Block :=
  { Hash := demoID 203,
    Header := { PrevBlockHash := demoID 2, BlockNo := 3, Timestamp := 0 },
    Txs := [] }

/-- A stored block for the examples whose height, 7, has no entry in the main
index of a chain of best block number 5. -/
def demoStrayBlock : Block :=
  { Hash := demoID 207,
    Header := { PrevBlockHash := demoID 206, BlockNo := 7, Timestamp := 0 },
    Txs := [] }

/-- The child of `demoStrayBlock`, of height 8. -/
def demoStrayChild : Block :=
  { Hash := demoID 208,
    Header := { PrevBlockHash := demoID 207, BlockNo := 8, Timestamp := 0 },
    Txs := [] }

/-- The example chain of best block number 5 whose block store also holds
`demoBranchBlock`, `demoStrayBlock` and `demoStrayChild`; the main index is
that of the example chain. -/
def demoBranchChain : ChainService Unit :=
  { demoChain 5 with
    cdb := { demoChainDB 5 with
      blocks := GoMap.set (GoMap.set (GoMap.set (demoChainDB 5).blocks
        (demoID 203) demoBranchBlock) (demoID 207) demoStrayBlock) (demoID 208) demoStrayChild } }


/-- A short `NORMAL` transaction for the examples: nonce 1, account `[65]`,
recipient `[66]`, amount 30, no payload, signature `[7]`. -/
def demoShortTx : Tx :=
  { Hash := [],
    Body := { Nonce := 1, Account := [65], Recipient := [66], Amount := 30,
              Payload := none, Limit := 0, Price := 0, Type_ := TxType_NORMAL, Sign := [7] } }


/-- An RPC environment for the examples: a 32-byte copy in place of sha256,
a mempool without state that accepts every transaction (a nil error for each
transaction of the batch), and a `convertError` that maps the nil error to
`TX_OK`. -/
def demoRpcEnv : RpcEnv Unit where
  sha256 := fun d => ToHashID d
  memPoolPut := fun _ batch => ((), .rsp (batch.map (fun _ => none)))
  convertError := fun err =>
    match err with
    | none => .TX_OK
    | some c => .other c

/-- The block lookups of a chain of `2^32 + 1` blocks, the example blocks of
heights 0 to `2^32`; no lookup by hash is needed. -/
def demoLongChain : BlockLookup where
  byHash := fun _ => none
  byNo := fun n => if n ≤ 4294967296 then some (demoBlockAt n) else none

/-- A `TxOp` for the examples: it accepts every transaction and returns no
block state. -/
def demoAcceptOp : TxOpFn Unit := fun _ _ => ((), none, none)


/-! ## Lemmas on Go maps -/

theorem lookupPairs_erasePairs {K V : Type} [DecidableEq K] (l : List (K × V)) (k x : K) :
    lookupPairs (erasePairs l k) x = if x = k then none else lookupPairs l x := by
  induction l with
  | nil => simp [erasePairs, lookupPairs]
  | cons p t ih =>
    obtain ⟨a, b⟩ := p
    by_cases hak : a = k
    · simp only [erasePairs, if_pos hak, ih, lookupPairs]
      by_cases hx : x = k
      · simp [hx]
      · have : ¬ a = x := fun h => hx (h ▸ hak)
        simp [hx, this]
    · simp only [erasePairs, if_neg hak, lookupPairs, ih]
      by_cases hax : a = x
      · have : ¬ x = k := fun h => hak (hax.trans h)
        simp [hax, this]
      · simp [hax]

theorem lookupPairs_eq_none_iff {K V : Type} [DecidableEq K] (l : List (K × V)) (x : K) :
    lookupPairs l x = none ↔ x ∉ l.map Prod.fst := by
  induction l with
  | nil => simp [lookupPairs]
  | cons p t ih =>
    obtain ⟨a, b⟩ := p
    by_cases hax : a = x
    · simp [lookupPairs, hax]
    · have hxa : ¬ x = a := fun h => hax h.symm
      simp [lookupPairs, hax, hxa, ih]

namespace GoMap

variable {K V : Type} [DecidableEq K]

theorem get?_empty (k : K) : get? (empty : GoMap K V) k = none := rfl

theorem get?_set (m : GoMap K V) (k x : K) (v : V) :
    get? (set m k v) x = if x = k then some v else get? m x := by
  unfold get? set
  simp only [lookupPairs, lookupPairs_erasePairs]
  by_cases h : x = k
  · simp [h]
  · have : ¬ k = x := fun h1 => h h1.symm
    simp [h, this]

theorem get?_set_self (m : GoMap K V) (k : K) (v : V) : get? (set m k v) k = some v := by
  simp [get?_set]

theorem get?_set_ne (m : GoMap K V) (k x : K) (v : V) (h : x ≠ k) :
    get? (set m k v) x = get? m x := by
  simp [get?_set, h]

theorem get?_eq_none_iff (m : GoMap K V) (x : K) : get? m x = none ↔ x ∉ keys m :=
  lookupPairs_eq_none_iff m.entries x

theorem get?_foldl_set (l : List (K × V)) (hl : (l.map Prod.fst).Nodup) (dst : GoMap K V)
    (x : K) :
    get? (l.foldl (fun acc kv => set acc kv.1 kv.2) dst) x
      = match lookupPairs l x with
        | some v => some v
        | none => get? dst x := by
  induction l generalizing dst with
  | nil => simp [lookupPairs]
  | cons p t ih =>
    obtain ⟨a, b⟩ := p
    simp only [List.map_cons, List.nodup_cons] at hl
    simp only [List.foldl_cons, ih hl.2, lookupPairs]
    by_cases hax : a = x
    · subst hax
      have hn : lookupPairs t a = none := (lookupPairs_eq_none_iff t a).2 hl.1
      simp [hn, get?_set]
    · have hxa : ¬ x = a := fun h => hax h.symm
      simp only [if_neg hax, get?_set, if_neg hxa]

theorem get?_assignAll (dst src : GoMap K V) (x : K) :
    get? (assignAll dst src) x
      = match get? src x with
        | some v => some v
        | none => get? dst x :=
  get?_foldl_set src.entries src.nodup dst x

end GoMap

/-! ## Lemmas on block states -/

theorem PutAccount_undo_get (bs : BlockState) (aid x : AccountID) (b c : StatePtr) :
    GoMap.get? (bs.PutAccount aid b c).Undo.Accounts x
      = match GoMap.get? bs.Undo.Accounts x with
        | some v => some v
        | none => if x = aid then some b else none := by
  unfold BlockState.PutAccount GoMap.contains
  simp only
  cases hx : GoMap.get? bs.Undo.Accounts x with
  | some v =>
    cases ha : GoMap.get? bs.Undo.Accounts aid with
    | some w => simp [hx]
    | none =>
      have hne : x ≠ aid := fun h => by rw [h, ha] at hx; cases hx
      simp [GoMap.get?_set, hne, hx]
  | none =>
    cases ha : GoMap.get? bs.Undo.Accounts aid with
    | some w =>
      have hne : x ≠ aid := fun h => by rw [h, ha] at hx; cases hx
      simp [hx, hne]
    | none =>
      simp only [Option.isSome_none, Bool.not_false, if_true, GoMap.get?_set]
      by_cases h : x = aid
      · simp [h]
      · simp [h, hx]

theorem PutAccount_accounts_get (bs : BlockState) (aid x : AccountID) (b c : StatePtr) :
    GoMap.get? (bs.PutAccount aid b c).accounts x
      = if x = aid then some c else GoMap.get? bs.accounts x := by
  unfold BlockState.PutAccount
  simp only [GoMap.get?_set]

theorem PutAccount_toBlockInfo (bs : BlockState) (aid : AccountID) (b c : StatePtr) :
    (bs.PutAccount aid b c).toBlockInfo = bs.toBlockInfo ∧
    (bs.PutAccount aid b c).Undo.StateRoot = bs.Undo.StateRoot := by
  refine ⟨rfl, ?_⟩
  unfold BlockState.PutAccount
  simp only
  split <;> rfl

theorem putAccounts_undo_get (calls : List PutCall) (bs : BlockState) (x : AccountID) :
    GoMap.get? (putAccounts bs calls).Undo.Accounts x
      = match GoMap.get? bs.Undo.Accounts x with
        | some v => some v
        | none => ((callsFor calls x).head?).map PutCall.stateBefore := by
  induction calls generalizing bs with
  | nil => cases h : GoMap.get? bs.Undo.Accounts x <;> simp [putAccounts, callsFor, h]
  | cons c rest ih =>
    have hstep : putAccounts bs (c :: rest)
        = putAccounts (bs.PutAccount c.aid c.stateBefore c.stateChanged) rest := rfl
    rw [hstep, ih, PutAccount_undo_get]
    cases h : GoMap.get? bs.Undo.Accounts x with
    | some v => simp
    | none =>
      by_cases hx : x = c.aid
      · simp [callsFor, List.filter_cons, hx]
      · have hx2 : ¬ c.aid = x := fun h => hx h.symm
        simp [callsFor, List.filter_cons, hx, hx2]

theorem putAccounts_accounts_get (calls : List PutCall) (bs : BlockState) (x : AccountID) :
    GoMap.get? (putAccounts bs calls).accounts x
      = match (callsFor calls x).getLast? with
        | some c => some c.stateChanged
        | none => GoMap.get? bs.accounts x := by
  induction calls generalizing bs with
  | nil => simp [putAccounts, callsFor]
  | cons c rest ih =>
    have hstep : putAccounts bs (c :: rest)
        = putAccounts (bs.PutAccount c.aid c.stateBefore c.stateChanged) rest := rfl
    rw [hstep, ih, PutAccount_accounts_get]
    by_cases hx : c.aid = x
    · have hf : callsFor (c :: rest) x = c :: callsFor rest x := by
        simp [callsFor, List.filter_cons, hx]
      rw [hf]
      cases hr : callsFor rest x with
      | nil => simp [hx]
      | cons d t =>
        rw [List.getLast?_cons_cons]
        cases hl : (d :: t).getLast? with
        | none => exact absurd (List.getLast?_eq_none_iff.1 hl) (List.cons_ne_nil d t)
        | some e => simp
    · have hf : callsFor (c :: rest) x = callsFor rest x := by
        simp [callsFor, List.filter_cons, hx]
      have hx2 : ¬ x = c.aid := fun h => hx h.symm
      rw [hf]
      simp [hx2]

/-- Claim C10. After any sequence of `PutAccount` calls on a block state made
by `NewBlockState`, the undo entry of an account is the `stateBefore` of the
first call that wrote it (absent when no call did), and `GetAccount` returns
the `stateChanged` of the last call that wrote it (absent when no call did);
an account written at least once has both. -/
theorem PutAccount_first_before_last_changed (info : BlockInfo) (calls : List PutCall)
    (aid : AccountID) :
    GoMap.get? (putAccounts (NewBlockState info) calls).Undo.Accounts aid
      = ((callsFor calls aid).head?).map PutCall.stateBefore ∧
    (putAccounts (NewBlockState info) calls).GetAccount aid
      = ((callsFor calls aid).getLast?).map PutCall.stateChanged ∧
    ((∃ c ∈ calls, c.aid = aid) →
      (GoMap.get? (putAccounts (NewBlockState info) calls).Undo.Accounts aid).isSome = true ∧
      ((putAccounts (NewBlockState info) calls).GetAccount aid).isSome = true) := by
  have h1 := putAccounts_undo_get calls (NewBlockState info) aid
  have h2 := putAccounts_accounts_get calls (NewBlockState info) aid
  have e1 : GoMap.get? (NewBlockState info).Undo.Accounts aid = none := rfl
  have e2 : GoMap.get? (NewBlockState info).accounts aid = none := rfl
  rw [e1] at h1
  rw [e2] at h2
  simp only at h1
  have h2' : (putAccounts (NewBlockState info) calls).GetAccount aid
      = ((callsFor calls aid).getLast?).map PutCall.stateChanged := by
    unfold BlockState.GetAccount
    rw [h2]
    cases (callsFor calls aid).getLast? <;> rfl
  refine ⟨h1, h2', ?_⟩
  rintro ⟨c, hc, hca⟩
  have hmem : c ∈ callsFor calls aid := by
    simp [callsFor, List.mem_filter, hc, hca]
  have hne : callsFor calls aid ≠ [] := List.ne_nil_of_mem hmem
  rw [h1, h2']
  constructor
  · cases hl : callsFor calls aid with
    | nil => exact absurd hl hne
    | cons d t => simp
  · cases hl : (callsFor calls aid).getLast? with
    | none => exact absurd (List.getLast?_eq_none_iff.1 hl) hne
    | some d => simp

/-! ## Lemmas on the state DB -/

section AccountLemmas

variable {C : Type}

theorem peekAccount_set_absent (accounts : GoMap AccountID StatePtr) (aid x : AccountID)
    (h : GoMap.get? accounts aid = none) :
    peekAccount (GoMap.set accounts aid (some NewState)) x = peekAccount accounts x := by
  unfold peekAccount
  rw [GoMap.get?_set]
  by_cases hx : x = aid
  · subst hx; simp [h]
  · simp [hx]

theorem getAccountState_fields (sdb : ChainStateDB C) (aid : AccountID) :
    (getAccountState sdb aid).1.trie = sdb.trie ∧
    (getAccountState sdb aid).1.latest = sdb.latest ∧
    (getAccountState sdb aid).1.statedb = sdb.statedb ∧
    (∀ x, peekAccount (getAccountState sdb aid).1.accounts x = peekAccount sdb.accounts x) := by
  unfold getAccountState
  split
  · exact ⟨rfl, rfl, rfl, fun _ => rfl⟩
  · split
    · exact ⟨rfl, rfl, rfl, fun _ => rfl⟩
    · rename_i hn
      exact ⟨rfl, rfl, rfl, fun x => peekAccount_set_absent sdb.accounts aid x hn⟩

theorem getAccountState_snd (sdb : ChainStateDB C) (aid : AccountID) (h : aid ≠ emptyAccountID) :
    (getAccountState sdb aid).2 = .ok (peekAccount sdb.accounts aid) := by
  unfold getAccountState peekAccount
  rw [if_neg h]
  split
  · rename_i st hs; simp [hs]
  · rename_i hn; simp [hn]

theorem GetAccountStateClone_snd (sdb : ChainStateDB C) (aid : AccountID)
    (h : aid ≠ emptyAccountID) :
    (GetAccountStateClone sdb aid).2 = cloneState (peekAccount sdb.accounts aid) := by
  have h2 := getAccountState_snd sdb aid h
  unfold GetAccountStateClone
  split
  · rename_i heq; rw [heq] at h2; cases h2
  · rename_i heq; rw [heq] at h2; cases h2; rfl

theorem GetBlockAccountClone_fields (sdb : ChainStateDB C) (bs : BlockState) (aid : AccountID) :
    (GetBlockAccountClone sdb bs aid).1.trie = sdb.trie ∧
    (GetBlockAccountClone sdb bs aid).1.latest = sdb.latest ∧
    (GetBlockAccountClone sdb bs aid).1.statedb = sdb.statedb ∧
    (∀ x, peekAccount (GetBlockAccountClone sdb bs aid).1.accounts x
      = peekAccount sdb.accounts x) := by
  have hg := getAccountState_fields sdb aid
  have hb : (getBlockAccount sdb bs aid).1 = sdb ∨
      (getBlockAccount sdb bs aid).1 = (getAccountState sdb aid).1 := by
    unfold getBlockAccount
    split
    · exact Or.inl rfl
    · split
      · exact Or.inl rfl
      · exact Or.inr rfl
  have hc : (GetBlockAccountClone sdb bs aid).1 = (getBlockAccount sdb bs aid).1 := by
    unfold GetBlockAccountClone
    split <;> · rename_i heq; rw [heq]
  rw [hc]
  rcases hb with hb | hb
  · rw [hb]; exact ⟨rfl, rfl, rfl, fun _ => rfl⟩
  · rw [hb]; exact hg

theorem GetBlockAccountClone_snd (sdb : ChainStateDB C) (bs : BlockState) (aid : AccountID) :
    (GetBlockAccountClone sdb bs aid).2 = blockView sdb.accounts bs aid := by
  unfold GetBlockAccountClone blockView getBlockAccount
  by_cases h : aid = emptyAccountID
  · simp only [if_pos h]
  · simp only [if_neg h]
    cases hb : bs.GetAccount aid with
    | some prev => simp only
    | none =>
      simp only
      have h2 := getAccountState_snd sdb aid h
      split
      · rename_i heq; rw [heq] at h2; cases h2
      · rename_i heq; rw [heq] at h2; cases h2; rfl

theorem blockView_congr (a1 a2 : GoMap AccountID StatePtr) (bs : BlockState) (aid : AccountID)
    (h : peekAccount a1 aid = peekAccount a2 aid) : blockView a1 bs aid = blockView a2 bs aid := by
  unfold blockView
  rw [h]

end AccountLemmas


section StateDBLemmas

variable {C CS : Type} (env : Env C CS)

theorem updateTrie_fields (sdb : ChainStateDB C) (bstate : BlockState) :
    (updateTrie env sdb bstate).1.accounts = sdb.accounts ∧
    (updateTrie env sdb bstate).1.latest = sdb.latest ∧
    (updateTrie env sdb bstate).1.statedb = sdb.statedb := by
  unfold updateTrie
  simp only
  split
  · exact ⟨rfl, rfl, rfl⟩
  · split
    · exact ⟨rfl, rfl, rfl⟩
    · split <;> exact ⟨rfl, rfl, rfl⟩

theorem marshalAll_error (accounts : GoMap AccountID StatePtr) (l : List AccountID) (e : Err)
    (h : marshalAll env accounts l = .error e) : ∃ c, e = .external c := by
  induction l with
  | nil => simp [marshalAll] at h
  | cons v rest ih =>
    unfold marshalAll at h
    split at h
    · cases h; exact ⟨_, rfl⟩
    · split at h
      · rename_i e1 he1
        cases h
        exact ih he1
      · cases h

theorem applyState_not_invalidSequence (sdb : ChainStateDB C) (bstate : BlockState) (e : Err)
    (h : (applyState env sdb bstate).2 = some e) : e.isInvalidSequence = false := by
  unfold applyState at h
  simp only at h
  split at h
  · rename_i sdb3 e1 hu
    unfold updateTrie at hu
    simp only at hu
    split at hu
    · cases hu
    · split at hu
      · rename_i hm
        cases hu; cases h
        obtain ⟨c, rfl⟩ := marshalAll_error env _ _ _ hm
        rfl
      · split at hu
        · cases hu; cases h; rfl
        · cases hu
  · simp only [extErr] at h
    cases hs : env.saveStateDB _ _ with
    | none => rw [hs] at h; cases h
    | some c => rw [hs] at h; cases h; rfl

/-- Claim C1. `Apply` returns an invalid-sequence error exactly when
`bs.BlockNo != latest.BlockNo + 1` (in `uint64` arithmetic, as the source
computes it) or `bs.PrevHash != latest.BlockHash`; errors of the trie update
and of persistence are never invalid-sequence errors, so no assumption on
them is needed. When it returns that error the state DB is the one it was
called on: `latest`, the committed account map and the trie root are
unchanged. -/
theorem Apply_invalid_sequence_iff (sdb : ChainStateDB C) (bs : BlockState) :
    ((∃ e, (Apply env sdb bs).2 = some e ∧ e.isInvalidSequence = true) ↔
      (bs.BlockNo ≠ (sdb.latest.BlockNo + 1) % u64 ∨ bs.PrevHash ≠ sdb.latest.BlockHash)) ∧
    (∀ e, (Apply env sdb bs).2 = some e → e.isInvalidSequence = true →
      (Apply env sdb bs).1.latest = sdb.latest ∧
      (Apply env sdb bs).1.accounts = sdb.accounts ∧
      (Apply env sdb bs).1.trie.Root = sdb.trie.Root) := by
  by_cases h1 : (sdb.latest.BlockNo + 1) % u64 ≠ bs.BlockNo
  · have hA : Apply env sdb bs = (sdb, some .applyInvalidBlockNo) := by
      unfold Apply; rw [if_pos h1]
    rw [hA]
    refine ⟨⟨fun _ => Or.inl (fun h => h1 h.symm), fun _ => ⟨_, rfl, rfl⟩⟩, ?_⟩
    intro e _ _; exact ⟨rfl, rfl, rfl⟩
  · by_cases h2 : sdb.latest.BlockHash ≠ bs.PrevHash
    · have hA : Apply env sdb bs = (sdb, some .applyInvalidPrevBlock) := by
        unfold Apply; rw [if_neg h1, if_pos h2]
      rw [hA]
      refine ⟨⟨fun _ => Or.inr (fun h => h2 h.symm), fun _ => ⟨_, rfl, rfl⟩⟩, ?_⟩
      intro e _ _; exact ⟨rfl, rfl, rfl⟩
    · have hA : Apply env sdb bs = applyState env sdb bs := by
        unfold Apply; rw [if_neg h1, if_neg h2]
      rw [hA]
      have hno : ∀ e, (applyState env sdb bs).2 = some e → e.isInvalidSequence = true → False := by
        intro e he hi
        rw [applyState_not_invalidSequence env sdb bs e he] at hi
        cases hi
      push_neg at h1 h2
      refine ⟨⟨fun ⟨e, he, hi⟩ => (hno e he hi).elim, ?_⟩, fun e he hi => (hno e he hi).elim⟩
      rintro (h | h)
      · exact absurd h1.symm h
      · exact absurd h2.symm h

theorem withUndoRoot_fields (sdb : ChainStateDB C) (bs : BlockState) :
    (withUndoRoot sdb bs).toBlockInfo = bs.toBlockInfo ∧
    (withUndoRoot sdb bs).accounts = bs.accounts ∧
    (withUndoRoot sdb bs).Undo.Accounts = bs.Undo.Accounts := by
  unfold withUndoRoot
  split <;> exact ⟨rfl, rfl, rfl⟩

theorem applyState_ok (sdb : ChainStateDB C) (bs : BlockState)
    (h : (applyState env sdb bs).2 = none) :
    (applyState env sdb bs).1.latest = bs.toBlockInfo ∧
    (applyState env sdb bs).1.accounts = GoMap.assignAll sdb.accounts bs.accounts ∧
    (applyState env sdb bs).1.statedb
      = GoMap.set sdb.statedb bs.BlockHash (withUndoRoot sdb bs) := by
  obtain ⟨hw1, hw2, -⟩ := withUndoRoot_fields sdb bs
  unfold applyState at h ⊢
  simp only at h ⊢
  split at h
  · cases h
  · rename_i sdb3 hu
    have hf := updateTrie_fields env
      { saveBlockState sdb (withUndoRoot sdb bs) with
        accounts := GoMap.assignAll (saveBlockState sdb (withUndoRoot sdb bs)).accounts
          (withUndoRoot sdb bs).GetAccountStates } (withUndoRoot sdb bs)
    rw [hu] at hf
    simp only at hf
    obtain ⟨hf1, -, hf3⟩ := hf
    refine ⟨hw1, ?_, ?_⟩
    · simp only [hf1, BlockState.GetAccountStates, hw2, saveBlockState]
    · simp only [hf3, saveBlockState]
      have : (withUndoRoot sdb bs).BlockHash = bs.BlockHash := by
        have := congrArg BlockInfo.BlockHash hw1
        exact this
      rw [this]

theorem Apply_ok (sdb : ChainStateDB C) (bs : BlockState) (h : (Apply env sdb bs).2 = none) :
    Apply env sdb bs = applyState env sdb bs ∧
    (sdb.latest.BlockNo + 1) % u64 = bs.BlockNo ∧ sdb.latest.BlockHash = bs.PrevHash := by
  unfold Apply at h ⊢
  by_cases h1 : (sdb.latest.BlockNo + 1) % u64 ≠ bs.BlockNo
  · rw [if_pos h1] at h; cases h
  · rw [if_neg h1] at h ⊢
    by_cases h2 : sdb.latest.BlockHash ≠ bs.PrevHash
    · rw [if_pos h2] at h; cases h
    · rw [if_neg h2]
      push_neg at h1 h2
      exact ⟨rfl, h1, h2⟩

/-- Claim C2. After a successful `Apply(bs)` (which implies that `bs` met the
precondition) `latest` equals `bs.BlockInfo`, every account of `bs.accounts`
has its state of `bs.accounts` in the committed map, and the committed entry
of every other account is the one from before. -/
theorem Apply_success_effect (sdb : ChainStateDB C) (bs : BlockState)
    (h : (Apply env sdb bs).2 = none) :
    (Apply env sdb bs).1.latest = bs.toBlockInfo ∧
    (∀ aid st, GoMap.get? bs.accounts aid = some st →
      GoMap.get? (Apply env sdb bs).1.accounts aid = some st) ∧
    (∀ aid, GoMap.get? bs.accounts aid = none →
      GoMap.get? (Apply env sdb bs).1.accounts aid = GoMap.get? sdb.accounts aid) := by
  obtain ⟨hA, -, -⟩ := Apply_ok env sdb bs h
  rw [hA] at h ⊢
  obtain ⟨h1, h2, -⟩ := applyState_ok env sdb bs h
  refine ⟨h1, ?_, ?_⟩
  · intro aid st hst
    rw [h2, GoMap.get?_assignAll, hst]
  · intro aid hst
    rw [h2, GoMap.get?_assignAll, hst]

/-- Witness of claim C2: the example block state applied to the example
state DB. -/
theorem Apply_success_effect_witness :
    (Apply demoEnv demoDB demoBS1).2 = none ∧
    (Apply demoEnv demoDB demoBS1).1.latest = demoBS1.toBlockInfo ∧
    (∀ aid st, GoMap.get? demoBS1.accounts aid = some st →
      GoMap.get? (Apply demoEnv demoDB demoBS1).1.accounts aid = some st) ∧
    (∀ aid, GoMap.get? demoBS1.accounts aid = none →
      GoMap.get? (Apply demoEnv demoDB demoBS1).1.accounts aid
        = GoMap.get? demoDB.accounts aid) :=
  ⟨by decide, Apply_success_effect demoEnv demoDB demoBS1 (by decide)⟩

end StateDBLemmas

/-! ## Lemmas on rollback -/

section RollbackLemmas

variable {C CS : Type} (env : Env C CS)

theorem revertTrie_fields (sdb : ChainStateDB C) (r : HashID) :
    (revertTrie env sdb r).1.accounts = sdb.accounts ∧
    (revertTrie env sdb r).1.latest = sdb.latest ∧
    (revertTrie env sdb r).1.statedb = sdb.statedb := by
  unfold revertTrie
  split
  · exact ⟨rfl, rfl, rfl⟩
  · split <;> exact ⟨rfl, rfl, rfl⟩

theorem undoBlock_fields (sdb : ChainStateDB C) (bs : BlockState) :
    (undoBlock env sdb bs).accounts = GoMap.assignAll sdb.accounts bs.Undo.Accounts ∧
    (undoBlock env sdb bs).latest = bs.toBlockInfo ∧
    (undoBlock env sdb bs).statedb = sdb.statedb := by
  unfold undoBlock
  obtain ⟨h1, h2, h3⟩ := revertTrie_fields env
    { accounts := GoMap.assignAll sdb.accounts bs.Undo.Accounts,
      trie := sdb.trie, latest := bs.toBlockInfo, statedb := sdb.statedb } bs.Undo.StateRoot
  exact ⟨h1, h2, h3⟩

theorem undoBlocks_statedb (ups : List BlockState) (sdb : ChainStateDB C) :
    (undoBlocks env sdb ups).statedb = sdb.statedb := by
  induction ups generalizing sdb with
  | nil => rfl
  | cons x rest ih =>
    have : undoBlocks env sdb (x :: rest) = undoBlocks env (undoBlock env sdb x) rest := rfl
    rw [this, ih, (undoBlock_fields env sdb x).2.2]

theorem Linked_headD_blockNo (ups : List BlockState) (base : BlockState)
    (h : Linked ups base) : (ups.headD base).BlockNo = base.BlockNo + ups.length := by
  induction ups with
  | nil => simp
  | cons x rest ih =>
    obtain ⟨⟨h1, -⟩, -, h3⟩ := h
    simp only [List.headD_cons, List.length_cons]
    rw [h1, ih h3]
    omega

theorem Linked_take_drop (L : List BlockState) (g : BlockState) (h : Linked L g) :
    ∀ k, Linked (L.take k) ((L.drop k).headD g) ∧ Linked (L.drop k) g := by
  induction L with
  | nil => intro k; simp [Linked]
  | cons x rest ih =>
    intro k
    cases k with
    | zero => simpa [Linked] using h
    | succ k =>
      obtain ⟨h1, h2, h3⟩ := h
      obtain ⟨i1, i2⟩ := ih h3 k
      simp only [List.take_succ_cons, List.drop_succ_cons]
      refine ⟨⟨?_, h2, i1⟩, i2⟩
      cases k with
      | zero => simpa using h1
      | succ j =>
        cases rest with
        | nil => simpa using h1
        | cons y r => simpa using h1

theorem headD_drop_mem (L : List BlockState) (g : BlockState) (k : Nat) :
    (L.drop k).headD g ∈ L ++ [g] := by
  cases h : L.drop k with
  | nil => simp
  | cons y r =>
    have : y ∈ L.drop k := by rw [h]; simp
    have := List.mem_of_mem_drop this
    simp [this]

theorem getElem?_append_headD_drop (L : List BlockState) (g : BlockState) (k : Nat)
    (hk : k ≤ L.length) : (L ++ [g])[k]? = some ((L.drop k).headD g) := by
  induction L generalizing k with
  | nil =>
    have : k = 0 := by simpa using hk
    subst this; rfl
  | cons x rest ih =>
    cases k with
    | zero => simp
    | succ k =>
      simp only [List.length_cons, Nat.add_le_add_iff_right] at hk
      simpa using ih k hk

/-- The chain facts of a reached state DB: `latest` is the newest stored block
state, the stored block states are linked down to the base `g`, and each of
them is what the store holds for its block hash. -/
theorem Reach_chain (Q : ChainStateDB C → BlockState → Prop) (S0 : ChainStateDB C)
    (g : BlockState) (hlat : S0.latest = g.toBlockInfo)
    (hg : GoMap.get? S0.statedb g.BlockHash = some g) :
    ∀ (L : List BlockState) (S : ChainStateDB C), Reach env Q S0 L S →
      ((L ++ [g]).map (fun e => e.BlockHash)).Nodup →
      g.BlockNo + L.length < 2 ^ 64 →
      S.latest = (L.headD g).toBlockInfo ∧ Linked L g ∧
      (∀ e ∈ L ++ [g], GoMap.get? S.statedb e.BlockHash = some e) := by
  intro L S hreach
  induction hreach with
  | start =>
    intro _ _
    refine ⟨hlat, trivial, ?_⟩
    intro e he
    simp only [List.nil_append, List.mem_singleton] at he
    rw [he]; exact hg
  | @step L S Sp bs _ hview _ happ ih =>
    intro hnd hlen
    simp only [List.cons_append, List.map_cons, List.nodup_cons, List.length_cons] at hnd hlen
    obtain ⟨i1, i2, i3⟩ := ih hnd.2 (by omega)
    obtain ⟨v1, v2, v3, -⟩ := hview
    obtain ⟨hA, hno, hprev⟩ := Apply_ok env Sp bs happ
    rw [hA] at happ ⊢
    obtain ⟨a1, -, a3⟩ := applyState_ok env Sp bs happ
    obtain ⟨w1, -, -⟩ := withUndoRoot_fields Sp bs
    have hn := Linked_headD_blockNo L g i2
    refine ⟨?_, ⟨⟨?_, ?_⟩, ?_, i2⟩, ?_⟩
    · rw [a1, List.headD_cons, w1]
    · rw [w1, ← hno, v2, i1, hn]
      have : g.BlockNo + L.length + 1 < u64 := by unfold u64; omega
      exact Nat.mod_eq_of_lt this
    · rw [w1, ← hprev, v2, i1]
    · rw [w1, ← hno]
      exact Nat.mod_lt _ (by unfold u64; norm_num)
    · intro e he
      rw [a3]
      have hbh : (withUndoRoot Sp bs).BlockHash = bs.BlockHash := congrArg BlockInfo.BlockHash w1
      simp only [List.cons_append, List.mem_cons] at he
      rcases he with he | he
      · rw [he, hbh, GoMap.get?_set_self]
      · have hne : e.BlockHash ≠ bs.BlockHash := by
          intro heq
          apply hnd.1
          rw [hbh, ← heq]
          exact List.mem_map.2 ⟨e, he, rfl⟩
        rw [GoMap.get?_set_ne _ _ _ _ hne, v3]
        exact i3 e he

theorem applyAll_cons (sdb : ChainStateDB C) (bs : BlockState) (rest : List BlockState)
    (h : (applyAll env sdb (bs :: rest)).2 = none) :
    (Apply env sdb bs).2 = none ∧
    applyAll env sdb (bs :: rest) = applyAll env (Apply env sdb bs).1 rest := by
  have hdef : applyAll env sdb (bs :: rest)
      = match Apply env sdb bs with
        | (sdb1, some e) => (sdb1, some e)
        | (sdb1, none) => applyAll env sdb1 rest := rfl
  rw [hdef] at h ⊢
  cases hA : Apply env sdb bs with
  | mk sdb1 e =>
    rw [hA] at h
    cases e with
    | some e => cases h
    | none => exact ⟨rfl, rfl⟩

theorem Reach_append (Q : ChainStateDB C → BlockState → Prop) (S0 S1 : ChainStateDB C)
    (L1 : List BlockState) (h1 : Reach env Q S0 L1 S1) :
    ∀ (L2 : List BlockState) (S2 : ChainStateDB C), Reach env Q S1 L2 S2 →
      Reach env Q S0 (L2 ++ L1) S2 := by
  intro L2 S2 h2
  induction h2 with
  | start => exact h1
  | step Sp bs _ hv hq ha ih => exact Reach.step Sp bs ih hv hq ha

theorem applyAll_Reach (blocks : List BlockState) :
    ∀ (S : ChainStateDB C), (applyAll env S blocks).2 = none →
      Reach env (fun _ _ => True) S (storedStates env S blocks) (applyAll env S blocks).1 ∧
      (storedStates env S blocks).map (fun e => e.toBlockInfo)
        = (blocks.map (fun e => e.toBlockInfo)).reverse := by
  induction blocks with
  | nil => intro S _; exact ⟨Reach.start, rfl⟩
  | cons bs rest ih =>
    intro S h
    obtain ⟨h1, h2⟩ := applyAll_cons env S bs rest h
    rw [h2] at h ⊢
    obtain ⟨r1, r2⟩ := ih (Apply env S bs).1 h
    constructor
    · have hone : Reach env (fun _ _ => True) S [withUndoRoot S bs] (Apply env S bs).1 :=
        Reach.step S bs Reach.start ⟨rfl, rfl, rfl, fun _ => rfl⟩ trivial h1
      exact Reach_append env _ S _ _ hone _ _ r1
    · simp only [storedStates, List.map_append, r2, List.map_cons, List.map_nil,
        List.reverse_cons, (withUndoRoot_fields S bs).1]

theorem foldl_PutAccount_toBlockInfo {α : Type} (f : α → AccountID) (b c : α → StatePtr)
    (l : List α) (bs : BlockState) :
    (l.foldl (fun acc a => acc.PutAccount (f a) (b a) (c a)) bs).toBlockInfo = bs.toBlockInfo := by
  induction l generalizing bs with
  | nil => rfl
  | cons a t ih => rw [List.foldl_cons, ih, (PutAccount_toBlockInfo bs _ _ _).1]

theorem genesisBlockState_toBlockInfo (genesis : Genesis) :
    (genesisBlockState env genesis).toBlockInfo = genesisInfo genesis := by
  unfold genesisBlockState
  rw [foldl_PutAccount_toBlockInfo]
  rfl

/-- After a successful `SetGenesis` the stored genesis block state is what
the store holds for the genesis hash, and `latest` is its block info. -/
theorem SetGenesis_ok (sdb : ChainStateDB C) (genesis : Genesis)
    (h : (SetGenesis env sdb genesis).2 = none) :
    ∃ g : BlockState, g.toBlockInfo = genesisInfo genesis ∧
      (SetGenesis env sdb genesis).1.latest = g.toBlockInfo ∧
      GoMap.get? (SetGenesis env sdb genesis).1.statedb g.BlockHash = some g := by
  unfold SetGenesis at h ⊢
  simp only at h ⊢
  obtain ⟨a1, -, a3⟩ := applyState_ok env _ _ h
  obtain ⟨w1, -, -⟩ := withUndoRoot_fields
    ({ sdb with latest := genesisInfo genesis } : ChainStateDB C) (genesisBlockState env genesis)
  have hi := genesisBlockState_toBlockInfo env genesis
  refine ⟨withUndoRoot { sdb with latest := genesisInfo genesis } (genesisBlockState env genesis),
    w1.trans hi, ?_, ?_⟩
  · rw [a1, w1]
  · rw [a3]
    have : (withUndoRoot ({ sdb with latest := genesisInfo genesis } : ChainStateDB C)
        (genesisBlockState env genesis)).BlockHash = (genesisBlockState env genesis).BlockHash :=
      congrArg BlockInfo.BlockHash w1
    rw [this, GoMap.get?_set_self]

theorem stored_hashes (genesis : Genesis) (g : BlockState) (L blocks : List BlockState)
    (hgi : g.toBlockInfo = genesisInfo genesis)
    (hL : L.map (fun e => e.toBlockInfo) = (blocks.map (fun e => e.toBlockInfo)).reverse) :
    (L ++ [g]).map (fun e => e.BlockHash)
      = (ToBlockID genesis.BlockHash :: blocks.map (fun b => b.BlockHash)).reverse := by
  have h1 : (L ++ [g]).map (fun e => e.BlockHash)
      = ((L ++ [g]).map (fun e => e.toBlockInfo)).map BlockInfo.BlockHash := by
    rw [List.map_map]; rfl
  have h2 : blocks.map (fun b => b.BlockHash)
      = (blocks.map (fun e => e.toBlockInfo)).map BlockInfo.BlockHash := by
    rw [List.map_map]; rfl
  rw [h1, h2, List.map_append, hL, List.map_append, List.map_cons, List.map_nil, hgi,
    List.reverse_cons, List.map_reverse]
  rfl

theorem ToHashID_of_length (d : List Nat) (h : d.length = 32) : ToHashID d = d := by
  unfold ToHashID
  rw [h, List.take_of_length_le (by omega)]
  simp

theorem revertTrie_root
    (hRevRoot : ∀ (tr : Trie C) (r : List Nat),
      (env.trieRevert tr r).2 = none → (env.trieRevert tr r).1.Root = r)
    (hLoadRoot : ∀ (tr : Trie C) (r : List Nat),
      (env.trieLoadCache tr r).2 = none → (env.trieLoadCache tr r).1.Root = tr.Root)
    (s : ChainStateDB C) (r : HashID) (h : (revertTrie env s r).2 = none) :
    (revertTrie env s r).1.trie.Root = r := by
  unfold revertTrie at h ⊢
  split
  · rename_i heq; exact heq
  · rename_i hne
    rw [if_neg hne] at h
    split
    · rename_i t e heq
      rw [heq] at h
      simp only [extErr, Option.map_eq_none'] at h
      simp only
      rw [hLoadRoot _ _ h]
    · rename_i t heq
      have := hRevRoot s.trie r (by rw [heq])
      rw [heq] at this
      exact this

theorem rollbackLoop_zero (t : Nat) (sdb : ChainStateDB C) (target : BlockInfo)
    (h : t ≤ target.BlockNo) : rollbackLoop env t 0 sdb target = none := by
  unfold rollbackLoop
  rw [if_pos h]

theorem rollbackLoop_base (t fuel : Nat) (sdb : ChainStateDB C) (target : BlockInfo)
    (x : BlockState) (h : target.BlockNo = t)
    (hload : loadBlockState sdb target.BlockHash = .ok x) :
    rollbackLoop env t (fuel + 1) sdb target
      = some ({ sdb with latest := x.toBlockInfo }, none) := by
  have hge : target.BlockNo ≥ t := by omega
  unfold rollbackLoop
  simp only [hge, if_true, hload, h]
  rw [if_pos (Nat.le_refl t)]

theorem rollbackLoop_step_ok (t fuel : Nat) (sdb : ChainStateDB C) (target : BlockInfo)
    (x : BlockState) (h : t < target.BlockNo)
    (hload : loadBlockState sdb target.BlockHash = .ok x)
    (hrev : (revertTrie env
        { accounts := GoMap.assignAll sdb.accounts x.Undo.Accounts,
          trie := sdb.trie, latest := x.toBlockInfo, statedb := sdb.statedb }
        x.Undo.StateRoot).2 = none) :
    rollbackLoop env t (fuel + 1) sdb target
      = rollbackLoop env t fuel (undoBlock env sdb x)
          { BlockNo := (x.BlockNo + u64 - 1) % u64, BlockHash := x.PrevHash,
            PrevHash := emptyBlockID } := by
  have hge : target.BlockNo ≥ t := by omega
  have hne : ¬ target.BlockNo = t := by omega
  obtain ⟨-, u2, -⟩ := undoBlock_fields env sdb x
  have hr : revertTrie env
      { accounts := GoMap.assignAll sdb.accounts x.Undo.Accounts,
        trie := sdb.trie, latest := x.toBlockInfo, statedb := sdb.statedb } x.Undo.StateRoot
      = (undoBlock env sdb x, none) := Prod.ext rfl hrev
  conv_lhs => unfold rollbackLoop
  simp only [hge, if_true, hload, hne, if_false, hr, u2]

theorem rollbackLoop_step_err (t fuel : Nat) (sdb : ChainStateDB C) (target : BlockInfo)
    (x : BlockState) (e : Err) (h : t < target.BlockNo)
    (hload : loadBlockState sdb target.BlockHash = .ok x)
    (hrev : (revertTrie env
        { accounts := GoMap.assignAll sdb.accounts x.Undo.Accounts,
          trie := sdb.trie, latest := x.toBlockInfo, statedb := sdb.statedb }
        x.Undo.StateRoot).2 = some e) :
    rollbackLoop env t (fuel + 1) sdb target = some (undoBlock env sdb x, some e) := by
  have hge : target.BlockNo ≥ t := by omega
  have hne : ¬ target.BlockNo = t := by omega
  have hr : revertTrie env
      { accounts := GoMap.assignAll sdb.accounts x.Undo.Accounts,
        trie := sdb.trie, latest := x.toBlockInfo, statedb := sdb.statedb } x.Undo.StateRoot
      = (undoBlock env sdb x, some e) := Prod.ext rfl hrev
  conv_lhs => unfold rollbackLoop
  simp only [hge, if_true, hload, hne, if_false, hr]

/-- The error of `revertTrie`, if any, is the error of `LoadCache`. -/
theorem revertTrie_err (sdb : ChainStateDB C) (r : HashID) (e : Err)
    (h : (revertTrie env sdb r).2 = some e) : ∃ c, e = Err.external c := by
  unfold revertTrie at h
  split at h
  · cases h
  · split at h
    · simp only [extErr] at h
      cases hc : (env.trieLoadCache _ _).2 with
      | none => rw [hc] at h; cases h
      | some c => rw [hc] at h; exact ⟨c, by simpa using h.symm⟩
    · cases h

/-- The loop of `Rollback` never returns without error from a set of targets
it cannot leave: when the store holds, for the hash of the block at height
`m0` above the target, a block state of a greater height, and for the hashes
of the blocks above `m0` their own block states, every target at height `m0`
or above leads to a target at height `m0` or above. -/
theorem rollbackLoop_stuck (t n : Nat) (E : Nat → BlockState)
    (store : GoMap BlockID BlockState) (hn : n < 2 ^ 64)
    (hE : ∀ v, 1 ≤ v → v ≤ n →
      (E v).BlockNo = v ∧ (E v).PrevHash = (E (v - 1)).BlockHash)
    (m0 j0 : Nat) (hm0 : t < m0) (hj0 : m0 < j0) (hj0n : j0 ≤ n)
    (hbad : GoMap.get? store (E m0).BlockHash = some (E j0))
    (hgood : ∀ v, m0 < v → v ≤ n → GoMap.get? store (E v).BlockHash = some (E v)) :
    ∀ (fuel : Nat) (sdb : ChainStateDB C) (target : BlockInfo) (v : Nat)
      (sdb' : ChainStateDB C),
      sdb.statedb = store → m0 ≤ v → v ≤ n → target.BlockNo = v →
      target.BlockHash = (E v).BlockHash →
      rollbackLoop env t fuel sdb target ≠ some (sdb', none) := by
  intro fuel
  induction fuel with
  | zero =>
    intro sdb target v sdb' _ hv _ htn _
    rw [rollbackLoop_zero env t sdb target (by omega)]
    exact fun h => by cases h
  | succ f ih =>
    intro sdb target v sdb' hs hv hvn htn hth
    obtain ⟨j, hj1, hj2, hload⟩ : ∃ j, m0 < j ∧ j ≤ n ∧
        loadBlockState sdb target.BlockHash = .ok (E j) := by
      by_cases hvm : v = m0
      · refine ⟨j0, hj0, hj0n, ?_⟩
        unfold loadBlockState
        rw [hth, hs, hvm, hbad]
      · refine ⟨v, by omega, hvn, ?_⟩
        unfold loadBlockState
        rw [hth, hs, hgood v (by omega) hvn]
    cases hrev : (revertTrie env
        { accounts := GoMap.assignAll sdb.accounts (E j).Undo.Accounts,
          trie := sdb.trie, latest := (E j).toBlockInfo, statedb := sdb.statedb }
        (E j).Undo.StateRoot).2 with
    | some e =>
      rw [rollbackLoop_step_err env t f sdb target (E j) e (by omega) hload hrev]
      exact fun h => by cases h
    | none =>
      rw [rollbackLoop_step_ok env t f sdb target (E j) (by omega) hload hrev]
      obtain ⟨e1, e2⟩ := hE j (by omega) hj2
      apply ih _ _ (j - 1) sdb'
      · rw [(undoBlock_fields env sdb (E j)).2.2]; exact hs
      · omega
      · omega
      · show ((E j).BlockNo + u64 - 1) % u64 = j - 1
        rw [e1]
        unfold u64
        omega
      · exact e2

/-- When the loop of `Rollback`, started at the top of the chain, returns
without error, the store held for the hash of every block above the target
the block state of that block. -/
theorem rollbackLoop_good (t n : Nat) (E : Nat → BlockState)
    (store : GoMap BlockID BlockState) (hn : n < 2 ^ 64)
    (hE : ∀ v, 1 ≤ v → v ≤ n →
      (E v).BlockNo = v ∧ (E v).PrevHash = (E (v - 1)).BlockHash)
    (hstore : ∀ v, v ≤ n →
      ∃ j, v ≤ j ∧ j ≤ n ∧ GoMap.get? store (E v).BlockHash = some (E j))
    (fuel : Nat) (sdb sdb' : ChainStateDB C) (target : BlockInfo)
    (hs : sdb.statedb = store) (htn : target.BlockNo = n)
    (hth : target.BlockHash = (E n).BlockHash)
    (hroll : rollbackLoop env t fuel sdb target = some (sdb', none)) :
    ∀ v, t < v → v ≤ n → GoMap.get? store (E v).BlockHash = some (E v) := by
  have key : ∀ d v, n - v = d → t < v → v ≤ n →
      GoMap.get? store (E v).BlockHash = some (E v) := by
    intro d
    induction d using Nat.strong_induction_on with
    | _ d ih =>
      intro v hd htv hvn
      obtain ⟨j, hj1, hj2, hj3⟩ := hstore v hvn
      by_cases hjv : j = v
      · rw [hj3, hjv]
      · exfalso
        exact rollbackLoop_stuck env t n E store hn hE v j htv (by omega) hj2 hj3
          (fun w hw hwn => ih (n - w) (by omega) w rfl (by omega) hwn)
          fuel sdb target n sdb' hs hvn (le_refl n) htn hth hroll
  intro v
  exact key (n - v) v rfl

/-- The loop of `Rollback` on a stored chain, when it returns without error:
started at the top of the chain `ups` above `base`, whose block number is the
target, it has undone `ups`, every trie revert has succeeded, and `latest` is
the block info of what the store holds for the hash of `base`. -/
theorem rollbackLoop_chain_ok (t : Nat) :
    ∀ (ups : List BlockState) (base bt : BlockState) (S : ChainStateDB C) (target : BlockInfo)
      (fuel : Nat) (sdb' : ChainStateDB C),
      Linked ups base →
      (∀ e ∈ ups, GoMap.get? S.statedb e.BlockHash = some e) →
      GoMap.get? S.statedb base.BlockHash = some bt →
      base.BlockNo = t →
      target.BlockNo = (ups.headD base).BlockNo →
      target.BlockHash = (ups.headD base).BlockHash →
      rollbackLoop env t fuel S target = some (sdb', none) →
      sdb' = { undoBlocks env S ups with latest := bt.toBlockInfo } ∧
      undoSucceeds env S ups = true := by
  intro ups
  induction ups with
  | nil =>
    intro base bt S target fuel sdb' _ _ hbt hb htn hth hroll
    simp only [List.headD_nil] at htn hth
    have hload : loadBlockState S target.BlockHash = .ok bt := by
      unfold loadBlockState
      rw [hth, hbt]
    cases fuel with
    | zero =>
      rw [rollbackLoop_zero env t S target (by omega)] at hroll
      cases hroll
    | succ f =>
      rw [rollbackLoop_base env t f S target bt (by omega) hload] at hroll
      simp only [Option.some.injEq, Prod.mk.injEq, and_true] at hroll
      exact ⟨hroll.symm, rfl⟩
  | cons x rest ih =>
    intro base bt S target fuel sdb' hl hst hbt hb htn hth hroll
    simp only [List.headD_cons] at htn hth
    have hno := Linked_headD_blockNo (x :: rest) base hl
    simp only [List.headD_cons, List.length_cons] at hno
    obtain ⟨⟨hx1, hx2⟩, hx3, hrest⟩ := hl
    have hload : loadBlockState S target.BlockHash = .ok x := by
      unfold loadBlockState
      rw [hth, hst x (by simp)]
    cases fuel with
    | zero =>
      rw [rollbackLoop_zero env t S target (by omega)] at hroll
      cases hroll
    | succ f =>
      cases hrev : (revertTrie env
          { accounts := GoMap.assignAll S.accounts x.Undo.Accounts,
            trie := S.trie, latest := x.toBlockInfo, statedb := S.statedb }
          x.Undo.StateRoot).2 with
      | some e =>
        rw [rollbackLoop_step_err env t f S target x e (by omega) hload hrev] at hroll
        cases hroll
      | none =>
        rw [rollbackLoop_step_ok env t f S target x (by omega) hload hrev] at hroll
        obtain ⟨-, -, u3⟩ := undoBlock_fields env S x
        have hund : undoBlocks env S (x :: rest) = undoBlocks env (undoBlock env S x) rest := rfl
        have hsuc : undoSucceeds env S (x :: rest)
            = ((revertTrie env
                { accounts := GoMap.assignAll S.accounts x.Undo.Accounts,
                  trie := S.trie, latest := x.toBlockInfo, statedb := S.statedb }
                x.Undo.StateRoot).2.isNone && undoSucceeds env (undoBlock env S x) rest) := rfl
        rw [hund, hsuc, hrev]
        apply ih base bt (undoBlock env S x)
          { BlockNo := (x.BlockNo + u64 - 1) % u64, BlockHash := x.PrevHash,
            PrevHash := emptyBlockID } f sdb' hrest
        · intro e he
          rw [u3]
          exact hst e (by simp [he])
        · rw [u3]; exact hbt
        · exact hb
        · show (x.BlockNo + u64 - 1) % u64 = _
          rw [hx1]
          have : (rest.headD base).BlockNo + 1 < u64 := by rw [← hx1]; exact hx3
          unfold u64 at this ⊢
          omega
        · exact hx2
        · exact hroll

/-- The loop of `Rollback` on a stored chain whose block states are what the
store holds for their hashes: with one unit of fuel per block state to load
it returns; it returns without error exactly when every trie revert
succeeds, and then it has undone `ups` and `latest` is at `base`; an error is
the error of a trie revert. -/
theorem rollbackLoop_chain_total (t : Nat) :
    ∀ (ups : List BlockState) (base : BlockState) (S : ChainStateDB C) (target : BlockInfo)
      (fuel : Nat),
      Linked ups base →
      (∀ e ∈ ups ++ [base], GoMap.get? S.statedb e.BlockHash = some e) →
      base.BlockNo = t →
      target.BlockNo = (ups.headD base).BlockNo →
      target.BlockHash = (ups.headD base).BlockHash →
      ups.length + 1 ≤ fuel →
      ∃ (sdbX : ChainStateDB C) (e : Option Err),
        rollbackLoop env t fuel S target = some (sdbX, e) ∧
        (e = none ↔ undoSucceeds env S ups = true) ∧
        (e = none → sdbX = { undoBlocks env S ups with latest := base.toBlockInfo }) ∧
        (∀ err, e = some err → ∃ c, err = Err.external c) := by
  intro ups
  induction ups with
  | nil =>
    intro base S target fuel _ hst hb htn hth hf
    simp only [List.headD_nil] at htn hth
    have hload : loadBlockState S target.BlockHash = .ok base := by
      unfold loadBlockState
      rw [hth, hst base (by simp)]
    obtain ⟨f, rfl⟩ : ∃ f, fuel = f + 1 := ⟨fuel - 1, by omega⟩
    refine ⟨_, none, rollbackLoop_base env t f S target base (by omega) hload, ?_, ?_, ?_⟩
    · exact ⟨fun _ => rfl, fun _ => rfl⟩
    · intro _; rfl
    · intro err h; cases h
  | cons x rest ih =>
    intro base S target fuel hl hst hb htn hth hf
    simp only [List.headD_cons] at htn hth
    have hno := Linked_headD_blockNo (x :: rest) base hl
    simp only [List.headD_cons, List.length_cons] at hno
    obtain ⟨⟨hx1, hx2⟩, hx3, hrest⟩ := hl
    have hload : loadBlockState S target.BlockHash = .ok x := by
      unfold loadBlockState
      rw [hth, hst x (by simp)]
    obtain ⟨f, rfl⟩ : ∃ f, fuel = f + 1 := ⟨fuel - 1, by omega⟩
    have hsuc : undoSucceeds env S (x :: rest)
        = ((revertTrie env
            { accounts := GoMap.assignAll S.accounts x.Undo.Accounts,
              trie := S.trie, latest := x.toBlockInfo, statedb := S.statedb }
            x.Undo.StateRoot).2.isNone && undoSucceeds env (undoBlock env S x) rest) := rfl
    cases hrev : (revertTrie env
        { accounts := GoMap.assignAll S.accounts x.Undo.Accounts,
          trie := S.trie, latest := x.toBlockInfo, statedb := S.statedb }
        x.Undo.StateRoot).2 with
    | some e =>
      refine ⟨_, some e, rollbackLoop_step_err env t f S target x e (by omega) hload hrev,
        ?_, ?_, ?_⟩
      · rw [hsuc, hrev]
        simp
      · intro h; cases h
      · intro err h
        cases h
        exact revertTrie_err env _ _ _ hrev
    | none =>
      obtain ⟨-, -, u3⟩ := undoBlock_fields env S x
      have hund : undoBlocks env S (x :: rest) = undoBlocks env (undoBlock env S x) rest := rfl
      rw [rollbackLoop_step_ok env t f S target x (by omega) hload hrev, hund, hsuc, hrev]
      simp only [Option.isNone_none, Bool.true_and]
      apply ih base (undoBlock env S x)
        { BlockNo := (x.BlockNo + u64 - 1) % u64, BlockHash := x.PrevHash,
          PrevHash := emptyBlockID } f hrest
      · intro e he
        rw [u3]
        exact hst e (by simp at he ⊢; tauto)
      · exact hb
      · show (x.BlockNo + u64 - 1) % u64 = _
        rw [hx1]
        have : (rest.headD base).BlockNo + 1 < u64 := by rw [← hx1]; exact hx3
        unfold u64 at this ⊢
        omega
      · exact hx2
      · simp only [List.length_cons] at hf
        omega

theorem Linked_blockNo_le (ups : List BlockState) (base : BlockState) (h : Linked ups base) :
    ∀ e ∈ ups ++ [base], e.BlockNo ≤ (ups.headD base).BlockNo := by
  induction ups with
  | nil =>
    intro e he
    simp only [List.nil_append, List.mem_singleton] at he
    rw [he]; exact Nat.le_refl _
  | cons x rest ih =>
    intro e he
    obtain ⟨⟨h1, -⟩, -, h3⟩ := h
    simp only [List.cons_append, List.mem_cons] at he
    simp only [List.headD_cons]
    rcases he with he | he
    · rw [he]
    · have := ih h3 e he
      omega

/-- The chain facts of a reached state DB that hold whatever the block hashes
are: `latest` is the newest stored block state, the stored block states are
linked down to the base `g`, and what the store holds for the hash of one of
them is a block state of the chain that is not lower. -/
theorem Reach_chain_weak (Q : ChainStateDB C → BlockState → Prop) (S0 : ChainStateDB C)
    (g : BlockState) (hlat : S0.latest = g.toBlockInfo)
    (hg : GoMap.get? S0.statedb g.BlockHash = some g) :
    ∀ (L : List BlockState) (S : ChainStateDB C), Reach env Q S0 L S →
      g.BlockNo + L.length < 2 ^ 64 →
      S.latest = (L.headD g).toBlockInfo ∧ Linked L g ∧
      (∀ e ∈ L ++ [g], ∃ e' ∈ L ++ [g],
        GoMap.get? S.statedb e.BlockHash = some e' ∧ e.BlockNo ≤ e'.BlockNo) := by
  intro L S hreach
  induction hreach with
  | start =>
    intro _
    refine ⟨hlat, trivial, ?_⟩
    intro e he
    simp only [List.nil_append, List.mem_singleton] at he
    refine ⟨g, by simp, ?_, ?_⟩
    · rw [he]; exact hg
    · rw [he]
  | @step L S Sp bs _ hview _ happ ih =>
    intro hlen
    simp only [List.length_cons] at hlen
    obtain ⟨i1, i2, i3⟩ := ih (by omega)
    obtain ⟨v1, v2, v3, -⟩ := hview
    obtain ⟨hA, hno, hprev⟩ := Apply_ok env Sp bs happ
    rw [hA] at happ ⊢
    obtain ⟨a1, -, a3⟩ := applyState_ok env Sp bs happ
    obtain ⟨w1, -, -⟩ := withUndoRoot_fields Sp bs
    have hn := Linked_headD_blockNo L g i2
    have hbn : (withUndoRoot Sp bs).BlockNo = (L.headD g).BlockNo + 1 := by
      have : (withUndoRoot Sp bs).BlockNo = bs.BlockNo := congrArg BlockInfo.BlockNo w1
      rw [this, ← hno, v2, i1, hn]
      have : g.BlockNo + L.length + 1 < u64 := by unfold u64; omega
      exact Nat.mod_eq_of_lt this
    refine ⟨?_, ⟨⟨hbn, ?_⟩, ?_, i2⟩, ?_⟩
    · rw [a1, List.headD_cons, w1]
    · rw [w1, ← hprev, v2, i1]
    · rw [w1, ← hno]
      exact Nat.mod_lt _ (by unfold u64; norm_num)
    · intro e he
      rw [a3]
      have hbh : (withUndoRoot Sp bs).BlockHash = bs.BlockHash := congrArg BlockInfo.BlockHash w1
      simp only [List.cons_append, List.mem_cons] at he
      rcases he with he | he
      · refine ⟨withUndoRoot Sp bs, by simp, ?_, by rw [he]⟩
        rw [he, hbh, GoMap.get?_set_self]
      · by_cases heq : e.BlockHash = bs.BlockHash
        · refine ⟨withUndoRoot Sp bs, by simp, ?_, ?_⟩
          · rw [heq, GoMap.get?_set_self]
          · have := Linked_blockNo_le L g i2 e he
            omega
        · obtain ⟨e', he', hs', hle⟩ := i3 e he
          refine ⟨e', by simp only [List.cons_append, List.mem_cons]; exact Or.inr he', ?_, hle⟩
          rw [GoMap.get?_set_ne _ _ _ _ heq, v3]
          exact hs'

/-- The block state of a linked chain over a base of height 0, by height. -/
theorem Linked_heights (L : List BlockState) (g : BlockState) (h : Linked L g)
    (hg0 : g.BlockNo = 0) :
    (∀ v, v ≤ L.length → ((L.drop (L.length - v)).headD g).BlockNo = v) ∧
    (∀ v, 1 ≤ v → v ≤ L.length →
      ((L.drop (L.length - v)).headD g).PrevHash
        = ((L.drop (L.length - (v - 1))).headD g).BlockHash) := by
  constructor
  · intro v hv
    rw [Linked_headD_blockNo _ g (Linked_take_drop L g h _).2, hg0, List.length_drop]
    omega
  · intro v hv1 hv
    have hk : L.length - v < L.length := by omega
    have hl := (Linked_take_drop L g h (L.length - v)).2
    rw [List.drop_eq_getElem_cons hk] at hl ⊢
    have : L.length - (v - 1) = L.length - v + 1 := by omega
    rw [this]
    exact hl.1.2

theorem mem_chain_height (L : List BlockState) (g : BlockState) :
    ∀ e ∈ L ++ [g], ∃ v, v ≤ L.length ∧ e = (L.drop (L.length - v)).headD g := by
  intro e he
  obtain ⟨i, hi, hie⟩ := List.getElem_of_mem he
  simp only [List.length_append, List.length_singleton] at hi
  have := getElem?_append_headD_drop L g i (by omega)
  rw [List.getElem?_eq_getElem (by simp; omega), hie] at this
  refine ⟨L.length - i, by omega, ?_⟩
  have hh : L.length - (L.length - i) = i := by omega
  rw [hh]
  exact Option.some.inj this

/-- `Rollback` on a reached state DB, when it returns without error: it has
undone the block states above the target, the newest first, and every trie
revert has succeeded. Nothing is assumed of the block hashes. -/
theorem Rollback_ok_of_Reach (Q : ChainStateDB C → BlockState → Prop) (S0 S : ChainStateDB C)
    (g : BlockState) (L : List BlockState) (t fuel : Nat) (sdb' : ChainStateDB C)
    (hlat : S0.latest = g.toBlockInfo)
    (hg : GoMap.get? S0.statedb g.BlockHash = some g) (hg0 : g.BlockNo = 0)
    (hreach : Reach env Q S0 L S)
    (hlen : L.length < 2 ^ 64) (ht : t < L.length)
    (hroll : Rollback env fuel S t = some (sdb', none)) :
    ∃ bt : BlockState,
      sdb' = { undoBlocks env S (L.take (L.length - t)) with latest := bt.toBlockInfo } ∧
      undoSucceeds env S (L.take (L.length - t)) = true := by
  obtain ⟨c1, c2, c3⟩ := Reach_chain_weak env Q S0 g hlat hg L S hreach (by omega)
  obtain ⟨k1, k2⟩ := Linked_take_drop L g c2 (L.length - t)
  obtain ⟨hE1, hE2⟩ := Linked_heights L g c2 hg0
  have htop : (L.headD g).BlockNo = L.length := by
    rw [Linked_headD_blockNo L g c2, hg0]; omega
  have hhead : ((L.take (L.length - t)).headD ((L.drop (L.length - t)).headD g)) = L.headD g := by
    cases L with
    | nil => simp at ht
    | cons x r =>
      have : (x :: r).length - t = ((x :: r).length - t - 1) + 1 := by
        simp only [List.length_cons] at ht ⊢; omega
      rw [this, List.take_succ_cons]
      rfl
  have hstore : ∀ v, v ≤ L.length → ∃ j, v ≤ j ∧ j ≤ L.length ∧
      GoMap.get? S.statedb ((L.drop (L.length - v)).headD g).BlockHash
        = some ((L.drop (L.length - j)).headD g) := by
    intro v hv
    obtain ⟨e', he', hs', hle⟩ := c3 _ (headD_drop_mem L g (L.length - v))
    obtain ⟨j, hj, hje⟩ := mem_chain_height L g e' he'
    refine ⟨j, ?_, hj, by rw [hs', hje]⟩
    rw [hje, hE1 v hv, hE1 j hj] at hle
    exact hle
  have hnle : ¬ S.latest.BlockNo ≤ t := by
    rw [c1, htop]; omega
  unfold Rollback at hroll
  rw [if_neg hnle] at hroll
  cases hloop : rollbackLoop env t fuel S S.latest with
  | none => rw [hloop] at hroll; cases hroll
  | some r =>
    obtain ⟨s1, e1⟩ := r
    rw [hloop] at hroll
    cases e1 with
    | some e => cases hroll
    | none =>
      simp only [Option.some.injEq, Prod.mk.injEq] at hroll
      obtain ⟨rfl, -⟩ := hroll
      have h0 : L.length - L.length = 0 := by omega
      have hgood := rollbackLoop_good env t L.length
        (fun v => (L.drop (L.length - v)).headD g) S.statedb hlen
        (fun v h1 h2 => ⟨hE1 v h2, hE2 v h1 h2⟩) hstore fuel S s1 S.latest rfl
        (by rw [c1]; exact htop)
        (by simp only [h0, List.drop_zero]; rw [c1])
        hloop
      obtain ⟨j, -, -, hbt⟩ := hstore t (by omega)
      refine ⟨(L.drop (L.length - j)).headD g, ?_⟩
      apply rollbackLoop_chain_ok env t (L.take (L.length - t))
        ((L.drop (L.length - t)).headD g) _ S S.latest fuel s1 k1 ?_ hbt (hE1 t (by omega))
        (by rw [hhead, c1]) (by rw [hhead, c1]) hloop
      intro e he
      obtain ⟨i, hi, hie⟩ := List.getElem_of_mem he
      rw [List.length_take] at hi
      have hiL : i < L.length := by omega
      rw [List.getElem_take] at hie
      have hgd := hgood (L.length - i) (by omega) (by omega)
      have hh : L.length - (L.length - i) = i := by omega
      simp only [hh] at hgd
      rw [List.drop_eq_getElem_cons hiL] at hgd
      simp only [List.headD_cons] at hgd
      rw [← hie]
      exact hgd

/-- `Rollback` on a reached state DB with pairwise distinct block hashes:
with one unit of fuel per block state to load it returns; it returns without
error exactly when every trie revert and the final persistence succeed; when
the trie reverts succeed it has undone the block states above the target, the
newest first, with `latest` at the target; an error is the error of a call
outside the chain core. -/
theorem Rollback_total_of_Reach (Q : ChainStateDB C → BlockState → Prop)
    (S0 S : ChainStateDB C) (g : BlockState) (L : List BlockState) (t fuel : Nat)
    (hlat : S0.latest = g.toBlockInfo)
    (hg : GoMap.get? S0.statedb g.BlockHash = some g) (hg0 : g.BlockNo = 0)
    (hreach : Reach env Q S0 L S)
    (hnd : ((L ++ [g]).map (fun e => e.BlockHash)).Nodup)
    (hlen : L.length < 2 ^ 64) (ht : t < L.length)
    (hfuel : L.length - t + 1 ≤ fuel) :
    ∃ (sdb' : ChainStateDB C) (e : Option Err),
      Rollback env fuel S t = some (sdb', e) ∧
      (e = none ↔ undoSucceeds env S (L.take (L.length - t)) = true ∧
        env.saveStateDB sdb'.accounts sdb'.latest = none) ∧
      (undoSucceeds env S (L.take (L.length - t)) = true →
        sdb' = { undoBlocks env S (L.take (L.length - t)) with
                 latest := ((L.drop (L.length - t)).headD g).toBlockInfo }) ∧
      (∀ err, e = some err → ∃ c, err = Err.external c) ∧
      ((L.drop (L.length - t)).headD g).BlockNo = t := by
  obtain ⟨c1, c2, c3⟩ := Reach_chain env Q S0 g hlat hg L S hreach hnd (by omega)
  obtain ⟨k1, k2⟩ := Linked_take_drop L g c2 (L.length - t)
  have hbase : ((L.drop (L.length - t)).headD g).BlockNo = t := by
    rw [Linked_headD_blockNo _ g k2, hg0, List.length_drop]
    omega
  have htop : (L.headD g).BlockNo = L.length := by
    rw [Linked_headD_blockNo L g c2, hg0]; omega
  have hhead : ((L.take (L.length - t)).headD ((L.drop (L.length - t)).headD g)) = L.headD g := by
    cases L with
    | nil => simp at ht
    | cons x r =>
      have : (x :: r).length - t = ((x :: r).length - t - 1) + 1 := by
        simp only [List.length_cons] at ht ⊢; omega
      rw [this, List.take_succ_cons]
      rfl
  obtain ⟨sdbX, e0, hloop, hiff, hshape, hext⟩ :=
    rollbackLoop_chain_total env t (L.take (L.length - t))
      ((L.drop (L.length - t)).headD g) S S.latest fuel k1
      (by
        intro e he
        apply c3
        simp only [List.mem_append, List.mem_singleton] at he
        rcases he with he | he
        · exact List.mem_append_left _ (List.mem_of_mem_take he)
        · rw [he]; exact headD_drop_mem L g _)
      hbase
      (by rw [hhead, c1])
      (by rw [hhead, c1])
      (by rw [List.length_take]; omega)
  have hnle : ¬ S.latest.BlockNo ≤ t := by
    rw [c1, htop]; omega
  cases e0 with
  | some err =>
    refine ⟨sdbX, some err, ?_, ?_, ?_, hext, hbase⟩
    · unfold Rollback
      rw [if_neg hnle, hloop]
    · constructor
      · intro h; cases h
      · intro h
        have := hiff.2 h.1
        cases this
    · intro h
      have := hiff.2 h
      cases this
  | none =>
    refine ⟨sdbX, extErr (env.saveStateDB sdbX.accounts sdbX.latest), ?_, ?_, ?_, ?_, hbase⟩
    · unfold Rollback
      rw [if_neg hnle, hloop]
    · have hu := hiff.1 rfl
      simp only [hu, true_and, extErr, Option.map_eq_none']
    · intro _
      exact hshape rfl
    · intro err h
      simp only [extErr] at h
      cases hc : env.saveStateDB sdbX.accounts sdbX.latest with
      | none => rw [hc] at h; cases h
      | some c => rw [hc] at h; exact ⟨c, by simpa using h.symm⟩

/-- When every trie revert succeeds, the trie root after undoing block states
is the undo root of the last one undone. -/
theorem undoBlocks_root_of_succeeds
    (hRevRoot : ∀ (tr : Trie C) (r : List Nat),
      (env.trieRevert tr r).2 = none → (env.trieRevert tr r).1.Root = r)
    (hLoadRoot : ∀ (tr : Trie C) (r : List Nat),
      (env.trieLoadCache tr r).2 = none → (env.trieLoadCache tr r).1.Root = tr.Root)
    (ups : List BlockState) (x : BlockState) :
    ∀ (S : ChainStateDB C), undoSucceeds env S (ups ++ [x]) = true →
      (undoBlocks env S (ups ++ [x])).trie.Root = x.Undo.StateRoot := by
  induction ups with
  | nil =>
    intro S h
    have hs : undoSucceeds env S [x]
        = ((revertTrie env
            { accounts := GoMap.assignAll S.accounts x.Undo.Accounts,
              trie := S.trie, latest := x.toBlockInfo, statedb := S.statedb }
            x.Undo.StateRoot).2.isNone && true) := rfl
    rw [List.nil_append, hs, Bool.and_true, Option.isNone_iff_eq_none] at h
    exact revertTrie_root env hRevRoot hLoadRoot _ _ h
  | cons y rest ih =>
    intro S h
    have hs : undoSucceeds env S (y :: rest ++ [x])
        = ((revertTrie env
            { accounts := GoMap.assignAll S.accounts y.Undo.Accounts,
              trie := S.trie, latest := y.toBlockInfo, statedb := S.statedb }
            y.Undo.StateRoot).2.isNone && undoSucceeds env (undoBlock env S y) (rest ++ [x])) := rfl
    rw [hs, Bool.and_eq_true] at h
    have hund : undoBlocks env S (y :: rest ++ [x])
        = undoBlocks env (undoBlock env S y) (rest ++ [x]) := rfl
    rw [hund]
    exact ih _ h.2


/-- Two inputs on which claim C3 fails as stated. With a trie whose `Revert`
and `LoadCache` fail, `SetGenesis` and the `Apply` calls for blocks 1 and 2,
of distinct hashes, succeed and `Rollback(1)` returns the error of
`LoadCache`, with `latest` still at block 2. With a trie that never fails,
and block 2 carrying the block hash of block 1, `Rollback(1)` returns without
error with `latest` at block 2: the store is keyed by block hash. -/
theorem Rollback_misses_target :
    (SetGenesis demoFailEnv demoDB demoGenesis).2 = none ∧
    (applyAll demoFailEnv (SetGenesis demoFailEnv demoDB demoGenesis).1
      [demoBS1, demoBS2]).2 = none ∧
    (ToBlockID demoGenesis.BlockHash :: [demoBS1, demoBS2].map (fun b => b.BlockHash)).Nodup ∧
    (Rollback demoFailEnv 2
        (applyAll demoFailEnv (SetGenesis demoFailEnv demoDB demoGenesis).1
          [demoBS1, demoBS2]).1 1).map (fun r => (r.2, r.1.latest.BlockNo))
      = some (some (Err.external 8), 2) ∧
    (SetGenesis demoEnv demoDB demoGenesis).2 = none ∧
    (applyAll demoEnv (SetGenesis demoEnv demoDB demoGenesis).1
      [demoBS1, demoBS2SameHash]).2 = none ∧
    (Rollback demoEnv 2
        (applyAll demoEnv (SetGenesis demoEnv demoDB demoGenesis).1
          [demoBS1, demoBS2SameHash]).1 1).map (fun r => (r.2, r.1.latest.BlockNo))
      = some (none, 2) := by
  refine ⟨by decide, by decide, by decide, by decide, by decide, by decide, by decide⟩

/-- Claim C3, amended. From a state DB reached by `SetGenesis` and successful
`Apply` calls for blocks 1..n whose block hashes, the genesis hash included,
are pairwise distinct, `Rollback(t)` for `t < n` returns once its loop has
`n - t + 1` iterations of fuel. It returns without error exactly when the
trie reverts of the block states above `t`, the newest first, and the final
persistence succeed; and then `latest.BlockNo = t` and `latest.BlockHash` is
the hash of the block applied at height `t`, the genesis hash for `t = 0`. -/
theorem Rollback_reaches_target (sdbInit : ChainStateDB C) (genesis : Genesis)
    (blocks : List BlockState) (t fuel : Nat)
    (hg : (SetGenesis env sdbInit genesis).2 = none)
    (ha : (applyAll env (SetGenesis env sdbInit genesis).1 blocks).2 = none)
    (hlen : blocks.length < 2 ^ 64) (ht : t < blocks.length)
    (hnd : (ToBlockID genesis.BlockHash :: blocks.map (fun b => b.BlockHash)).Nodup)
    (hfuel : blocks.length - t + 1 ≤ fuel) :
    ∃ (sdb' : ChainStateDB C) (e : Option Err),
      Rollback env fuel (applyAll env (SetGenesis env sdbInit genesis).1 blocks).1 t
        = some (sdb', e) ∧
      (e = none ↔
        undoSucceeds env (applyAll env (SetGenesis env sdbInit genesis).1 blocks).1
          ((storedStates env (SetGenesis env sdbInit genesis).1 blocks).take
            (blocks.length - t)) = true ∧
        env.saveStateDB sdb'.accounts sdb'.latest = none) ∧
      (e = none →
        sdb'.latest.BlockNo = t ∧
        (ToBlockID genesis.BlockHash :: blocks.map (fun b => b.BlockHash))[t]?
          = some sdb'.latest.BlockHash) := by
  obtain ⟨g, hgi, hlat, hgs⟩ := SetGenesis_ok env sdbInit genesis hg
  obtain ⟨hreach, hinfos⟩ := applyAll_Reach env blocks _ ha
  have hLlen : (storedStates env (SetGenesis env sdbInit genesis).1 blocks).length
      = blocks.length := by
    have := congrArg List.length hinfos
    simpa using this
  have hhashes := stored_hashes genesis g _ blocks hgi hinfos
  have hg0 : g.BlockNo = 0 := by
    have := congrArg BlockInfo.BlockNo hgi
    exact this
  obtain ⟨sdb', e, hroll, hiff, hshape, -, hbase⟩ :=
    Rollback_total_of_Reach env _ _ _ g _ t fuel hlat hgs hg0 hreach
      (by rw [hhashes]; exact List.nodup_reverse.2 hnd)
      (by rw [hLlen]; exact hlen) (by rw [hLlen]; exact ht)
      (by rw [hLlen]; exact hfuel)
  rw [hLlen] at hiff hshape hbase
  refine ⟨sdb', e, hroll, hiff, ?_⟩
  intro he
  have hs := hshape (hiff.1 he).1
  have hidx := getElem?_append_headD_drop
    (storedStates env (SetGenesis env sdbInit genesis).1 blocks) g
    ((storedStates env (SetGenesis env sdbInit genesis).1 blocks).length - t) (by omega)
  have hmap := congrArg (Option.map (fun e : BlockState => e.BlockHash)) hidx
  rw [← List.getElem?_map, hhashes, hLlen] at hmap
  rw [List.getElem?_reverse (by simp only [List.length_cons, List.length_map]; omega)] at hmap
  simp only [List.length_cons, List.length_map, Option.map_some'] at hmap
  have hi : blocks.length + 1 - 1 - (blocks.length - t) = t := by omega
  rw [hi] at hmap
  rw [hs]
  exact ⟨hbase, hmap⟩

/-- Witness of claim C3 as amended: genesis and two blocks, rolled back to
block 1 on a trie that does not fail; `latest` ends at block 1. -/
theorem Rollback_reaches_target_witness :
    (SetGenesis demoEnv demoDB demoGenesis).2 = none ∧
    (applyAll demoEnv (SetGenesis demoEnv demoDB demoGenesis).1 [demoBS1, demoBS2]).2 = none ∧
    (Rollback demoEnv 2
        (applyAll demoEnv (SetGenesis demoEnv demoDB demoGenesis).1 [demoBS1, demoBS2]).1
        1).map (fun r => (r.2, r.1.latest.BlockNo, r.1.latest.BlockHash))
      = some (none, 1, demoID 101) ∧
    ∃ (sdb' : ChainStateDB Unit) (e : Option Err),
      Rollback demoEnv 2
          (applyAll demoEnv (SetGenesis demoEnv demoDB demoGenesis).1 [demoBS1, demoBS2]).1 1
        = some (sdb', e) ∧
      (e = none ↔
        undoSucceeds demoEnv
          (applyAll demoEnv (SetGenesis demoEnv demoDB demoGenesis).1 [demoBS1, demoBS2]).1
          ((storedStates demoEnv (SetGenesis demoEnv demoDB demoGenesis).1
            [demoBS1, demoBS2]).take ([demoBS1, demoBS2].length - 1)) = true ∧
        demoEnv.saveStateDB sdb'.accounts sdb'.latest = none) ∧
      (e = none →
        sdb'.latest.BlockNo = 1 ∧
        (ToBlockID demoGenesis.BlockHash :: [demoBS1, demoBS2].map (fun b => b.BlockHash))[1]?
          = some sdb'.latest.BlockHash) :=
  ⟨by decide, by decide, by decide,
   Rollback_reaches_target demoEnv demoDB demoGenesis [demoBS1, demoBS2] 1 2
     (by decide) (by decide) (by decide) (by decide) (by decide) (by decide)⟩

/-- Two inputs on which claim C4 fails as stated. With a trie whose `Revert`
and `LoadCache` fail, genesis and blocks 1 and 2 are applied and `Rollback(0)`
returns the error of `LoadCache` with the trie root at the undo root of
block 2, not at the root after genesis. With a trie that never fails, on a
state DB whose root after a genesis without accounts is the empty byte
string, `Rollback(0)` after block 1 returns without error with the 32 zero
bytes `apply` recorded as root. -/
theorem Rollback_misses_root :
    (SetGenesis demoFailEnv demoDB demoGenesis).2 = none ∧
    (applyAll demoFailEnv (SetGenesis demoFailEnv demoDB demoGenesis).1
      [demoBS1, demoBS2]).2 = none ∧
    (∀ b ∈ [demoBS1, demoBS2], b.Undo.StateRoot = emptyHashID) ∧
    (Rollback demoFailEnv 3
        (applyAll demoFailEnv (SetGenesis demoFailEnv demoDB demoGenesis).1
          [demoBS1, demoBS2]).1 0).map
        (fun r => (r.2, decide (r.1.trie.Root
          = (SetGenesis demoFailEnv demoDB demoGenesis).1.trie.Root)))
      = some (some (Err.external 8), false) ∧
    (SetGenesis demoEnv demoFreshDB demoBareGenesis).2 = none ∧
    (SetGenesis demoEnv demoFreshDB demoBareGenesis).1.trie.Root = [] ∧
    (applyAll demoEnv (SetGenesis demoEnv demoFreshDB demoBareGenesis).1 [demoBS1]).2 = none ∧
    (Rollback demoEnv 2
        (applyAll demoEnv (SetGenesis demoEnv demoFreshDB demoBareGenesis).1 [demoBS1]).1
        0).map (fun r => (r.2, r.1.trie.Root))
      = some (none, emptyHashID) := by
  refine ⟨by decide, by decide, by decide, by decide, by decide, by decide, by decide,
    by decide⟩

/-- Claim C4, amended. From a state DB whose trie root after genesis is a
32-byte digest `R0`, after block states B1..Bn (n >= 1) with initially empty
`Undo.StateRoot` were applied successfully in order, every `Rollback(0)` that
returns without error leaves the trie root equal to `R0`. The trie is outside
`src/`; of its methods the proof uses that after a successful `Revert` the
root is the root asked for and that a successful `LoadCache` leaves the root
as it is. The call does return: when the block hashes, the genesis hash
included, are pairwise distinct and the loop has `n + 1` iterations of fuel,
`Rollback(0)` returns, without error exactly when the trie reverts of
Bn..B1 and the final persistence succeed, and else with their error. -/
theorem Rollback_restores_root (sdbInit : ChainStateDB C) (genesis : Genesis)
    (blocks : List BlockState)
    (hg : (SetGenesis env sdbInit genesis).2 = none)
    (ha : (applyAll env (SetGenesis env sdbInit genesis).1 blocks).2 = none)
    (hR0 : (SetGenesis env sdbInit genesis).1.trie.Root.length = 32)
    (hn : 1 ≤ blocks.length) (hlen : blocks.length < 2 ^ 64)
    (hundo : ∀ b ∈ blocks, b.Undo.StateRoot = emptyHashID)
    (hRevRoot : ∀ (tr : Trie C) (r : List Nat),
      (env.trieRevert tr r).2 = none → (env.trieRevert tr r).1.Root = r)
    (hLoadRoot : ∀ (tr : Trie C) (r : List Nat),
      (env.trieLoadCache tr r).2 = none → (env.trieLoadCache tr r).1.Root = tr.Root) :
    (∀ (fuel : Nat) (sdb' : ChainStateDB C),
      Rollback env fuel (applyAll env (SetGenesis env sdbInit genesis).1 blocks).1 0
        = some (sdb', none) →
      sdb'.trie.Root = (SetGenesis env sdbInit genesis).1.trie.Root) ∧
    ((ToBlockID genesis.BlockHash :: blocks.map (fun b => b.BlockHash)).Nodup →
      ∀ fuel : Nat, blocks.length + 1 ≤ fuel →
        ∃ (sdb' : ChainStateDB C) (e : Option Err),
          Rollback env fuel (applyAll env (SetGenesis env sdbInit genesis).1 blocks).1 0
            = some (sdb', e) ∧
          (e = none ↔
            undoSucceeds env (applyAll env (SetGenesis env sdbInit genesis).1 blocks).1
              (storedStates env (SetGenesis env sdbInit genesis).1 blocks) = true ∧
            env.saveStateDB sdb'.accounts sdb'.latest = none) ∧
          (∀ err, e = some err → ∃ c, err = Err.external c)) := by
  obtain ⟨g, hgi, hlat, hgs⟩ := SetGenesis_ok env sdbInit genesis hg
  obtain ⟨hreach, hinfos⟩ := applyAll_Reach env blocks _ ha
  have hLlen : (storedStates env (SetGenesis env sdbInit genesis).1 blocks).length
      = blocks.length := by
    have := congrArg List.length hinfos
    simpa using this
  have hhashes := stored_hashes genesis g _ blocks hgi hinfos
  have hg0 : g.BlockNo = 0 := congrArg BlockInfo.BlockNo hgi
  constructor
  · intro fuel sdb' hroll
    obtain ⟨bt, hs, hsuc⟩ := Rollback_ok_of_Reach env _ _ _ g _ 0 fuel sdb' hlat hgs hg0 hreach
      (by rw [hLlen]; exact hlen) (by rw [hLlen]; omega) hroll
    simp only [Nat.sub_zero, List.take_length] at hs hsuc
    rw [hs]
    simp only
    cases blocks with
    | nil => simp at hn
    | cons b1 rest =>
      have hst : storedStates env (SetGenesis env sdbInit genesis).1 (b1 :: rest)
          = storedStates env (Apply env (SetGenesis env sdbInit genesis).1 b1).1 rest
            ++ [withUndoRoot (SetGenesis env sdbInit genesis).1 b1] := rfl
      rw [hst] at hsuc ⊢
      rw [undoBlocks_root_of_succeeds env hRevRoot hLoadRoot _ _ _ hsuc]
      unfold withUndoRoot
      rw [if_pos (hundo b1 (by simp))]
      exact ToHashID_of_length _ hR0
  · intro hnd fuel hfuel
    obtain ⟨sdb', e, hroll, hiff, -, hext, -⟩ :=
      Rollback_total_of_Reach env _ _ _ g _ 0 fuel hlat hgs hg0 hreach
        (by rw [hhashes]; exact List.nodup_reverse.2 hnd)
        (by rw [hLlen]; exact hlen) (by rw [hLlen]; omega)
        (by rw [hLlen]; exact hfuel)
    simp only [Nat.sub_zero, List.take_length] at hiff
    exact ⟨sdb', e, hroll, hiff, hext⟩

/-- Witness of claim C4 as amended: genesis and two blocks, rolled back to
block 0; the call returns without error and the trie root is the root after
genesis. -/
theorem Rollback_restores_root_witness :
    (SetGenesis demoEnv demoDB demoGenesis).1.trie.Root.length = 32 ∧
    (∀ b ∈ [demoBS1, demoBS2], b.Undo.StateRoot = emptyHashID) ∧
    (applyAll demoEnv (SetGenesis demoEnv demoDB demoGenesis).1 [demoBS1, demoBS2]).1.trie.Root
      ≠ (SetGenesis demoEnv demoDB demoGenesis).1.trie.Root ∧
    ∃ sdb', Rollback demoEnv 3
          (applyAll demoEnv (SetGenesis demoEnv demoDB demoGenesis).1 [demoBS1, demoBS2]).1 0
        = some (sdb', none) ∧
      sdb'.trie.Root = (SetGenesis demoEnv demoDB demoGenesis).1.trie.Root :=
  ⟨by decide, by decide, by decide,
   ((Rollback demoEnv 3
      (applyAll demoEnv (SetGenesis demoEnv demoDB demoGenesis).1 [demoBS1, demoBS2]).1 0).getD
      (demoDB, none)).1,
   by decide,
   (Rollback_restores_root demoEnv demoDB demoGenesis [demoBS1, demoBS2]
     (by decide) (by decide) (by decide) (by decide) (by decide) (by decide)
     (fun _ _ _ => rfl) (fun _ _ _ => rfl)).1 3 _ (by decide)⟩

end RollbackLemmas

/-! ## Lemmas on the executor -/

section ExecutorLemmas

variable {C CS : Type} (env : Env C CS)

theorem execTxType_normal (tx : Tx) (sid rid : AccountID) (recipient : List Nat) (cc : Bool)
    (blockNo : Nat) (ts : Int) (ss rs : State)
    (hT : tx.Body.Type_ = TxType_NORMAL) (hP : tx.Body.Payload = none) :
    execTxType env tx sid rid recipient cc blockNo ts ss rs
      = .ok ((if sid ≠ rid then
                if ss.Balance < tx.Body.Amount then { ss with Balance := 0 }
                else { ss with Balance := ss.Balance - tx.Body.Amount }
              else ss),
             (if sid ≠ rid then { rs with Balance := (rs.Balance + tx.Body.Amount) % u64 }
              else rs),
             none) := by
  unfold execTxType
  simp only [hT, if_true, hP]

theorem executeTx_normal (sdb : ChainStateDB C) (bs : BlockState) (tx : Tx) (blockNo : Nat)
    (ts : Int) (ss rs : State)
    (hT : tx.Body.Type_ = TxType_NORMAL) (hP : tx.Body.Payload = none)
    (hS : blockView sdb.accounts bs (ToAccountID env.TrieHasher tx.Body.Account) = .ok ss)
    (hR : blockView sdb.accounts bs (txReceiverID env tx.Body) = .ok rs) :
    (executeTx env sdb bs tx blockNo ts).2
      = ((if ToAccountID env.TrieHasher tx.Body.Account ≠ txReceiverID env tx.Body then
            (bs.PutAccount (ToAccountID env.TrieHasher tx.Body.Account) (some ss)
              (some { (if ss.Balance < tx.Body.Amount then { ss with Balance := 0 }
                       else { ss with Balance := ss.Balance - tx.Body.Amount })
                      with Nonce := tx.Body.Nonce })).PutAccount
              (txReceiverID env tx.Body) (some rs)
              (some { rs with Balance := (rs.Balance + tx.Body.Amount) % u64 })
          else
            bs.PutAccount (ToAccountID env.TrieHasher tx.Body.Account) (some ss)
              (some { ss with Nonce := tx.Body.Nonce })),
         none) ∧
    (executeTx env sdb bs tx blockNo ts).1.trie = sdb.trie ∧
    (executeTx env sdb bs tx blockNo ts).1.latest = sdb.latest ∧
    (executeTx env sdb bs tx blockNo ts).1.statedb = sdb.statedb ∧
    (∀ x, peekAccount (executeTx env sdb bs tx blockNo ts).1.accounts x
      = peekAccount sdb.accounts x) := by
  obtain ⟨f1, f2, f3, f4⟩ :=
    GetBlockAccountClone_fields sdb bs (ToAccountID env.TrieHasher tx.Body.Account)
  obtain ⟨g1, g2, g3, g4⟩ :=
    GetBlockAccountClone_fields
      (GetBlockAccountClone sdb bs (ToAccountID env.TrieHasher tx.Body.Account)).1 bs
      (txReceiverID env tx.Body)
  have h1 : GetBlockAccountClone sdb bs (ToAccountID env.TrieHasher tx.Body.Account)
      = ((GetBlockAccountClone sdb bs (ToAccountID env.TrieHasher tx.Body.Account)).1, .ok ss) := by
    apply Prod.ext
    · rfl
    · rw [GetBlockAccountClone_snd]; exact hS
  have h2 : GetBlockAccountClone
        (GetBlockAccountClone sdb bs (ToAccountID env.TrieHasher tx.Body.Account)).1 bs
        (txReceiverID env tx.Body)
      = ((GetBlockAccountClone
            (GetBlockAccountClone sdb bs (ToAccountID env.TrieHasher tx.Body.Account)).1 bs
            (txReceiverID env tx.Body)).1, .ok rs) := by
    apply Prod.ext
    · rfl
    · rw [GetBlockAccountClone_snd, ← hR]
      exact blockView_congr _ _ _ _ (f4 _)
  have hex : executeTx env sdb bs tx blockNo ts
      = ((GetBlockAccountClone
            (GetBlockAccountClone sdb bs (ToAccountID env.TrieHasher tx.Body.Account)).1 bs
            (txReceiverID env tx.Body)).1,
         (if ToAccountID env.TrieHasher tx.Body.Account ≠ txReceiverID env tx.Body then
            (bs.PutAccount (ToAccountID env.TrieHasher tx.Body.Account) (some ss)
              (some { (if ss.Balance < tx.Body.Amount then { ss with Balance := 0 }
                       else { ss with Balance := ss.Balance - tx.Body.Amount })
                      with Nonce := tx.Body.Nonce })).PutAccount
              (txReceiverID env tx.Body) (some rs)
              (some { rs with Balance := (rs.Balance + tx.Body.Amount) % u64 })
          else
            bs.PutAccount (ToAccountID env.TrieHasher tx.Body.Account) (some ss)
              (some { ss with Nonce := tx.Body.Nonce })),
         none) := by
    unfold executeTx
    simp only
    rw [h1]
    simp only
    have h2' := h2
    unfold txReceiverID at h2'
    rw [h2']
    simp only
    rw [execTxType_normal env tx _ _ _ _ blockNo ts ss rs hT hP]
    simp only
    unfold txReceiverID
    by_cases hne : ToAccountID env.TrieHasher tx.Body.Account
        ≠ ToAccountID env.TrieHasher (txRecipient env tx.Body)
    · simp only [if_pos hne]
    · simp only [if_neg hne]
  rw [hex]
  refine ⟨rfl, ?_, ?_, ?_, ?_⟩
  · exact g1.trans f1
  · exact g2.trans f2
  · exact g3.trans f3
  · intro x; exact (g4 x).trans (f4 x)

/-- Claim C6. A payload-free `NORMAL` transaction between distinct accounts
whose sender balance, read through the block state, covers the amount:
`executeTx` returns no error, the sender post-image has the prior balance
minus the amount (and the nonce of the transaction), the receiver post-image
the prior balance plus the amount modulo `2^64`. `ss` and `rs` are the states
`GetBlockAccountClone` reads for the two accounts. -/
theorem executeTx_transfer_covered (sdb : ChainStateDB C) (bs : BlockState) (tx : Tx)
    (blockNo : Nat) (ts : Int) (ss rs : State)
    (hT : tx.Body.Type_ = TxType_NORMAL) (hP : tx.Body.Payload = none)
    (hne : ToAccountID env.TrieHasher tx.Body.Account ≠ txReceiverID env tx.Body)
    (hS : (GetBlockAccountClone sdb bs (ToAccountID env.TrieHasher tx.Body.Account)).2 = .ok ss)
    (hR : (GetBlockAccountClone sdb bs (txReceiverID env tx.Body)).2 = .ok rs)
    (hB : tx.Body.Amount ≤ ss.Balance) :
    (executeTx env sdb bs tx blockNo ts).2.2 = none ∧
    (executeTx env sdb bs tx blockNo ts).2.1.GetAccount (ToAccountID env.TrieHasher tx.Body.Account)
      = some (some { ss with Balance := ss.Balance - tx.Body.Amount, Nonce := tx.Body.Nonce }) ∧
    (executeTx env sdb bs tx blockNo ts).2.1.GetAccount (txReceiverID env tx.Body)
      = some (some { rs with Balance := (rs.Balance + tx.Body.Amount) % u64 }) := by
  rw [GetBlockAccountClone_snd] at hS hR
  obtain ⟨hex, -⟩ := executeTx_normal env sdb bs tx blockNo ts ss rs hT hP hS hR
  rw [hex, if_pos hne]
  have hlt : ¬ ss.Balance < tx.Body.Amount := Nat.not_lt.2 hB
  simp only [if_neg hlt]
  refine ⟨trivial, ?_, ?_⟩
  · unfold BlockState.GetAccount
    rw [PutAccount_accounts_get, if_neg hne, PutAccount_accounts_get, if_pos rfl]
  · unfold BlockState.GetAccount
    rw [PutAccount_accounts_get, if_pos rfl]

/-- Witness of claim C6, the single transfer of the spec: A = 100, B = 0,
amount 30, nonce 1 give A.balance = 70, A.nonce = 1, B.balance = 30. -/
theorem executeTx_transfer_covered_witness :
    (executeTx demoEnv (demoAccountsDB 0 100 0) (NewBlockState (NewBlockInfo 1 (demoID 101) (demoID 100)))
        (demoTx (demoID 66) 30 1) 1 0).2.2 = none ∧
    (executeTx demoEnv (demoAccountsDB 0 100 0) (NewBlockState (NewBlockInfo 1 (demoID 101) (demoID 100)))
        (demoTx (demoID 66) 30 1) 1 0).2.1.GetAccount (demoID 65) = some (some (demoState 1 70)) ∧
    (executeTx demoEnv (demoAccountsDB 0 100 0) (NewBlockState (NewBlockInfo 1 (demoID 101) (demoID 100)))
        (demoTx (demoID 66) 30 1) 1 0).2.1.GetAccount (demoID 66) = some (some (demoState 0 30)) :=
  executeTx_transfer_covered demoEnv (demoAccountsDB 0 100 0)
    (NewBlockState (NewBlockInfo 1 (demoID 101) (demoID 100))) (demoTx (demoID 66) 30 1) 1 0
    (demoState 0 100) (demoState 0 0) rfl rfl (by decide) (by decide) (by decide) (by decide)

/-- Claim C7. A payload-free `NORMAL` transaction between distinct accounts
whose sender balance, read through the block state, is below the amount:
`executeTx` returns no error, the sender post-image has balance 0 and the
receiver post-image the prior balance plus the full amount modulo `2^64`. -/
theorem executeTx_transfer_insufficient (sdb : ChainStateDB C) (bs : BlockState) (tx : Tx)
    (blockNo : Nat) (ts : Int) (ss rs : State)
    (hT : tx.Body.Type_ = TxType_NORMAL) (hP : tx.Body.Payload = none)
    (hne : ToAccountID env.TrieHasher tx.Body.Account ≠ txReceiverID env tx.Body)
    (hS : (GetBlockAccountClone sdb bs (ToAccountID env.TrieHasher tx.Body.Account)).2 = .ok ss)
    (hR : (GetBlockAccountClone sdb bs (txReceiverID env tx.Body)).2 = .ok rs)
    (hB : ss.Balance < tx.Body.Amount) :
    (executeTx env sdb bs tx blockNo ts).2.2 = none ∧
    (executeTx env sdb bs tx blockNo ts).2.1.GetAccount (ToAccountID env.TrieHasher tx.Body.Account)
      = some (some { ss with Balance := 0, Nonce := tx.Body.Nonce }) ∧
    (executeTx env sdb bs tx blockNo ts).2.1.GetAccount (txReceiverID env tx.Body)
      = some (some { rs with Balance := (rs.Balance + tx.Body.Amount) % u64 }) := by
  rw [GetBlockAccountClone_snd] at hS hR
  obtain ⟨hex, -⟩ := executeTx_normal env sdb bs tx blockNo ts ss rs hT hP hS hR
  rw [hex, if_pos hne]
  simp only [if_pos hB]
  refine ⟨trivial, ?_, ?_⟩
  · unfold BlockState.GetAccount
    rw [PutAccount_accounts_get, if_neg hne, PutAccount_accounts_get, if_pos rfl]
  · unfold BlockState.GetAccount
    rw [PutAccount_accounts_get, if_pos rfl]

/-- Witness of claim C7, the insufficient-funds scenario of the spec:
A = 70, B = 30, amount 999 give A.balance = 0 and B.balance = 1029. -/
theorem executeTx_transfer_insufficient_witness :
    (executeTx demoEnv (demoAccountsDB 1 70 30) (NewBlockState (NewBlockInfo 2 (demoID 102) (demoID 101)))
        (demoTx (demoID 66) 999 2) 2 0).2.2 = none ∧
    (executeTx demoEnv (demoAccountsDB 1 70 30) (NewBlockState (NewBlockInfo 2 (demoID 102) (demoID 101)))
        (demoTx (demoID 66) 999 2) 2 0).2.1.GetAccount (demoID 65) = some (some (demoState 2 0)) ∧
    (executeTx demoEnv (demoAccountsDB 1 70 30) (NewBlockState (NewBlockInfo 2 (demoID 102) (demoID 101)))
        (demoTx (demoID 66) 999 2) 2 0).2.1.GetAccount (demoID 66) = some (some (demoState 0 1029)) :=
  executeTx_transfer_insufficient demoEnv (demoAccountsDB 1 70 30)
    (NewBlockState (NewBlockInfo 2 (demoID 102) (demoID 101))) (demoTx (demoID 66) 999 2) 2 0
    (demoState 1 70) (demoState 0 30) rfl rfl (by decide) (by decide) (by decide) (by decide)

/-- Claim C9. For a payload-free `NORMAL` transaction whose sender and
receiver states can be read (`ss`, `rs`), whatever the sender's prior nonce
and whether or not sender and receiver coincide, `executeTx` returns no error
and the sender post-image stored in the block state has the nonce of the
transaction. -/
theorem executeTx_nonce_unconditional (sdb : ChainStateDB C) (bs : BlockState) (tx : Tx)
    (blockNo : Nat) (ts : Int) (ss rs : State)
    (hT : tx.Body.Type_ = TxType_NORMAL) (hP : tx.Body.Payload = none)
    (hS : (GetBlockAccountClone sdb bs (ToAccountID env.TrieHasher tx.Body.Account)).2 = .ok ss)
    (hR : (GetBlockAccountClone sdb bs (txReceiverID env tx.Body)).2 = .ok rs) :
    (executeTx env sdb bs tx blockNo ts).2.2 = none ∧
    ∃ st, (executeTx env sdb bs tx blockNo ts).2.1.GetAccount
            (ToAccountID env.TrieHasher tx.Body.Account) = some (some st) ∧
          st.Nonce = tx.Body.Nonce := by
  rw [GetBlockAccountClone_snd] at hS hR
  obtain ⟨hex, -⟩ := executeTx_normal env sdb bs tx blockNo ts ss rs hT hP hS hR
  rw [hex]
  refine ⟨rfl, ?_⟩
  by_cases hne : ToAccountID env.TrieHasher tx.Body.Account ≠ txReceiverID env tx.Body
  · rw [if_pos hne]
    refine ⟨{ (if ss.Balance < tx.Body.Amount then { ss with Balance := 0 }
               else { ss with Balance := ss.Balance - tx.Body.Amount })
              with Nonce := tx.Body.Nonce }, ?_, rfl⟩
    unfold BlockState.GetAccount
    rw [PutAccount_accounts_get, if_neg hne, PutAccount_accounts_get, if_pos rfl]
  · rw [if_neg hne]
    refine ⟨{ ss with Nonce := tx.Body.Nonce }, ?_, rfl⟩
    unfold BlockState.GetAccount
    rw [PutAccount_accounts_get, if_pos rfl]

/-- Witness of claim C9: the sender's prior nonce is 5, the transaction's
nonce is 2, lower than it. -/
theorem executeTx_nonce_unconditional_witness :
    (executeTx demoEnv (demoAccountsDB 5 70 30) (NewBlockState (NewBlockInfo 2 (demoID 102) (demoID 101)))
        (demoTx (demoID 66) 10 2) 2 0).2.2 = none ∧
    ∃ st, (executeTx demoEnv (demoAccountsDB 5 70 30)
            (NewBlockState (NewBlockInfo 2 (demoID 102) (demoID 101)))
            (demoTx (demoID 66) 10 2) 2 0).2.1.GetAccount (demoID 65) = some (some st) ∧
          st.Nonce = 2 :=
  executeTx_nonce_unconditional demoEnv (demoAccountsDB 5 70 30)
    (NewBlockState (NewBlockInfo 2 (demoID 102) (demoID 101))) (demoTx (demoID 66) 10 2) 2 0
    (demoState 5 70) (demoState 0 30) rfl rfl (by decide) (by decide)

theorem ToHashID_length (d : List Nat) : (ToHashID d).length = 32 := by
  unfold ToHashID
  simp only [List.length_append, List.length_take, List.length_replicate]
  omega

theorem executeTx_puts_receiver (sdb : ChainStateDB C) (bs : BlockState) (tx : Tx)
    (blockNo : Nat) (ts : Int) (h : (executeTx env sdb bs tx blockNo ts).2.2 = none) :
    ((executeTx env sdb bs tx blockNo ts).2.1.GetAccount (txReceiverID env tx.Body)).isSome
      = true := by
  unfold executeTx at h ⊢
  simp only at h ⊢
  split at h
  · cases h
  · split at h
    · cases h
    · split at h
      · cases h
      · unfold BlockState.GetAccount txReceiverID
        simp only
        split
        · rw [PutAccount_accounts_get, if_pos rfl]; rfl
        · rename_i heq
          simp only [ne_eq, not_not] at heq
          rw [PutAccount_accounts_get, if_pos heq.symm]; rfl

/-- The block state `executeTx` returns differs from the one it was given at
most at the sender and at the receiver. -/
theorem executeTx_frame (sdb : ChainStateDB C) (bs : BlockState) (tx : Tx)
    (blockNo : Nat) (ts : Int) (k : AccountID)
    (hs : k ≠ ToAccountID env.TrieHasher tx.Body.Account)
    (hr : k ≠ txReceiverID env tx.Body) :
    GoMap.get? (executeTx env sdb bs tx blockNo ts).2.1.accounts k = GoMap.get? bs.accounts k := by
  have hr' : k ≠ ToAccountID env.TrieHasher (txRecipient env tx.Body) := hr
  unfold executeTx
  simp only
  split
  · rfl
  · split
    · rfl
    · split
      · rfl
      · simp only
        split
        · rw [PutAccount_accounts_get, if_neg hr', PutAccount_accounts_get, if_neg hs]
        · rw [PutAccount_accounts_get, if_neg hs]

/-- Claim C8. With sha256 digests of 32 bytes, for every transaction and every
state DB and block state there is an address such that: for an empty
recipient the address has 33 bytes, starts with `0x0C` and continues with
`sha256(body.account ++ decimal digits of body.nonce)`, for a non-empty
recipient it is `body.recipient`; and the run of `executeTx` is the run with
this address: the receiver is read under the hash of the address, the
transaction is executed for that receiver `AccountID` and this address (which
is what the contract VM is handed), and the receiver state is written to the
block state under that `AccountID`. So the block state returned differs
from the one given at most at the sender and at the hash of the address, and
when `executeTx` returns no error it holds an entry under that hash. -/
theorem executeTx_recipient_address (sdb : ChainStateDB C) (bs : BlockState) (tx : Tx)
    (blockNo : Nat) (ts : Int) (hsha : ∀ d, (env.sha256 d).length = 32) :
    ∃ recipient : List Nat,
      (tx.Body.Recipient = [] →
        recipient.length = 33 ∧ recipient.head? = some 0x0C ∧
        recipient.tail = env.sha256 (tx.Body.Account ++ formatUint tx.Body.Nonce)) ∧
      (tx.Body.Recipient ≠ [] → recipient = tx.Body.Recipient) ∧
      executeTx env sdb bs tx blockNo ts
        = (match GetBlockAccountClone sdb bs (ToAccountID env.TrieHasher tx.Body.Account) with
           | (sdb1, .error e) => (sdb1, bs, some e)
           | (sdb1, .ok senderState) =>
             match GetBlockAccountClone sdb1 bs (ToAccountID env.TrieHasher recipient) with
             | (sdb2, .error e) => (sdb2, bs, some e)
             | (sdb2, .ok receiverState) =>
               match execTxType env tx (ToAccountID env.TrieHasher tx.Body.Account)
                   (ToAccountID env.TrieHasher recipient) recipient
                   (decide (tx.Body.Recipient = [])) blockNo ts senderState receiverState with
               | .error e => (sdb2, bs, some e)
               | .ok (senderChange, receiverChange, err) =>
                 (sdb2,
                  (if ToAccountID env.TrieHasher tx.Body.Account
                      ≠ ToAccountID env.TrieHasher recipient then
                    (bs.PutAccount (ToAccountID env.TrieHasher tx.Body.Account)
                      (some senderState)
                      (some { senderChange with Nonce := tx.Body.Nonce })).PutAccount
                      (ToAccountID env.TrieHasher recipient) (some receiverState)
                      (some receiverChange)
                   else
                    bs.PutAccount (ToAccountID env.TrieHasher tx.Body.Account)
                      (some senderState)
                      (some { senderChange with Nonce := tx.Body.Nonce })),
                  err)) ∧
      (∀ k, k ≠ ToAccountID env.TrieHasher tx.Body.Account →
        k ≠ ToAccountID env.TrieHasher recipient →
        GoMap.get? (executeTx env sdb bs tx blockNo ts).2.1.accounts k
          = GoMap.get? bs.accounts k) ∧
      ((executeTx env sdb bs tx blockNo ts).2.2 = none →
        ((executeTx env sdb bs tx blockNo ts).2.1.GetAccount
          (ToAccountID env.TrieHasher recipient)).isSome = true) := by
  by_cases hR : tx.Body.Recipient = []
  · have hr : txRecipient env tx.Body
        = 0x0C :: env.sha256 (tx.Body.Account ++ formatUint tx.Body.Nonce) := by
      unfold txRecipient
      simp [hR]
    have hid : txReceiverID env tx.Body = ToAccountID env.TrieHasher
        (0x0C :: env.sha256 (tx.Body.Account ++ formatUint tx.Body.Nonce)) := by
      unfold txReceiverID; rw [hr]
    refine ⟨0x0C :: env.sha256 (tx.Body.Account ++ formatUint tx.Body.Nonce),
      fun _ => ⟨by rw [List.length_cons, hsha], rfl, rfl⟩, fun h => absurd hR h, ?_,
      fun k h1 h2 => executeTx_frame env sdb bs tx blockNo ts k h1 (by rw [hid]; exact h2),
      fun h => by rw [← hid]; exact executeTx_puts_receiver env sdb bs tx blockNo ts h⟩
    unfold executeTx
    simp only [hr, hR, List.length_nil, gt_iff_lt, Nat.lt_irrefl, decide_False, Bool.not_false,
      decide_True]
  · have hpos : tx.Body.Recipient.length > 0 := List.length_pos.2 hR
    have hr : txRecipient env tx.Body = tx.Body.Recipient := by
      unfold txRecipient
      rw [if_pos hpos]
    have hid : txReceiverID env tx.Body = ToAccountID env.TrieHasher tx.Body.Recipient := by
      unfold txReceiverID; rw [hr]
    refine ⟨tx.Body.Recipient, fun h => absurd h hR, fun _ => rfl, ?_,
      fun k h1 h2 => executeTx_frame env sdb bs tx blockNo ts k h1 (by rw [hid]; exact h2),
      fun h => by rw [← hid]; exact executeTx_puts_receiver env sdb bs tx blockNo ts h⟩
    unfold executeTx
    simp only [hr, hR, hpos, decide_True, Bool.not_true, decide_False]

/-- Witness of claim C8, the contract-creation scenario of the spec: A sends
30 with an empty recipient and nonce 7, whose decimal digits are the one
byte `'7'`. `executeTx` returns no error and the block state holds the 30
under the hash of the 33-byte address. -/
theorem executeTx_recipient_address_witness :
    (∀ d, (demoEnv.sha256 d).length = 32) ∧
    formatUint 7 = [55] ∧
    ∃ recipient : List Nat,
      recipient.length = 33 ∧ recipient.head? = some 0x0C ∧
      recipient.tail = demoEnv.sha256 (demoID 65 ++ [55]) ∧
      (executeTx demoEnv (demoAccountsDB 6 100 0)
        (NewBlockState (NewBlockInfo 1 (demoID 101) (demoID 100))) (demoTx [] 30 7) 1 0).2.2
        = none ∧
      GoMap.get? (executeTx demoEnv (demoAccountsDB 6 100 0)
        (NewBlockState (NewBlockInfo 1 (demoID 101) (demoID 100))) (demoTx [] 30 7) 1 0).2.1.accounts
        (ToAccountID demoEnv.TrieHasher recipient) = some (some (demoState 0 30)) := by
  refine ⟨ToHashID_length, by decide, ?_⟩
  obtain ⟨recipient, h1, -, -, -, -⟩ := executeTx_recipient_address demoEnv (demoAccountsDB 6 100 0)
    (NewBlockState (NewBlockInfo 1 (demoID 101) (demoID 100))) (demoTx [] 30 7) 1 0
    ToHashID_length
  obtain ⟨a, b, c⟩ := h1 rfl
  have hrec : recipient = 0x0C :: demoEnv.sha256 (demoID 65 ++ [55]) := by
    cases recipient with
    | nil => cases b
    | cons x r =>
      simp only [List.head?_cons, Option.some.injEq] at b
      simp only [List.tail_cons] at c
      rw [b, c]
      rfl
  refine ⟨recipient, a, b, ?_, by decide, ?_⟩
  · rw [c]; rfl
  · rw [hrec]
    decide

theorem cloneState_ok (p : StatePtr) (st : State) (h : cloneState p = .ok st) : p = some st := by
  cases p with
  | none => cases h
  | some s => cases h; rfl

theorem PutAccount_UndoComplete (A : GoMap AccountID StatePtr) (bs : BlockState)
    (aid : AccountID) (st : State) (c : StatePtr) (hinv : UndoComplete A bs)
    (hview : blockView A bs aid = .ok st) : UndoComplete A (bs.PutAccount aid (some st) c) := by
  obtain ⟨i1, i2⟩ := hinv
  constructor
  · intro x v hx
    rw [PutAccount_undo_get] at hx
    cases hu : GoMap.get? bs.Undo.Accounts x with
    | some w =>
      rw [hu] at hx
      simp only [Option.some.injEq] at hx
      rw [← hx]; exact i1 x w hu
    | none =>
      rw [hu] at hx
      simp only at hx
      by_cases hxa : x = aid
      · rw [if_pos hxa] at hx
        simp only [Option.some.injEq] at hx
        subst hxa
        have hacc := i2 x hu
        unfold blockView at hview
        split at hview
        · cases hview
        · unfold BlockState.GetAccount at hview
          rw [hacc] at hview
          simp only at hview
          rw [← hx]
          exact (cloneState_ok _ _ hview).symm
      · rw [if_neg hxa] at hx; cases hx
  · intro x hx
    rw [PutAccount_undo_get] at hx
    rw [PutAccount_accounts_get]
    cases hu : GoMap.get? bs.Undo.Accounts x with
    | some w => rw [hu] at hx; cases hx
    | none =>
      rw [hu] at hx
      simp only at hx
      by_cases hxa : x = aid
      · rw [if_pos hxa] at hx; cases hx
      · rw [if_neg hxa]; exact i2 x hu

theorem UndoComplete_congr (A B : GoMap AccountID StatePtr) (bs : BlockState)
    (h : ∀ x, peekAccount A x = peekAccount B x) (hinv : UndoComplete A bs) :
    UndoComplete B bs := by
  constructor
  · intro x v hx
    exact (hinv.1 x v hx).trans (h x)
  · exact hinv.2

theorem blockView_PutAccount_ne (A : GoMap AccountID StatePtr) (bs : BlockState)
    (aid x : AccountID) (b c : StatePtr) (hne : x ≠ aid) :
    blockView A (bs.PutAccount aid b c) x = blockView A bs x := by
  unfold blockView BlockState.GetAccount
  rw [PutAccount_accounts_get, if_neg hne]

theorem executeTx_reads (sdb : ChainStateDB C) (bs : BlockState) (tx : Tx) (blockNo : Nat)
    (ts : Int) (h : (executeTx env sdb bs tx blockNo ts).2.2 = none) :
    ∃ ss rs, blockView sdb.accounts bs (ToAccountID env.TrieHasher tx.Body.Account) = .ok ss ∧
      blockView sdb.accounts bs (txReceiverID env tx.Body) = .ok rs := by
  obtain ⟨-, -, -, f4⟩ :=
    GetBlockAccountClone_fields sdb bs (ToAccountID env.TrieHasher tx.Body.Account)
  unfold executeTx at h
  simp only at h
  split at h
  · cases h
  · rename_i sdb1 ss h1
    split at h
    · cases h
    · rename_i sdb2 rs h2
      have e1 := GetBlockAccountClone_snd sdb bs (ToAccountID env.TrieHasher tx.Body.Account)
      rw [h1] at e1
      have e2 := GetBlockAccountClone_snd sdb1 bs
        (ToAccountID env.TrieHasher (txRecipient env tx.Body))
      rw [h2] at e2
      refine ⟨ss, rs, e1.symm, ?_⟩
      unfold txReceiverID
      have e3 : blockView sdb1.accounts bs (ToAccountID env.TrieHasher (txRecipient env tx.Body))
          = .ok rs := e2.symm
      rw [← e3]
      apply blockView_congr
      have := f4 (ToAccountID env.TrieHasher (txRecipient env tx.Body))
      rw [h1] at this
      exact this.symm

theorem executeTx_plain_inv (sdb : ChainStateDB C) (bs : BlockState) (tx : Tx) (blockNo : Nat)
    (ts : Int) (hT : tx.Body.Type_ = TxType_NORMAL) (hP : tx.Body.Payload = none)
    (h : (executeTx env sdb bs tx blockNo ts).2.2 = none)
    (hinv : UndoComplete sdb.accounts bs) :
    SameView (executeTx env sdb bs tx blockNo ts).1 sdb ∧
    UndoComplete (executeTx env sdb bs tx blockNo ts).1.accounts
      (executeTx env sdb bs tx blockNo ts).2.1 ∧
    (executeTx env sdb bs tx blockNo ts).2.1.toBlockInfo = bs.toBlockInfo ∧
    (executeTx env sdb bs tx blockNo ts).2.1.Undo.StateRoot = bs.Undo.StateRoot := by
  obtain ⟨ss, rs, hS, hR⟩ := executeTx_reads env sdb bs tx blockNo ts h
  obtain ⟨hex, x1, x2, x3, x4⟩ := executeTx_normal env sdb bs tx blockNo ts ss rs hT hP hS hR
  refine ⟨⟨x1, x2, x3, x4⟩, ?_, ?_⟩
  · apply UndoComplete_congr sdb.accounts _ _ (fun x => (x4 x).symm)
    rw [hex]
    simp only
    split
    · rename_i hne
      apply PutAccount_UndoComplete
      · exact PutAccount_UndoComplete _ _ _ _ _ hinv hS
      · rw [blockView_PutAccount_ne _ _ _ _ _ _ (fun h => hne h.symm)]
        exact hR
    · exact PutAccount_UndoComplete _ _ _ _ _ hinv hS
  · rw [hex]
    simp only
    split
    · exact ⟨((PutAccount_toBlockInfo _ _ _ _).1).trans (PutAccount_toBlockInfo _ _ _ _).1,
        ((PutAccount_toBlockInfo _ _ _ _).2).trans (PutAccount_toBlockInfo _ _ _ _).2⟩
    · exact PutAccount_toBlockInfo _ _ _ _

theorem SameView_trans {S1 S2 S3 : ChainStateDB C} (h12 : SameView S1 S2) (h23 : SameView S2 S3) :
    SameView S1 S3 :=
  ⟨h12.1.trans h23.1, h12.2.1.trans h23.2.1, h12.2.2.1.trans h23.2.2.1,
    fun x => (h12.2.2.2 x).trans (h23.2.2.2 x)⟩

theorem executeTxs_plain_inv (blockNo : Nat) (ts : Int) (txs : List Tx)
    (hplain : ∀ tx ∈ txs, tx.Body.Type_ = TxType_NORMAL ∧ tx.Body.Payload = none) :
    ∀ (sdb : ChainStateDB C) (bs : BlockState),
      (executeTxs env blockNo ts sdb bs txs).2.2 = none →
      UndoComplete sdb.accounts bs →
      SameView (executeTxs env blockNo ts sdb bs txs).1 sdb ∧
      UndoComplete (executeTxs env blockNo ts sdb bs txs).1.accounts
        (executeTxs env blockNo ts sdb bs txs).2.1 ∧
      (executeTxs env blockNo ts sdb bs txs).2.1.toBlockInfo = bs.toBlockInfo := by
  induction txs with
  | nil =>
    intro sdb bs _ hinv
    exact ⟨⟨rfl, rfl, rfl, fun _ => rfl⟩, hinv, rfl⟩
  | cons tx rest ih =>
    intro sdb bs h hinv
    have hdef : executeTxs env blockNo ts sdb bs (tx :: rest)
        = match executeTx env sdb bs tx blockNo ts with
          | (sdb1, bs1, some e) => (sdb1, bs1, some e)
          | (sdb1, bs1, none) => executeTxs env blockNo ts sdb1 bs1 rest := rfl
    rw [hdef] at h ⊢
    obtain ⟨hT, hP⟩ := hplain tx (by simp)
    cases hx : executeTx env sdb bs tx blockNo ts with
    | mk sdb1 r =>
      obtain ⟨bs1, e⟩ := r
      rw [hx] at h
      cases e with
      | some e => cases h
      | none =>
        simp only at h ⊢
        have h0 : (executeTx env sdb bs tx blockNo ts).2.2 = none := by rw [hx]
        obtain ⟨v, u, b, -⟩ := executeTx_plain_inv env sdb bs tx blockNo ts hT hP h0 hinv
        rw [hx] at v u b
        simp only at v u b
        obtain ⟨v2, u2, b2⟩ := ih (fun t ht => hplain t (by simp [ht])) sdb1 bs1 h u
        exact ⟨SameView_trans v2 v, u2, b2.trans b⟩

theorem UndoComplete_NewBlockState (A : GoMap AccountID StatePtr) (info : BlockInfo) :
    UndoComplete A (NewBlockState info) := by
  constructor
  · intro x v hx
    cases hx
  · intro x _
    rfl

theorem execute_plain (S : ChainStateDB C) (block : Block) (hplain : PlainBlock block)
    (h : (execute env S none block).2 = none) :
    ∃ Sp bs, SameView Sp S ∧ UndoComplete Sp.accounts bs ∧
      bs.toBlockInfo = blockInfoOf env block ∧
      (Apply env Sp bs).2 = none ∧ (execute env S none block).1 = (Apply env Sp bs).1 := by
  unfold execute at h ⊢
  simp only at h ⊢
  cases hx : executeTxs env block.Header.BlockNo block.Header.Timestamp S
      (NewBlockState (NewBlockInfo block.Header.BlockNo (block.BlockID env) block.PrevBlockID))
      block.Txs with
  | mk sdb1 r =>
    obtain ⟨bs1, e⟩ := r
    rw [hx] at h
    cases e with
    | some e => cases h
    | none =>
      simp only at h ⊢
      have h0 : (executeTxs env block.Header.BlockNo block.Header.Timestamp S
          (NewBlockState (NewBlockInfo block.Header.BlockNo (block.BlockID env) block.PrevBlockID))
          block.Txs).2.2 = none := by rw [hx]
      obtain ⟨v, u, b⟩ := executeTxs_plain_inv env _ _ block.Txs hplain S _ h0
        (UndoComplete_NewBlockState _ _)
      rw [hx] at v u b
      exact ⟨sdb1, bs1, v, u, b, h, rfl⟩

theorem executeAll_cons (S : ChainStateDB C) (block : Block) (rest : List Block)
    (h : (executeAll env S (block :: rest)).2 = none) :
    (execute env S none block).2 = none ∧
    executeAll env S (block :: rest) = executeAll env (execute env S none block).1 rest := by
  have hdef : executeAll env S (block :: rest)
      = match execute env S none block with
        | (sdb1, some e) => (sdb1, some e)
        | (sdb1, none) => executeAll env sdb1 rest := rfl
  rw [hdef] at h ⊢
  cases hA : execute env S none block with
  | mk sdb1 e =>
    rw [hA] at h
    cases e with
    | some e => cases h
    | none => exact ⟨rfl, rfl⟩

theorem executeAll_append (A B : List Block) :
    ∀ (S : ChainStateDB C), (executeAll env S (A ++ B)).2 = none →
      (executeAll env S A).2 = none ∧
      executeAll env S (A ++ B) = executeAll env (executeAll env S A).1 B := by
  induction A with
  | nil => intro S _; exact ⟨rfl, rfl⟩
  | cons a rest ih =>
    intro S h
    rw [List.cons_append] at h ⊢
    obtain ⟨h1, h2⟩ := executeAll_cons env S a (rest ++ B) h
    rw [h2] at h ⊢
    obtain ⟨i1, i2⟩ := ih _ h
    have hdef : executeAll env S (a :: rest)
        = match execute env S none a with
          | (sdb1, some e) => (sdb1, some e)
          | (sdb1, none) => executeAll env sdb1 rest := rfl
    have hA : execute env S none a = ((execute env S none a).1, none) :=
      Prod.ext rfl h1
    rw [hdef, hA]
    exact ⟨i1, i2⟩

theorem executeAll_Reach (blocks : List Block) (hplain : ∀ b ∈ blocks, PlainBlock b) :
    ∀ (S : ChainStateDB C), (executeAll env S blocks).2 = none →
      ∃ L, Reach env (fun Sp bs => UndoComplete Sp.accounts bs) S L (executeAll env S blocks).1 ∧
        L.map (fun e => e.toBlockInfo) = (blocks.map (blockInfoOf env)).reverse := by
  induction blocks with
  | nil => intro S _; exact ⟨[], Reach.start, rfl⟩
  | cons b rest ih =>
    intro S h
    obtain ⟨h1, h2⟩ := executeAll_cons env S b rest h
    rw [h2] at h ⊢
    obtain ⟨Sp, bs, v, u, bi, ha, hs⟩ := execute_plain env S b (hplain b (by simp)) h1
    rw [hs] at h ⊢
    obtain ⟨L, r1, r2⟩ := ih (fun x hx => hplain x (by simp [hx])) _ h
    have hone : Reach env (fun Sp bs => UndoComplete Sp.accounts bs) S [withUndoRoot Sp bs]
        (Apply env Sp bs).1 := Reach.step Sp bs Reach.start v u ha
    refine ⟨L ++ [withUndoRoot Sp bs], Reach_append env _ S _ _ hone _ _ r1, ?_⟩
    simp only [List.map_append, r2, List.map_cons, List.map_nil, List.reverse_cons,
      (withUndoRoot_fields Sp bs).1, bi]

theorem peekAccount_assignAll (A U : GoMap AccountID StatePtr) (x : AccountID) :
    peekAccount (GoMap.assignAll A U) x
      = match GoMap.get? U x with
        | some v => v
        | none => peekAccount A x := by
  unfold peekAccount
  rw [GoMap.get?_assignAll]
  cases GoMap.get? U x <;> rfl

theorem undoBlocks_accounts_congr (L : List BlockState) :
    ∀ (S T : ChainStateDB C), (∀ x, peekAccount S.accounts x = peekAccount T.accounts x) →
      ∀ x, peekAccount (undoBlocks env S L).accounts x
        = peekAccount (undoBlocks env T L).accounts x := by
  induction L with
  | nil => intro S T h; exact h
  | cons b rest ih =>
    intro S T h
    have e1 : undoBlocks env S (b :: rest) = undoBlocks env (undoBlock env S b) rest := rfl
    have e2 : undoBlocks env T (b :: rest) = undoBlocks env (undoBlock env T b) rest := rfl
    rw [e1, e2]
    apply ih
    intro x
    rw [(undoBlock_fields env S b).1, (undoBlock_fields env T b).1, peekAccount_assignAll,
      peekAccount_assignAll, h x]

/-- Undoing all the block states stored since `S0`, the newest first, gives
back a committed map in which every account reads as it did in `S0`. -/
theorem Reach_undo_accounts (S0 : ChainStateDB C) (L : List BlockState) (S : ChainStateDB C)
    (h : Reach env (fun Sp bs => UndoComplete Sp.accounts bs) S0 L S) :
    ∀ x, peekAccount (undoBlocks env S L).accounts x = peekAccount S0.accounts x := by
  induction h with
  | start => intro x; rfl
  | @step L S Sp bs _ hview hq happ ih =>
    intro x
    have e1 : undoBlocks env (Apply env Sp bs).1 (withUndoRoot Sp bs :: L)
        = undoBlocks env (undoBlock env (Apply env Sp bs).1 (withUndoRoot Sp bs)) L := rfl
    rw [e1, ← ih x]
    apply undoBlocks_accounts_congr
    intro y
    obtain ⟨hA, -, -⟩ := Apply_ok env Sp bs happ
    rw [hA] at happ ⊢
    obtain ⟨-, a2, -⟩ := applyState_ok env Sp bs happ
    obtain ⟨-, -, w3⟩ := withUndoRoot_fields Sp bs
    rw [(undoBlock_fields env _ _).1, peekAccount_assignAll, w3, a2, peekAccount_assignAll]
    cases hu : GoMap.get? bs.Undo.Accounts y with
    | some v =>
      simp only
      rw [hq.1 y v hu]
      exact hview.2.2.2 y
    | none =>
      simp only
      rw [hq.2 y hu]
      exact hview.2.2.2 y

theorem stored_hashes_infos (genesis : Genesis) (g : BlockState) (L : List BlockState)
    (infos : List BlockInfo) (hgi : g.toBlockInfo = genesisInfo genesis)
    (hL : L.map (fun e => e.toBlockInfo) = infos.reverse) :
    (L ++ [g]).map (fun e => e.BlockHash)
      = (ToBlockID genesis.BlockHash :: infos.map BlockInfo.BlockHash).reverse := by
  have h1 : (L ++ [g]).map (fun e => e.BlockHash)
      = ((L ++ [g]).map (fun e => e.toBlockInfo)).map BlockInfo.BlockHash := by
    rw [List.map_map]; rfl
  rw [h1, List.map_append, hL, List.map_append, List.map_cons, List.map_nil, hgi,
    List.reverse_cons, List.map_reverse]
  rfl

/-- `Rollback` after the executor has run the blocks `A ++ B`: a call with
target `A.length` that returns without error leaves every account as it read
after `A`; and with pairwise distinct block hashes and one unit of fuel per
block state to load the call returns, an error being the error of a call
outside the chain core. -/
theorem rollback_accounts_of_split (sdbInit : ChainStateDB C) (genesis : Genesis)
    (A B : List Block)
    (hg : (SetGenesis env sdbInit genesis).2 = none)
    (he : (executeAll env (SetGenesis env sdbInit genesis).1 (A ++ B)).2 = none)
    (hplain : ∀ b ∈ A ++ B, PlainBlock b)
    (hlen : (A ++ B).length < 2 ^ 64) (hB : 0 < B.length) :
    (∀ (fuel : Nat) (sdb' : ChainStateDB C),
      Rollback env fuel (executeAll env (SetGenesis env sdbInit genesis).1 (A ++ B)).1
          A.length = some (sdb', none) →
      ∀ aid, aid ≠ emptyAccountID →
        (GetAccountStateClone sdb' aid).2
          = (GetAccountStateClone (executeAll env (SetGenesis env sdbInit genesis).1 A).1 aid).2) ∧
    ((ToBlockID genesis.BlockHash :: (A ++ B).map (fun b => b.BlockID env)).Nodup →
      ∀ fuel : Nat, B.length + 1 ≤ fuel →
        ∃ (sdb' : ChainStateDB C) (e : Option Err),
          Rollback env fuel (executeAll env (SetGenesis env sdbInit genesis).1 (A ++ B)).1
            A.length = some (sdb', e) ∧
          (∀ err, e = some err → ∃ c, err = Err.external c)) := by
  obtain ⟨g, hgi, hlat, hgs⟩ := SetGenesis_ok env sdbInit genesis hg
  have hg0 : g.BlockNo = 0 := congrArg BlockInfo.BlockNo hgi
  obtain ⟨hA, hAB⟩ := executeAll_append env A B _ he
  obtain ⟨L1, r1, i1⟩ := executeAll_Reach env A (fun b hb => hplain b (by simp [hb])) _ hA
  rw [hAB] at he ⊢
  obtain ⟨L2, r2, i2⟩ := executeAll_Reach env B (fun b hb => hplain b (by simp [hb])) _ he
  have rfull := Reach_append env _ _ _ L1 r1 L2 _ r2
  have hl1 : L1.length = A.length := by simpa using congrArg List.length i1
  have hl2 : L2.length = B.length := by simpa using congrArg List.length i2
  have hinfos : (L2 ++ L1).map (fun e => e.toBlockInfo)
      = ((A ++ B).map (blockInfoOf env)).reverse := by
    rw [List.map_append, i1, i2, List.map_append, List.reverse_append]
  have hhashes := stored_hashes_infos genesis g _ _ hgi hinfos
  have hmm : ((A ++ B).map (blockInfoOf env)).map BlockInfo.BlockHash
      = (A ++ B).map (fun b => b.BlockID env) := by
    rw [List.map_map]; rfl
  rw [hmm] at hhashes
  have hlen2 : (L2 ++ L1).length = (A ++ B).length := by
    simp only [List.length_append, hl1, hl2]; omega
  simp only [List.length_append] at hlen
  have htake : (L2 ++ L1).take ((L2 ++ L1).length - A.length) = L2 := by
    have : (L2 ++ L1).length - A.length = L2.length := by
      simp only [List.length_append, hl1]; omega
    rw [this, List.take_left']
    rfl
  constructor
  · intro fuel sdb' hroll
    obtain ⟨bt, hs, -⟩ := Rollback_ok_of_Reach env _ _ _ g (L2 ++ L1) A.length fuel sdb'
      hlat hgs hg0 rfull
      (by rw [hlen2, List.length_append]; exact hlen)
      (by rw [hlen2, List.length_append]; omega) hroll
    rw [htake] at hs
    intro aid haid
    rw [GetAccountStateClone_snd _ aid haid, GetAccountStateClone_snd _ aid haid, hs]
    simp only
    rw [Reach_undo_accounts env _ L2 _ r2 aid]
  · intro hnd fuel hfuel
    obtain ⟨sdb', e, hroll, -, -, hext, -⟩ :=
      Rollback_total_of_Reach env _ _ _ g (L2 ++ L1) A.length fuel hlat hgs hg0 rfull
        (by rw [hhashes]; exact List.nodup_reverse.2 hnd)
        (by rw [hlen2, List.length_append]; exact hlen)
        (by rw [hlen2, List.length_append]; omega)
        (by rw [hlen2, List.length_append]; omega)
    exact ⟨sdb', e, hroll, hext⟩

/-- An input on which claim C5 fails as stated, the trie being one that
cannot go back: the two example blocks run and are applied, `Rollback(0)`
writes back the undo record of block 2, fails to revert the trie and returns
the error of `LoadCache`; the account A then reads as after block 1 and not
as after the genesis. -/
theorem Rollback_leaves_accounts :
    (SetGenesis demoFailEnv demoDB demoGenesis).2 = none ∧
    (executeAll demoFailEnv (SetGenesis demoFailEnv demoDB demoGenesis).1 demoBlocks).2 = none ∧
    (∀ b ∈ demoBlocks, PlainBlock b) ∧
    (GetAccountStateClone (executeAll demoFailEnv (SetGenesis demoFailEnv demoDB demoGenesis).1
        (demoBlocks.take 0)).1 (demoID 65)).2 = .ok (demoState 0 100) ∧
    (Rollback demoFailEnv 3
        (executeAll demoFailEnv (SetGenesis demoFailEnv demoDB demoGenesis).1 demoBlocks).1
        0).map (fun r => (r.2, (GetAccountStateClone r.1 (demoID 65)).2))
      = some (some (Err.external 8), .ok (demoState 1 70)) := by
  refine ⟨by decide, by decide, by decide, by decide, by decide⟩

/-- Claim C5, amended. Blocks B1..Bn that carry only payload-free `NORMAL`
transactions are executed in order by the executor (each block state built
by `executeTx` over a fresh `NewBlockState` on the state DB as the previous
block left it, then applied) on top of a genesis. Then for `k < n`, after a
`Rollback(k)` that returns without error `GetAccountStateClone(aid)` returns,
for every non-empty `aid`, what it returned right after `Bk` was applied. The
call does return: when the block hashes, the genesis hash included, are
pairwise distinct and the loop has `n - k + 1` iterations of fuel,
`Rollback(k)` returns, and an error it returns is the error of a trie revert
or of the final persistence. -/
theorem Rollback_restores_accounts (sdbInit : ChainStateDB C) (genesis : Genesis)
    (blocks : List Block) (k : Nat)
    (hg : (SetGenesis env sdbInit genesis).2 = none)
    (he : (executeAll env (SetGenesis env sdbInit genesis).1 blocks).2 = none)
    (hplain : ∀ b ∈ blocks, PlainBlock b)
    (hlen : blocks.length < 2 ^ 64) (hk : k < blocks.length) :
    (∀ (fuel : Nat) (sdb' : ChainStateDB C),
      Rollback env fuel (executeAll env (SetGenesis env sdbInit genesis).1 blocks).1 k
        = some (sdb', none) →
      ∀ aid, aid ≠ emptyAccountID →
        (GetAccountStateClone sdb' aid).2
          = (GetAccountStateClone
              (executeAll env (SetGenesis env sdbInit genesis).1 (blocks.take k)).1 aid).2) ∧
    ((ToBlockID genesis.BlockHash :: blocks.map (fun b => b.BlockID env)).Nodup →
      ∀ fuel : Nat, blocks.length - k + 1 ≤ fuel →
        ∃ (sdb' : ChainStateDB C) (e : Option Err),
          Rollback env fuel (executeAll env (SetGenesis env sdbInit genesis).1 blocks).1 k
            = some (sdb', e) ∧
          (∀ err, e = some err → ∃ c, err = Err.external c)) := by
  have hsplit : blocks.take k ++ blocks.drop k = blocks := List.take_append_drop k blocks
  have hlk : (blocks.take k).length = k := by rw [List.length_take]; omega
  have hld : (blocks.drop k).length = blocks.length - k := List.length_drop k blocks
  have := rollback_accounts_of_split env sdbInit genesis (blocks.take k) (blocks.drop k)
    hg (by rw [hsplit]; exact he) (by rw [hsplit]; exact hplain)
    (by rw [hsplit]; exact hlen) (by rw [hld]; omega)
  rw [hsplit, hlk, hld] at this
  exact this

/-- Witness of claim C5 as amended: the two example blocks, rolled back to
block 1, after which A reads as it did after block 1: nonce 1, balance 70. -/
theorem Rollback_restores_accounts_witness :
    (executeAll demoEnv (SetGenesis demoEnv demoDB demoGenesis).1 demoBlocks).2 = none ∧
    (GetAccountStateClone (executeAll demoEnv (SetGenesis demoEnv demoDB demoGenesis).1
        (demoBlocks.take 1)).1 (demoID 65)).2 = .ok (demoState 1 70) ∧
    (GetAccountStateClone (executeAll demoEnv (SetGenesis demoEnv demoDB demoGenesis).1
        demoBlocks).1 (demoID 65)).2 = .ok (demoState 2 0) ∧
    ∃ sdb', Rollback demoEnv 2
          (executeAll demoEnv (SetGenesis demoEnv demoDB demoGenesis).1 demoBlocks).1 1
        = some (sdb', none) ∧
      ∀ aid, aid ≠ emptyAccountID →
        (GetAccountStateClone sdb' aid).2
          = (GetAccountStateClone
              (executeAll demoEnv (SetGenesis demoEnv demoDB demoGenesis).1
                (demoBlocks.take 1)).1 aid).2 :=
  ⟨by decide, by decide, by decide,
   ((Rollback demoEnv 2
      (executeAll demoEnv (SetGenesis demoEnv demoDB demoGenesis).1 demoBlocks).1 1).getD
      (demoDB, none)).1,
   by decide,
   (Rollback_restores_accounts demoEnv demoDB demoGenesis demoBlocks 1
     (by decide) (by decide) (by decide) (by decide) (by decide)).1 2 _ (by decide)⟩

end ExecutorLemmas

/-! ## Undo completeness and failing transactions -/

section UndoKeys

variable {C CS : Type} (env : Env C CS)

theorem PutAccount_same_keys (bs : BlockState) (aid : AccountID) (b c : StatePtr)
    (h : ∀ x, GoMap.get? bs.Undo.Accounts x = none ↔ GoMap.get? bs.accounts x = none) :
    ∀ x, GoMap.get? (bs.PutAccount aid b c).Undo.Accounts x = none ↔
      GoMap.get? (bs.PutAccount aid b c).accounts x = none := by
  intro x
  rw [PutAccount_undo_get, PutAccount_accounts_get]
  by_cases hx : x = aid
  · simp only [if_pos hx]
    cases hu : GoMap.get? bs.Undo.Accounts x <;> simp
  · simp only [if_neg hx]
    rw [← h x]
    cases hu : GoMap.get? bs.Undo.Accounts x <;> simp

theorem putAccounts_same_keys (calls : List PutCall) :
    ∀ (bs : BlockState),
      (∀ x, GoMap.get? bs.Undo.Accounts x = none ↔ GoMap.get? bs.accounts x = none) →
      ∀ x, GoMap.get? (putAccounts bs calls).Undo.Accounts x = none ↔
        GoMap.get? (putAccounts bs calls).accounts x = none := by
  induction calls with
  | nil => intro bs h; exact h
  | cons c rest ih =>
    intro bs h
    have hstep : putAccounts bs (c :: rest)
        = putAccounts (bs.PutAccount c.aid c.stateBefore c.stateChanged) rest := rfl
    rw [hstep]
    exact ih _ (PutAccount_same_keys bs _ _ _ h)

/-- Whatever the transaction, `executeTx` changes the block state only by
`PutAccount` calls: none on an early return, else one for the sender and,
when the receiver differs, one for the receiver. -/
theorem executeTx_puts (sdb : ChainStateDB C) (bs : BlockState) (tx : Tx) (blockNo : Nat)
    (ts : Int) : ∃ calls, (executeTx env sdb bs tx blockNo ts).2.1 = putAccounts bs calls := by
  unfold executeTx
  simp only
  split
  · exact ⟨[], rfl⟩
  · split
    · exact ⟨[], rfl⟩
    · split
      · exact ⟨[], rfl⟩
      · rename_i ss _ _ _ rs _ _ sc rc _ _
        simp only
        split
        · exact ⟨[⟨_, some ss, some _⟩, ⟨_, some rs, some rc⟩], rfl⟩
        · exact ⟨[⟨_, some ss, some _⟩], rfl⟩

theorem putAccounts_append (bs : BlockState) (c1 c2 : List PutCall) :
    putAccounts (putAccounts bs c1) c2 = putAccounts bs (c1 ++ c2) := by
  unfold putAccounts
  rw [List.foldl_append]

theorem executeTxs_puts (blockNo : Nat) (ts : Int) (txs : List Tx) :
    ∀ (sdb : ChainStateDB C) (bs : BlockState),
      ∃ calls, (executeTxs env blockNo ts sdb bs txs).2.1 = putAccounts bs calls := by
  induction txs with
  | nil => intro sdb bs; exact ⟨[], rfl⟩
  | cons tx rest ih =>
    intro sdb bs
    have hdef : executeTxs env blockNo ts sdb bs (tx :: rest)
        = match executeTx env sdb bs tx blockNo ts with
          | (sdb1, bs1, some e) => (sdb1, bs1, some e)
          | (sdb1, bs1, none) => executeTxs env blockNo ts sdb1 bs1 rest := rfl
    rw [hdef]
    obtain ⟨c1, h1⟩ := executeTx_puts env sdb bs tx blockNo ts
    cases hx : executeTx env sdb bs tx blockNo ts with
    | mk sdb1 r =>
      obtain ⟨bs1, e⟩ := r
      rw [hx] at h1
      simp only at h1
      cases e with
      | some e => exact ⟨c1, h1⟩
      | none =>
        simp only
        obtain ⟨c2, h2⟩ := ih sdb1 bs1
        exact ⟨c1 ++ c2, by rw [h2, h1, putAccounts_append]⟩

/-- Claim C11. In every block state reached from `NewBlockState` by a
sequence of `PutAccount` calls the keys of `Undo.Accounts` are the keys of
`accounts`; so it is in every block state the executor builds by running
`executeTx`, whatever the transactions, over a fresh `NewBlockState`. -/
theorem undo_keys_eq_account_keys (info : BlockInfo) :
    (∀ (calls : List PutCall) (aid : AccountID),
      aid ∈ GoMap.keys (putAccounts (NewBlockState info) calls).Undo.Accounts ↔
        aid ∈ GoMap.keys (putAccounts (NewBlockState info) calls).accounts) ∧
    (∀ (sdb : ChainStateDB C) (txs : List Tx) (blockNo : Nat) (ts : Int) (aid : AccountID),
      aid ∈ GoMap.keys (executeTxs env blockNo ts sdb (NewBlockState info) txs).2.1.Undo.Accounts ↔
        aid ∈ GoMap.keys (executeTxs env blockNo ts sdb (NewBlockState info) txs).2.1.accounts) := by
  have hnew : ∀ x, GoMap.get? (NewBlockState info).Undo.Accounts x = none ↔
      GoMap.get? (NewBlockState info).accounts x = none := fun _ => Iff.rfl
  have hcalls : ∀ (calls : List PutCall) (aid : AccountID),
      aid ∈ GoMap.keys (putAccounts (NewBlockState info) calls).Undo.Accounts ↔
        aid ∈ GoMap.keys (putAccounts (NewBlockState info) calls).accounts := by
    intro calls aid
    have h := putAccounts_same_keys calls (NewBlockState info) hnew aid
    rw [GoMap.get?_eq_none_iff, GoMap.get?_eq_none_iff] at h
    exact not_iff_not.1 h
  refine ⟨hcalls, ?_⟩
  intro sdb txs blockNo ts aid
  obtain ⟨calls, hc⟩ := executeTxs_puts env blockNo ts txs sdb (NewBlockState info)
  rw [hc]
  exact hcalls calls aid

end UndoKeys

section FailingTx

variable {C CS : Type} (env : Env C CS)

theorem getAccountState_store (sdb : ChainStateDB C) (aid : AccountID) :
    (getAccountState sdb aid).1.trie = sdb.trie ∧
    (getAccountState sdb aid).1.latest = sdb.latest ∧
    (getAccountState sdb aid).1.statedb = sdb.statedb :=
  ⟨(getAccountState_fields sdb aid).1, (getAccountState_fields sdb aid).2.1,
    (getAccountState_fields sdb aid).2.2.1⟩

/-- Whatever the transaction and its outcome, `executeTx` leaves the trie,
`latest` and the stored block states of the state DB as they are. -/
theorem executeTx_store (sdb : ChainStateDB C) (bs : BlockState) (tx : Tx) (blockNo : Nat)
    (ts : Int) :
    (executeTx env sdb bs tx blockNo ts).1.trie = sdb.trie ∧
    (executeTx env sdb bs tx blockNo ts).1.latest = sdb.latest ∧
    (executeTx env sdb bs tx blockNo ts).1.statedb = sdb.statedb := by
  obtain ⟨f1, f2, f3, -⟩ :=
    GetBlockAccountClone_fields sdb bs (ToAccountID env.TrieHasher tx.Body.Account)
  obtain ⟨g1, g2, g3, -⟩ :=
    GetBlockAccountClone_fields
      (GetBlockAccountClone sdb bs (ToAccountID env.TrieHasher tx.Body.Account)).1 bs
      (ToAccountID env.TrieHasher (txRecipient env tx.Body))
  unfold executeTx
  simp only
  split
  · rename_i h1
    rw [h1] at f1 f2 f3
    exact ⟨f1, f2, f3⟩
  · rename_i h1
    rw [h1] at f1 f2 f3 g1 g2 g3
    simp only at f1 f2 f3 g1 g2 g3
    split
    · rename_i h2
      rw [h2] at g1 g2 g3
      exact ⟨g1.trans f1, g2.trans f2, g3.trans f3⟩
    · rename_i h2
      rw [h2] at g1 g2 g3
      split <;> exact ⟨g1.trans f1, g2.trans f2, g3.trans f3⟩

theorem executeTxs_cons (blockNo : Nat) (ts : Int) (sdb : ChainStateDB C) (bs : BlockState)
    (tx : Tx) (rest : List Tx) :
    executeTxs env blockNo ts sdb bs (tx :: rest)
      = if (executeTx env sdb bs tx blockNo ts).2.2 = none then
          executeTxs env blockNo ts (executeTx env sdb bs tx blockNo ts).1
            (executeTx env sdb bs tx blockNo ts).2.1 rest
        else executeTx env sdb bs tx blockNo ts := by
  have hdef : executeTxs env blockNo ts sdb bs (tx :: rest)
      = match executeTx env sdb bs tx blockNo ts with
        | (sdb1, bs1, some e) => (sdb1, bs1, some e)
        | (sdb1, bs1, none) => executeTxs env blockNo ts sdb1 bs1 rest := rfl
  rw [hdef]
  cases hx : executeTx env sdb bs tx blockNo ts with
  | mk sdb1 r =>
    obtain ⟨bs1, e⟩ := r
    cases e <;> simp

theorem executeTxs_store (blockNo : Nat) (ts : Int) (txs : List Tx) :
    ∀ (sdb : ChainStateDB C) (bs : BlockState),
      (executeTxs env blockNo ts sdb bs txs).1.trie = sdb.trie ∧
      (executeTxs env blockNo ts sdb bs txs).1.latest = sdb.latest ∧
      (executeTxs env blockNo ts sdb bs txs).1.statedb = sdb.statedb := by
  induction txs with
  | nil => intro sdb bs; exact ⟨rfl, rfl, rfl⟩
  | cons tx rest ih =>
    intro sdb bs
    obtain ⟨e1, e2, e3⟩ := executeTx_store env sdb bs tx blockNo ts
    rw [executeTxs_cons]
    split
    · obtain ⟨i1, i2, i3⟩ := ih (executeTx env sdb bs tx blockNo ts).1
        (executeTx env sdb bs tx blockNo ts).2.1
      exact ⟨i1.trans e1, i2.trans e2, i3.trans e3⟩
    · exact ⟨e1, e2, e3⟩

/-- The loop over the transactions stops at the first one that fails: what
follows it has no influence on the result. -/
theorem executeTxs_stops (blockNo : Nat) (ts : Int) (pre : List Tx) (tx : Tx) (post : List Tx) :
    ∀ (sdb : ChainStateDB C) (bs : BlockState) (e : Err),
      (executeTxs env blockNo ts sdb bs pre).2.2 = none →
      (executeTx env (executeTxs env blockNo ts sdb bs pre).1
        (executeTxs env blockNo ts sdb bs pre).2.1 tx blockNo ts).2.2 = some e →
      executeTxs env blockNo ts sdb bs (pre ++ tx :: post)
        = executeTx env (executeTxs env blockNo ts sdb bs pre).1
            (executeTxs env blockNo ts sdb bs pre).2.1 tx blockNo ts := by
  induction pre with
  | nil =>
    intro sdb bs e _ herr
    have h0 : executeTxs env blockNo ts sdb bs [] = (sdb, bs, none) := rfl
    rw [h0] at herr ⊢
    simp only at herr ⊢
    rw [List.nil_append, executeTxs_cons, if_neg (by rw [herr]; simp)]
  | cons a rest ih =>
    intro sdb bs e hpre herr
    rw [executeTxs_cons] at hpre herr ⊢
    rw [List.cons_append, executeTxs_cons]
    by_cases ha : (executeTx env sdb bs a blockNo ts).2.2 = none
    · rw [if_pos ha] at hpre herr ⊢
      rw [if_pos ha]
      exact ih _ _ e hpre herr
    · rw [if_neg ha] at hpre
      exact absurd hpre ha

/-- Claim C13. When the executor runs the transactions of a block (no block
state from a block producer) and one of them fails, `execute` returns the
error of that transaction; the transactions after it are not executed, the
result being the same as for the block cut after the failing transaction; and
`Apply` is not reached: `latest`, the trie (so its root) and the stored block
states are what they were before the block. -/
theorem execute_stops_at_failing_tx (sdb : ChainStateDB C) (block : Block)
    (pre : List Tx) (tx : Tx) (post : List Tx) (e : Err)
    (hsplit : block.Txs = pre ++ tx :: post)
    (hpre : (executeTxs env block.Header.BlockNo block.Header.Timestamp sdb
      (NewBlockState (blockInfoOf env block)) pre).2.2 = none)
    (herr : (executeTx env
      (executeTxs env block.Header.BlockNo block.Header.Timestamp sdb
        (NewBlockState (blockInfoOf env block)) pre).1
      (executeTxs env block.Header.BlockNo block.Header.Timestamp sdb
        (NewBlockState (blockInfoOf env block)) pre).2.1
      tx block.Header.BlockNo block.Header.Timestamp).2.2 = some e) :
    (execute env sdb none block).2 = some e ∧
    execute env sdb none block = execute env sdb none { block with Txs := pre ++ [tx] } ∧
    (execute env sdb none block).1.latest = sdb.latest ∧
    (execute env sdb none block).1.trie = sdb.trie ∧
    (execute env sdb none block).1.statedb = sdb.statedb := by
  have hrun : ∀ post', executeTxs env block.Header.BlockNo block.Header.Timestamp sdb
      (NewBlockState (blockInfoOf env block)) (pre ++ tx :: post')
      = executeTx env
          (executeTxs env block.Header.BlockNo block.Header.Timestamp sdb
            (NewBlockState (blockInfoOf env block)) pre).1
          (executeTxs env block.Header.BlockNo block.Header.Timestamp sdb
            (NewBlockState (blockInfoOf env block)) pre).2.1
          tx block.Header.BlockNo block.Header.Timestamp :=
    fun post' => executeTxs_stops env _ _ pre tx post' sdb _ e hpre herr
  have hex : ∀ post', execute env sdb none { block with Txs := pre ++ tx :: post' }
      = ((executeTx env
          (executeTxs env block.Header.BlockNo block.Header.Timestamp sdb
            (NewBlockState (blockInfoOf env block)) pre).1
          (executeTxs env block.Header.BlockNo block.Header.Timestamp sdb
            (NewBlockState (blockInfoOf env block)) pre).2.1
          tx block.Header.BlockNo block.Header.Timestamp).1, some e) := by
    intro post'
    have hr := hrun post'
    unfold execute
    simp only
    have hb : NewBlockState (NewBlockInfo block.Header.BlockNo
        (Block.BlockID env { block with Txs := pre ++ tx :: post' })
        (Block.PrevBlockID { block with Txs := pre ++ tx :: post' }))
        = NewBlockState (blockInfoOf env block) := rfl
    rw [hb, hr]
    cases hx : executeTx env
          (executeTxs env block.Header.BlockNo block.Header.Timestamp sdb
            (NewBlockState (blockInfoOf env block)) pre).1
          (executeTxs env block.Header.BlockNo block.Header.Timestamp sdb
            (NewBlockState (blockInfoOf env block)) pre).2.1
          tx block.Header.BlockNo block.Header.Timestamp with
    | mk sdb1 r =>
      obtain ⟨bs1, e1⟩ := r
      rw [hx] at herr
      simp only at herr
      subst herr
      rfl
  have hblock : block = { block with Txs := pre ++ tx :: post } := by
    cases block
    simp only at hsplit
    subst hsplit
    rfl
  have h1 := hex post
  rw [← hblock] at h1
  have h2 := hex []
  obtain ⟨s1, s2, s3⟩ := executeTxs_store env block.Header.BlockNo block.Header.Timestamp pre sdb
    (NewBlockState (blockInfoOf env block))
  obtain ⟨t1, t2, t3⟩ := executeTx_store env
    (executeTxs env block.Header.BlockNo block.Header.Timestamp sdb
      (NewBlockState (blockInfoOf env block)) pre).1
    (executeTxs env block.Header.BlockNo block.Header.Timestamp sdb
      (NewBlockState (blockInfoOf env block)) pre).2.1
    tx block.Header.BlockNo block.Header.Timestamp
  rw [h1]
  refine ⟨rfl, h2.symm, t2.trans s2, t1.trans s1, t3.trans s3⟩

/-- Witness of claim C13: the example block whose second transaction has the
empty `AccountID` as its sender. -/
theorem execute_stops_at_failing_tx_witness :
    (execute demoEnv (demoAccountsDB 0 100 0) none demoBadBlock).2 = some .invalidAccountID ∧
    execute demoEnv (demoAccountsDB 0 100 0) none demoBadBlock
      = execute demoEnv (demoAccountsDB 0 100 0) none
          { demoBadBlock with Txs := [demoTx (demoID 66) 30 1] ++ [demoBadTx] } ∧
    (execute demoEnv (demoAccountsDB 0 100 0) none demoBadBlock).1.latest
      = (demoAccountsDB 0 100 0).latest ∧
    (execute demoEnv (demoAccountsDB 0 100 0) none demoBadBlock).1.trie
      = (demoAccountsDB 0 100 0).trie ∧
    (execute demoEnv (demoAccountsDB 0 100 0) none demoBadBlock).1.statedb
      = (demoAccountsDB 0 100 0).statedb :=
  execute_stops_at_failing_tx demoEnv (demoAccountsDB 0 100 0) demoBadBlock
    [demoTx (demoID 66) 30 1] demoBadTx [demoTx (demoID 66) 5 2] .invalidAccountID
    rfl (by decide) (by decide)

end FailingTx

/-! ## Lemmas on anchors -/

section AnchorLemmas

variable {C : Type}

theorem hashAt_ok (cs : ChainService C) (L : Nat)
    (hall : ∀ n, n ≤ L → ∃ h, cs.getHashByNo n = .ok h) (n : Nat) (hn : n ≤ L) :
    cs.getHashByNo n = .ok (hashAt cs n) := by
  obtain ⟨h, hh⟩ := hall n hn
  unfold hashAt
  rw [hh]

theorem latestNos_snd_le (n : Nat) :
    ∀ (l l' : Nat), (latestNos n l).2 = some l' → l' ≤ l := by
  induction n with
  | zero =>
    intro l l' h
    simp only [latestNos, Option.some.injEq] at h
    omega
  | succ n ih =>
    intro l l' h
    unfold latestNos at h
    split at h
    · cases h
    · have := ih (l - 1) l' h
      omega

theorem anchorsLatest_eq (cs : ChainService C) (L : Nat)
    (hall : ∀ n, n ≤ L → ∃ h, cs.getHashByNo n = .ok h) (n : Nat) :
    ∀ (a : ChainAnchor) (l : Nat), l ≤ L →
      anchorsLatest cs n a l
        = match (latestNos n l).2 with
          | none => .returned (some (a ++ (latestNos n l).1.map (hashAt cs)))
          | some l' => .next (a ++ (latestNos n l).1.map (hashAt cs)) l' := by
  induction n with
  | zero => intro a l _; simp [anchorsLatest, latestNos]
  | succ n ih =>
    intro a l hl
    unfold anchorsLatest latestNos
    rw [hashAt_ok cs L hall l hl]
    simp only
    by_cases h0 : l = 0
    · simp [h0]
    · simp only [if_neg h0]
      rw [ih (a ++ [hashAt cs l]) (l - 1) (by omega)]
      cases (latestNos n (l - 1)).2 <;> simp

theorem expNos_le (n : Nat) :
    ∀ (l dec x : Nat), x ∈ expNos n l dec → x ≤ l := by
  induction n with
  | zero => intro l dec x h; simp [expNos] at h
  | succ n ih =>
    intro l dec x h
    unfold expNos at h
    simp only [List.mem_cons] at h
    rcases h with h | h
    · omega
    · split at h
      · split at h
        · simp at h
        · have := ih 0 dec x h; omega
      · have := ih (l - dec) _ x h; omega

theorem anchorsExponential_eq (cs : ChainService C) (L : Nat)
    (hall : ∀ n, n ≤ L → ∃ h, cs.getHashByNo n = .ok h) (n : Nat) :
    ∀ (a : ChainAnchor) (l dec : Nat), l ≤ L →
      anchorsExponential cs n a l dec = some (a ++ (expNos n l dec).map (hashAt cs)) := by
  induction n with
  | zero => intro a l dec _; simp [anchorsExponential, expNos]
  | succ n ih =>
    intro a l dec hl
    unfold anchorsExponential expNos
    rw [hashAt_ok cs L hall l hl]
    simp only
    by_cases h1 : l ≤ dec
    · simp only [if_pos h1]
      by_cases h0 : l = 0
      · simp [h0]
      · simp only [if_neg h0]
        rw [ih _ 0 dec (by omega)]
        simp
    · simp only [if_neg h1]
      rw [ih _ (l - dec) _ (by omega)]
      simp

/-- With every lookup of the main index up to `latest` succeeding,
`getAnchorsFromHash` returns the seed followed by the main-chain hashes of
the block numbers `anchorNos latest`. -/
theorem getAnchorsFromHash_eq (cs : ChainService C) (seed : List Nat)
    (hall : ∀ n, n ≤ cs.cdb.latest → ∃ h, cs.getHashByNo n = .ok h) :
    getAnchorsFromHash cs seed = some (seed :: (anchorNos cs.cdb.latest).map (hashAt cs)) := by
  unfold getAnchorsFromHash anchorNos
  have hb : cs.getBestBlockNo = cs.cdb.latest := rfl
  rw [hb, anchorsLatest_eq cs cs.cdb.latest hall 10 [seed] cs.cdb.latest (Nat.le_refl _)]
  cases h2 : (latestNos 10 cs.cdb.latest).2 with
  | none => simp
  | some l' =>
    simp only
    rw [anchorsExponential_eq cs cs.cdb.latest hall 10 _ l' 1
      (latestNos_snd_le 10 _ _ h2)]
    simp

theorem latestNos_closed (n : Nat) :
    ∀ (l : Nat),
      (latestNos n l).1 = (List.range (min n (l + 1))).map (fun i => l - i) ∧
      (latestNos n l).2 = if l < n then none else some (l - n) := by
  induction n with
  | zero => intro l; simp [latestNos]
  | succ n ih =>
    intro l
    unfold latestNos
    by_cases h0 : l = 0
    · subst h0
      simp
    · simp only [if_neg h0]
      obtain ⟨i1, i2⟩ := ih (l - 1)
      rw [i1, i2]
      constructor
      · have hm : min (n + 1) (l + 1) = min n (l - 1 + 1) + 1 := by omega
        rw [hm, List.range_succ_eq_map, List.map_cons, List.map_map]
        simp only [Nat.sub_zero, List.cons.injEq, true_and]
        apply List.map_congr_left
        intro i _
        simp only [Function.comp]
        omega
      · by_cases hl : l < n + 1
        · have : l - 1 < n := by omega
          simp [hl, this]
        · have : ¬ l - 1 < n := by omega
          simp only [hl, this, if_false, Option.some.injEq]
          omega

theorem expNos_far (l : Nat) (h : 512 ≤ l) :
    expNos 10 l 1
      = [l, l - 1, l - 3, l - 7, l - 15, l - 31, l - 63, l - 127, l - 255, l - 511] := by
  have d1 : (1 * 2) % u64 = 2 := by decide
  have d2 : (2 * 2) % u64 = 4 := by decide
  have d3 : (4 * 2) % u64 = 8 := by decide
  have d4 : (8 * 2) % u64 = 16 := by decide
  have d5 : (16 * 2) % u64 = 32 := by decide
  have d6 : (32 * 2) % u64 = 64 := by decide
  have d7 : (64 * 2) % u64 = 128 := by decide
  have d8 : (128 * 2) % u64 = 256 := by decide
  have d9 : (256 * 2) % u64 = 512 := by decide
  have s1 : l - 1 - 2 = l - 3 := by omega
  have s2 : l - 3 - 4 = l - 7 := by omega
  have s3 : l - 7 - 8 = l - 15 := by omega
  have s4 : l - 15 - 16 = l - 31 := by omega
  have s5 : l - 31 - 32 = l - 63 := by omega
  have s6 : l - 63 - 64 = l - 127 := by omega
  have s7 : l - 127 - 128 = l - 255 := by omega
  have s8 : l - 255 - 256 = l - 511 := by omega
  rw [expNos, if_neg (by omega), d1, expNos, if_neg (by omega), d2, s1, expNos,
    if_neg (by omega), d3, s2, expNos, if_neg (by omega), d4, s3, expNos, if_neg (by omega),
    d5, s4, expNos, if_neg (by omega), d6, s5, expNos, if_neg (by omega), d7, s6, expNos,
    if_neg (by omega), d8, s7, expNos, if_neg (by omega), d9, s8, expNos]
  have hlast : (if l - 511 ≤ 512 then if l - 511 = 0 then [] else expNos 0 0 512
      else expNos 0 (l - 511 - 512) ((512 * 2) % u64)) = ([] : List Nat) := by
    split
    · split <;> rfl
    · rfl
  rw [hlast]

end AnchorLemmas

section AnchorClaims

variable {C : Type}

theorem lookupPairs_of_mem {K V : Type} [DecidableEq K] (l : List (K × V))
    (hnd : (l.map Prod.fst).Nodup) (k : K) (v : V) (hm : (k, v) ∈ l) :
    lookupPairs l k = some v := by
  induction l with
  | nil => simp at hm
  | cons p t ih =>
    obtain ⟨a, b⟩ := p
    simp only [List.map_cons, List.nodup_cons] at hnd
    simp only [List.mem_cons, Prod.mk.injEq] at hm
    unfold lookupPairs
    rcases hm with ⟨h1, h2⟩ | hm
    · simp [h1, h2]
    · have hne : ¬ a = k := by
        intro h
        apply hnd.1
        rw [h]
        exact List.mem_map.2 ⟨(k, v), hm, rfl⟩
      rw [if_neg hne]
      exact ih hnd.2 hm

theorem mem_of_lookupPairs {K V : Type} [DecidableEq K] (l : List (K × V)) (k : K) (v : V)
    (h : lookupPairs l k = some v) : (k, v) ∈ l := by
  induction l with
  | nil => simp [lookupPairs] at h
  | cons p t ih =>
    obtain ⟨a, b⟩ := p
    unfold lookupPairs at h
    split at h
    · rename_i hak
      simp only [Option.some.injEq] at h
      simp [hak, h]
    · exact List.mem_cons_of_mem _ (ih h)

theorem demoChain_getHashByNo (latest n : Nat) (hn : n ≤ latest) :
    (demoChain latest).getHashByNo n = .ok (ToHashID [n]) := by
  have h := lookupPairs_of_mem _ (demoChainDB latest).blockNos.nodup n (ToHashID [n])
    (List.mem_map.2 ⟨n, List.mem_range.2 (by omega), rfl⟩)
  unfold ChainService.getHashByNo ChainDB.getHashByNo GoMap.get?
  show (match lookupPairs (demoChainDB latest).blockNos.entries n with
    | some h => Except.ok h
    | none => Except.error Err.notFound) = _
  rw [h]

theorem demoChain_hall (latest : Nat) :
    ∀ n, n ≤ (demoChain latest).cdb.latest → ∃ h, (demoChain latest).getHashByNo n = .ok h :=
  fun n hn => ⟨_, demoChain_getHashByNo latest n hn⟩

theorem demoChain_getBlock (latest : Nat) (h : List Nat) (b : Block)
    (hb : (demoChain latest).getBlock h = .ok b) :
    ∃ n, n ≤ latest ∧ h = ToHashID [n] ∧ b = demoBlockAt n := by
  unfold ChainService.getBlock ChainDB.getBlock GoMap.get? at hb
  split at hb
  · rename_i b' hl
    cases hb
    have hm := mem_of_lookupPairs _ _ _ hl
    obtain ⟨n, hn, he⟩ := List.mem_map.1 hm
    simp only [Prod.mk.injEq] at he
    exact ⟨n, by have := List.mem_range.1 hn; omega, he.1.symm, he.2.symm⟩
  · cases hb

theorem anchorNos_take (latest i : Nat) (hi : i < min 10 (latest + 1)) :
    (anchorNos latest)[i]? = some (latest - i) := by
  obtain ⟨c1, -⟩ := latestNos_closed 10 latest
  have hbase : ((latestNos 10 latest).1)[i]? = some (latest - i) := by
    rw [c1, List.getElem?_map, List.getElem?_range hi]
    rfl
  have hlen : i < (latestNos 10 latest).1.length := by
    rw [c1, List.length_map, List.length_range]; exact hi
  unfold anchorNos
  cases (latestNos 10 latest).2 with
  | none => exact hbase
  | some l' =>
    simp only
    rw [List.getElem?_append_left hlen]
    exact hbase

theorem anchorNos_short (latest : Nat) (h : latest ≤ 9) :
    (anchorNos latest).length = latest + 1 := by
  obtain ⟨c1, c2⟩ := latestNos_closed 10 latest
  unfold anchorNos
  rw [c2, if_pos (by omega)]
  simp only
  rw [c1, List.length_map, List.length_range]
  omega

/-- Claim C16. With every lookup of the main index succeeding,
`getAnchorsFromHash` returns a list whose entry 0 is the seed hash and whose
entry `1 + i` is the main-chain hash of block `latest - i` for every
`i < min(10, latest + 1)`; when `latest <= 9` the list has exactly
`latest + 2` entries and ends with the hash of block 0. -/
theorem getAnchorsFromHash_latest_ten (cs : ChainService C) (seed : List Nat)
    (hall : ∀ n, n ≤ cs.cdb.latest → ∃ h, cs.getHashByNo n = .ok h) :
    ∃ r, getAnchorsFromHash cs seed = some r ∧
      r[0]? = some seed ∧
      (∀ i, i < min 10 (cs.cdb.latest + 1) →
        ∃ h, r[1 + i]? = some h ∧ cs.getHashByNo (cs.cdb.latest - i) = .ok h) ∧
      (cs.cdb.latest ≤ 9 →
        r.length = cs.cdb.latest + 2 ∧
        ∃ h0, cs.getHashByNo 0 = .ok h0 ∧ r.getLast? = some h0) := by
  refine ⟨_, getAnchorsFromHash_eq cs seed hall, by simp, ?_, ?_⟩
  · intro i hi
    refine ⟨hashAt cs (cs.cdb.latest - i), ?_, hashAt_ok cs _ hall _ (by omega)⟩
    rw [Nat.add_comm, List.getElem?_cons_succ, List.getElem?_map, anchorNos_take _ _ hi]
    rfl
  · intro h9
    have hlen := anchorNos_short _ h9
    refine ⟨by simp [hlen], hashAt cs 0, hashAt_ok cs _ hall 0 (by omega), ?_⟩
    rw [List.getLast?_eq_getElem?]
    simp only [List.length_cons, List.length_map, hlen, Nat.add_sub_cancel]
    rw [List.getElem?_cons_succ, List.getElem?_map,
      anchorNos_take _ cs.cdb.latest (by omega)]
    simp

/-- Witness of claim C16: the example chain with best block number 3. -/
theorem getAnchorsFromHash_latest_ten_witness :
    getAnchorsFromHash (demoChain 3) [7]
      = some [[7], demoID 3, demoID 2, demoID 1, demoID 0] ∧
    ∃ r, getAnchorsFromHash (demoChain 3) [7] = some r ∧
      r[0]? = some [7] ∧
      (∀ i, i < min 10 ((demoChain 3).cdb.latest + 1) →
        ∃ h, r[1 + i]? = some h ∧
          (demoChain 3).getHashByNo ((demoChain 3).cdb.latest - i) = .ok h) ∧
      ((demoChain 3).cdb.latest ≤ 9 →
        r.length = (demoChain 3).cdb.latest + 2 ∧
        ∃ h0, (demoChain 3).getHashByNo 0 = .ok h0 ∧ r.getLast? = some h0) :=
  ⟨by rfl, getAnchorsFromHash_latest_ten (demoChain 3) [7] (demoChain_hall 3)⟩

theorem anchorNos_far (latest : Nat) (h : 522 ≤ latest) :
    anchorNos latest
      = (List.range 10).map (fun i => latest - i)
        ++ [latest - 10, latest - 10 - 1, latest - 10 - 3, latest - 10 - 7, latest - 10 - 15,
            latest - 10 - 31, latest - 10 - 63, latest - 10 - 127, latest - 10 - 255,
            latest - 10 - 511] := by
  obtain ⟨c1, c2⟩ := latestNos_closed 10 latest
  unfold anchorNos
  rw [c2, if_neg (by omega)]
  simp only
  rw [c1, expNos_far (latest - 10) (by omega)]
  have hm : min 10 (latest + 1) = 10 := by omega
  rw [hm]

/-- Claim C17. For a chain with `latest >= 522` in which every lookup of the
main index succeeds, `getAnchorsFromHash` returns exactly 21 hashes, and the
entry `11 + k`, for `k` from 0 to 9, is the main-chain hash of block
`latest - 10 - (2^k - 1)`: the gaps between consecutive exponential anchors
are 1, 2, 4, ..., 256. -/
theorem getAnchorsFromHash_exponential (cs : ChainService C) (seed : List Nat)
    (hall : ∀ n, n ≤ cs.cdb.latest → ∃ h, cs.getHashByNo n = .ok h)
    (hfar : 522 ≤ cs.cdb.latest) :
    ∃ r, getAnchorsFromHash cs seed = some r ∧
      r.length = 21 ∧
      ∀ k, k < 10 →
        ∃ h, r[11 + k]? = some h ∧
          cs.getHashByNo (cs.cdb.latest - 10 - (2 ^ k - 1)) = .ok h := by
  refine ⟨_, getAnchorsFromHash_eq cs seed hall, ?_, ?_⟩
  · rw [anchorNos_far _ hfar]
    simp
  · intro k hk
    refine ⟨hashAt cs (cs.cdb.latest - 10 - (2 ^ k - 1)), ?_,
      hashAt_ok cs _ hall _ (Nat.le_trans (Nat.sub_le _ _) (Nat.sub_le _ _))⟩
    rw [anchorNos_far _ hfar]
    have h11 : 11 + k = (10 + k) + 1 := by omega
    rw [h11, List.getElem?_cons_succ, List.getElem?_map,
      List.getElem?_append_right (by simp)]
    simp only [List.length_map, List.length_range, Nat.add_sub_cancel_left]
    interval_cases k <;> simp

/-- Witness of claim C17: the example chain with best block number 522. -/
theorem getAnchorsFromHash_exponential_witness :
    522 ≤ (demoChain 522).cdb.latest ∧
    ∃ r, getAnchorsFromHash (demoChain 522) [7] = some r ∧
      r.length = 21 ∧
      ∀ k, k < 10 →
        ∃ h, r[11 + k]? = some h ∧
          (demoChain 522).getHashByNo ((demoChain 522).cdb.latest - 10 - (2 ^ k - 1)) = .ok h :=
  ⟨Nat.le_refl _,
   getAnchorsFromHash_exponential (demoChain 522) [7] (demoChain_hall 522) (Nat.le_refl _)⟩

end AnchorClaims

section AnchorMonotone

variable {C : Type}

theorem latestNos_props (n : Nat) :
    ∀ (l : Nat),
      (latestNos n l).1.Pairwise (fun a b => b ≤ a) ∧
      (∀ x ∈ (latestNos n l).1, x ≤ l) ∧
      (∀ l', (latestNos n l).2 = some l' → ∀ x ∈ (latestNos n l).1, l' ≤ x) := by
  induction n with
  | zero => intro l; simp [latestNos]
  | succ n ih =>
    intro l
    unfold latestNos
    by_cases h0 : l = 0
    · simp [h0]
    · simp only [if_neg h0]
      obtain ⟨i1, i2, i3⟩ := ih (l - 1)
      refine ⟨?_, ?_, ?_⟩
      · rw [List.pairwise_cons]
        exact ⟨fun x hx => by have := i2 x hx; omega, i1⟩
      · intro x hx
        simp only [List.mem_cons] at hx
        rcases hx with hx | hx
        · omega
        · have := i2 x hx; omega
      · intro l' hl' x hx
        simp only [List.mem_cons] at hx
        rcases hx with hx | hx
        · have := latestNos_snd_le n (l - 1) l' hl'; omega
        · exact i3 l' hl' x hx

theorem expNos_pairwise (n : Nat) :
    ∀ (l dec : Nat), (expNos n l dec).Pairwise (fun a b => b ≤ a) := by
  induction n with
  | zero => intro l dec; simp [expNos]
  | succ n ih =>
    intro l dec
    unfold expNos
    rw [List.pairwise_cons]
    constructor
    · intro x hx
      split at hx
      · split at hx
        · simp at hx
        · have := expNos_le n 0 dec x hx; omega
      · have := expNos_le n (l - dec) _ x hx; omega
    · split
      · split
        · exact List.Pairwise.nil
        · exact ih 0 dec
      · exact ih _ _

/-- The block numbers `getAnchorsFromHash` reads never increase, and none of
them is above `latest`. -/
theorem anchorNos_props (latest : Nat) :
    (anchorNos latest).Pairwise (fun a b => b ≤ a) ∧ ∀ x ∈ anchorNos latest, x ≤ latest := by
  obtain ⟨p1, p2, p3⟩ := latestNos_props 10 latest
  unfold anchorNos
  cases h2 : (latestNos 10 latest).2 with
  | none => exact ⟨p1, p2⟩
  | some l' =>
    simp only
    have hl' := latestNos_snd_le 10 latest l' h2
    constructor
    · rw [List.pairwise_append]
      refine ⟨p1, expNos_pairwise 10 l' 1, ?_⟩
      intro a ha b hb
      have h1 := p3 l' h2 a ha
      have h3 := expNos_le 10 l' 1 b hb
      omega
    · intro x hx
      rw [List.mem_append] at hx
      rcases hx with hx | hx
      · exact p2 x hx
      · have := expNos_le 10 l' 1 x hx; omega

/-- Claim C18. For a chain in which every lookup of the main index succeeds
and a hash of the main index that identifies a stored block identifies one of
that block number (the invariant of the main index), and for a seed hash that
identifies no stored block: the block numbers of the hashes
`getAnchorsFromHash` returns, taken in list order for the hashes that
identify a block, never increase. -/
theorem getAnchorsFromHash_nonincreasing (cs : ChainService C) (seed : List Nat)
    (hall : ∀ n, n ≤ cs.cdb.latest → ∃ h, cs.getHashByNo n = .ok h)
    (hinv : ∀ n h b, n ≤ cs.cdb.latest → cs.getHashByNo n = .ok h → cs.getBlock h = .ok b →
      b.Header.BlockNo = n)
    (hseed : blockNoOfHash cs seed = none) :
    ∃ r, getAnchorsFromHash cs seed = some r ∧
      (r.filterMap (blockNoOfHash cs)).Pairwise (fun a b => b ≤ a) := by
  refine ⟨_, getAnchorsFromHash_eq cs seed hall, ?_⟩
  obtain ⟨q1, q2⟩ := anchorNos_props cs.cdb.latest
  rw [List.filterMap_cons_none hseed, List.filterMap_map]
  have hnum : ∀ n, n ≤ cs.cdb.latest → ∀ m, blockNoOfHash cs (hashAt cs n) = some m → m = n := by
    intro n hn m hm
    unfold blockNoOfHash at hm
    split at hm
    · rename_i b hb
      simp only [Option.some.injEq] at hm
      rw [← hm]
      exact hinv n _ b hn (hashAt_ok cs _ hall n hn) hb
    · cases hm
  apply List.Pairwise.filterMap _ _ (List.Pairwise.and_mem.1 q1)
  intro a a' haa b hb b' hb'
  obtain ⟨ha, ha', hle⟩ := haa
  have e1 := hnum a (q2 a ha) b hb
  have e2 := hnum a' (q2 a' ha') b' hb'
  rw [e1, e2]
  exact hle

theorem demoChain_hinv (latest : Nat) :
    ∀ n h b, n ≤ (demoChain latest).cdb.latest → (demoChain latest).getHashByNo n = .ok h →
      (demoChain latest).getBlock h = .ok b → b.Header.BlockNo = n := by
  intro n h b hn hh hb
  rw [demoChain_getHashByNo latest n hn] at hh
  cases hh
  obtain ⟨m, -, hm, rfl⟩ := demoChain_getBlock latest _ b hb
  have := demoID_injective hm
  simp only at this
  rw [← this]
  rfl

theorem demoChain_unknown (latest : Nat) (h : List Nat) (hlen : h.length ≠ 32) :
    blockNoOfHash (demoChain latest) h = none := by
  unfold blockNoOfHash
  split
  · rename_i b hb
    obtain ⟨m, -, hm, -⟩ := demoChain_getBlock latest _ b hb
    exact absurd (by rw [hm, ToHashID_length]) hlen
  · rfl

/-- Witness of claim C18: the example chain with best block number 13 and a
seed that is no block hash; the block numbers read are 13 down to 4, then 3,
2 and 0. -/
theorem getAnchorsFromHash_nonincreasing_witness :
    anchorNos 13 = [13, 12, 11, 10, 9, 8, 7, 6, 5, 4, 3, 2, 0] ∧
    ∃ r, getAnchorsFromHash (demoChain 13) [7] = some r ∧
      (r.filterMap (blockNoOfHash (demoChain 13))).Pairwise (fun a b => b ≤ a) :=
  ⟨by decide,
   getAnchorsFromHash_nonincreasing (demoChain 13) [7] (demoChain_hall 13) (demoChain_hinv 13)
     (demoChain_unknown 13 [7] (by decide))⟩

end AnchorMonotone

/-! ## Lemmas on missing-range resolution -/

section MissingLemmas

variable {C : Type}

theorem findAncestor_cons (cs : ChainService C) (hash : List Nat) (rest : List (List Nat))
    (mb : Option Block) :
    findAncestor cs mb (hash :: rest)
      = match cs.cdb.getBlock hash with
        | .error _ => findAncestor cs none rest
        | .ok mainblock =>
          match cs.cdb.getHashByNo mainblock.Header.BlockNo with
          | .error _ => findAncestor cs (some mainblock) rest
          | .ok mainhash =>
            if mainhash = mainblock.Hash then some mainblock
            else findAncestor cs none rest := by
  rw [findAncestor]

theorem findAncestor_skip (cs : ChainService C) (x : List Nat) (rest : List (List Nat))
    (mb : Option Block) (hx : mainChainBlock cs x = none) :
    ∃ mb', findAncestor cs mb (x :: rest) = findAncestor cs mb' rest := by
  unfold mainChainBlock at hx
  rw [findAncestor_cons]
  split
  · exact ⟨none, rfl⟩
  · rename_i b hb
    rw [hb] at hx
    simp only at hx
    split
    · exact ⟨some b, rfl⟩
    · rename_i mh hmh
      rw [hmh] at hx
      simp only at hx
      split
      · rename_i heq
        rw [if_pos heq] at hx
        cases hx
      · exact ⟨none, rfl⟩

theorem findAncestor_hit (cs : ChainService C) (h : List Nat) (rest : List (List Nat))
    (mb : Option Block) (b : Block) (hh : mainChainBlock cs h = some b) :
    findAncestor cs mb (h :: rest) = some b := by
  unfold mainChainBlock at hh
  rw [findAncestor_cons]
  split
  · rename_i e he
    rw [he] at hh
    cases hh
  · rename_i b' hb
    rw [hb] at hh
    simp only at hh
    split
    · rename_i e he
      rw [he] at hh
      cases hh
    · rename_i mh hmh
      rw [hmh] at hh
      simp only at hh
      split
      · rename_i heq
        rw [if_pos heq] at hh
        exact hh
      · rename_i hne
        rw [if_neg hne] at hh
        cases hh

theorem findAncestor_first (cs : ChainService C) (h : List Nat) (post : List (List Nat))
    (b : Block) (hh : mainChainBlock cs h = some b) :
    ∀ (pre : List (List Nat)) (mb : Option Block),
      (∀ x ∈ pre, mainChainBlock cs x = none) →
      findAncestor cs mb (pre ++ h :: post) = some b := by
  intro pre
  induction pre with
  | nil => intro mb _; exact findAncestor_hit cs h post mb b hh
  | cons x rest ih =>
    intro mb hpre
    obtain ⟨mb', hs⟩ := findAncestor_skip cs x (rest ++ h :: post) mb
      (hpre x (List.mem_cons_self _ _))
    rw [List.cons_append, hs]
    exact ih mb' (fun y hy => hpre y (List.mem_cons_of_mem _ hy))

theorem first_main_candidate (cs : ChainService C) (Hashes : List (List Nat))
    (hex : ∃ x ∈ Hashes, (mainChainBlock cs x).isSome = true) :
    ∃ pre h post b, Hashes = pre ++ h :: post ∧
      (∀ x ∈ pre, mainChainBlock cs x = none) ∧ mainChainBlock cs h = some b := by
  induction Hashes with
  | nil => obtain ⟨x, hx, -⟩ := hex; simp at hx
  | cons y rest ih =>
    cases hy : mainChainBlock cs y with
    | some b => exact ⟨[], y, rest, b, rfl, by simp, hy⟩
    | none =>
      obtain ⟨x, hx, hsome⟩ := hex
      simp only [List.mem_cons] at hx
      rcases hx with hx | hx
      · rw [hx, hy] at hsome; cases hsome
      · obtain ⟨pre, h, post, b, e1, e2, e3⟩ := ih ⟨x, hx, hsome⟩
        refine ⟨y :: pre, h, post, b, by rw [e1]; rfl, ?_, e3⟩
        intro z hz
        simp only [List.mem_cons] at hz
        rcases hz with hz | hz
        · rw [hz]; exact hy
        · exact e2 z hz

/-- Claim C20. When the candidate list contains a hash of a main-chain block
(a stored block whose block number the main index maps back to its hash), the
ancestor `handleMissing` uses is the block of the first such candidate in the
order received: the candidates before it, unknown or not on the main chain,
are skipped, and the candidates after it, whatever their height, play no
part, the result being that for this candidate alone. -/
theorem handleMissing_first_main_candidate (cs : ChainService C)
    (stopHash : Option (List Nat)) (Hashes : List (List Nat))
    (hex : ∃ x ∈ Hashes, (mainChainBlock cs x).isSome = true) :
    ∃ pre h post b, Hashes = pre ++ h :: post ∧
      (∀ x ∈ pre, mainChainBlock cs x = none) ∧ mainChainBlock cs h = some b ∧
      findAncestor cs none Hashes = some b ∧
      handleMissing cs stopHash Hashes = handleMissing cs stopHash [h] := by
  obtain ⟨pre, h, post, b, e1, e2, e3⟩ := first_main_candidate cs Hashes hex
  have f1 : findAncestor cs none Hashes = some b := by
    rw [e1]; exact findAncestor_first cs h post b e3 pre none e2
  have f2 : findAncestor cs none [h] = some b := findAncestor_hit cs h [] none b e3
  refine ⟨pre, h, post, b, e1, e2, e3, f1, ?_⟩
  unfold handleMissing
  simp only [f1, f2]

/-- Witness of claim C20: on the example chain of best block number 5 the
candidates are an unknown hash, then block 2, then block 4; the ancestor is
block 2 and the missing range starts there. -/
theorem handleMissing_first_main_candidate_witness :
    findAncestor (demoChain 5) none [[9], demoID 2, demoID 4] = some (demoBlockAt 2) ∧
    handleMissing (demoChain 5) none [[9], demoID 2, demoID 4]
      = .ok (some ([demoID 2, demoID 3, demoID 4], [2, 3, 4])) ∧
    ∃ pre h post b, [[9], demoID 2, demoID 4] = pre ++ h :: post ∧
      (∀ x ∈ pre, mainChainBlock (demoChain 5) x = none) ∧
      mainChainBlock (demoChain 5) h = some b ∧
      findAncestor (demoChain 5) none [[9], demoID 2, demoID 4] = some b ∧
      handleMissing (demoChain 5) none [[9], demoID 2, demoID 4]
        = handleMissing (demoChain 5) none [h] :=
  ⟨by rfl, by rfl,
   handleMissing_first_main_candidate (demoChain 5) none [[9], demoID 2, demoID 4]
     ⟨demoID 2, by simp, by rfl⟩⟩

end MissingLemmas

section MissingRange

variable {C : Type}

theorem collectMissing_eq (cs : ChainService C) (m : Nat) (n : Nat) :
    ∀ (i : Nat) (rhashes : List (List Nat)) (rnos : List Nat),
      m + i + n ≤ u64 →
      (∀ j, i ≤ j → j < i + n →
        ∃ b, cs.getBlockByNo (m + j) = .ok b ∧ cs.getHashByNo (m + j) = .ok b.Hash ∧
          b.Header.BlockNo = m + j) →
      collectMissing cs m n i rhashes rnos
        = .ok (rhashes ++ (List.range' i n).map (fun j => hashAt cs (m + j)),
               rnos ++ (List.range' i n).map (fun j => m + j)) := by
  induction n with
  | zero => intro i rhashes rnos _ _; simp [collectMissing]
  | succ n ih =>
    intro i rhashes rnos hb hgood
    obtain ⟨b, g1, g2, g3⟩ := hgood i (Nat.le_refl _) (by omega)
    have hmod : (m + i) % u64 = m + i := Nat.mod_eq_of_lt (by omega)
    have hh : hashAt cs (m + i) = b.Hash := by
      unfold hashAt; rw [g2]
    rw [collectMissing, hmod, g1]
    simp only
    rw [ih (i + 1) _ _ (by omega) (fun j h1 h2 => hgood j (by omega) (by omega))]
    simp only [List.range'_succ, List.map_cons, hh, g3, List.append_assoc, List.singleton_append]

/-- Claim C19. When `handleMissing` resolves the stop block, finds an
ancestor `a` among the candidates with `a.block_no <= stop.block_no`, and the
main chain is indexed up to the height of the stop block, each number
resolving to a stored block of that number and of the indexed hash, it
returns two lists of length `N = stop.block_no - a.block_no` whose `i`-th
entries are the main-chain hash of block `a.block_no + i` and the number
`a.block_no + i`: consecutive numbers that start at the ancestor itself and
stay below `stop.block_no`. -/
theorem handleMissing_range (cs : ChainService C) (stopHash : Option (List Nat))
    (Hashes : List (List Nat)) (stopBlock a : Block)
    (hstop : (match stopHash with
      | none => cs.getBestBlock
      | some h => cs.cdb.getBlock h) = .ok stopBlock)
    (hanc : findAncestor cs none Hashes = some a)
    (hge : a.Header.BlockNo ≤ stopBlock.Header.BlockNo)
    (hlt : stopBlock.Header.BlockNo < 2 ^ 64)
    (hmain : ∀ n, n ≤ stopBlock.Header.BlockNo →
      ∃ b, cs.getBlockByNo n = .ok b ∧ cs.getHashByNo n = .ok b.Hash ∧ b.Header.BlockNo = n) :
    ∃ rhashes rnos, handleMissing cs stopHash Hashes = .ok (some (rhashes, rnos)) ∧
      rhashes.length = stopBlock.Header.BlockNo - a.Header.BlockNo ∧
      rnos.length = stopBlock.Header.BlockNo - a.Header.BlockNo ∧
      ∀ i, i < stopBlock.Header.BlockNo - a.Header.BlockNo →
        (∃ h, rhashes[i]? = some h ∧ cs.getHashByNo (a.Header.BlockNo + i) = .ok h) ∧
        rnos[i]? = some (a.Header.BlockNo + i) ∧
        a.Header.BlockNo + i < stopBlock.Header.BlockNo := by
  have hloop : (stopBlock.Header.BlockNo + u64 - a.Header.BlockNo) % u64
      = stopBlock.Header.BlockNo - a.Header.BlockNo := by
    have h1 : stopBlock.Header.BlockNo + u64 - a.Header.BlockNo
        = (stopBlock.Header.BlockNo - a.Header.BlockNo) + u64 := by omega
    rw [h1, Nat.add_mod_right]
    exact Nat.mod_eq_of_lt (by unfold u64; omega)
  have hcol := collectMissing_eq cs a.Header.BlockNo
    (stopBlock.Header.BlockNo - a.Header.BlockNo) 0 [] []
    (by unfold u64; omega)
    (fun j _ hj => hmain (a.Header.BlockNo + j) (by omega))
  simp only [List.nil_append] at hcol
  refine ⟨(List.range' 0 (stopBlock.Header.BlockNo - a.Header.BlockNo)).map
      (fun j => hashAt cs (a.Header.BlockNo + j)),
    (List.range' 0 (stopBlock.Header.BlockNo - a.Header.BlockNo)).map
      (fun j => a.Header.BlockNo + j), ?_, ?_, ?_, ?_⟩
  · unfold handleMissing
    simp only [hstop, hanc, hloop, hcol]
  · simp
  · simp
  · intro i hi
    have hall : ∀ n, n ≤ stopBlock.Header.BlockNo → ∃ h, cs.getHashByNo n = .ok h :=
      fun n hn => by
        obtain ⟨b, -, g2, -⟩ := hmain n hn
        exact ⟨_, g2⟩
    refine ⟨⟨hashAt cs (a.Header.BlockNo + i), ?_, hashAt_ok cs _ hall _ (by omega)⟩, ?_,
      by omega⟩
    · simp only [List.getElem?_map]
      rw [List.getElem?_range' _ _ hi]
      simp
    · simp only [List.getElem?_map]
      rw [List.getElem?_range' _ _ hi]
      simp

theorem demoChain_getBlock_self (latest n : Nat) (hn : n ≤ latest) :
    (demoChain latest).cdb.getBlock (ToHashID [n]) = .ok (demoBlockAt n) := by
  have h := lookupPairs_of_mem _ (demoChainDB latest).blocks.nodup (ToHashID [n]) (demoBlockAt n)
    (List.mem_map.2 ⟨n, List.mem_range.2 (by omega), rfl⟩)
  unfold ChainDB.getBlock GoMap.get?
  show (match lookupPairs (demoChainDB latest).blocks.entries (ToHashID [n]) with
    | some b => Except.ok b
    | none => Except.error Err.notFound) = _
  rw [h]

theorem demoChain_main (latest : Nat) :
    ∀ n, n ≤ latest →
      ∃ b, (demoChain latest).getBlockByNo n = .ok b ∧
        (demoChain latest).getHashByNo n = .ok b.Hash ∧ b.Header.BlockNo = n := by
  intro n hn
  refine ⟨demoBlockAt n, ?_, demoChain_getHashByNo latest n hn, rfl⟩
  have h1 := demoChain_getHashByNo latest n hn
  unfold ChainService.getHashByNo at h1
  unfold ChainService.getBlockByNo ChainDB.getBlockByNo
  rw [h1]
  exact demoChain_getBlock_self latest n hn

/-- Witness of claim C19: on the example chain of best block number 5, stop
at block 5 and ancestor block 2 give the hashes and numbers of blocks 2, 3
and 4. -/
theorem handleMissing_range_witness :
    handleMissing (demoChain 5) (some (demoID 5)) [demoID 2]
      = .ok (some ([demoID 2, demoID 3, demoID 4], [2, 3, 4])) ∧
    ∃ rhashes rnos, handleMissing (demoChain 5) (some (demoID 5)) [demoID 2]
        = .ok (some (rhashes, rnos)) ∧
      rhashes.length = (demoBlockAt 5).Header.BlockNo - (demoBlockAt 2).Header.BlockNo ∧
      rnos.length = (demoBlockAt 5).Header.BlockNo - (demoBlockAt 2).Header.BlockNo ∧
      ∀ i, i < (demoBlockAt 5).Header.BlockNo - (demoBlockAt 2).Header.BlockNo →
        (∃ h, rhashes[i]? = some h ∧
          (demoChain 5).getHashByNo ((demoBlockAt 2).Header.BlockNo + i) = .ok h) ∧
        rnos[i]? = some ((demoBlockAt 2).Header.BlockNo + i) ∧
        (demoBlockAt 2).Header.BlockNo + i < (demoBlockAt 5).Header.BlockNo :=
  ⟨by rfl,
   handleMissing_range (demoChain 5) (some (demoID 5)) [demoID 2] (demoBlockAt 5) (demoBlockAt 2)
     (by rfl) (by rfl) (by decide) (by decide) (demoChain_main 5)⟩

end MissingRange

/-! ## Lemmas on block ingestion -/

section AddBlockLemmas

variable {C CS : Type} (env : ChainEnv C CS)

/-- Claim C12. For a block that passes the consensus header check and whose
parent is not in the block store, `addBlock` called with a block state (a
block produced locally) returns the error that such a block can not be an
orphan, and the chain service is what it was: nothing is added to the orphan
pool, nothing is written to the block store, `latest` is unchanged, and no
request for missing blocks is sent. -/
theorem addBlock_orphan_from_producer (fuel : Nat) (cs : ChainService C) (nblock : Block)
    (usedBstate : BlockState) (peerID : String) (bestBlock : Block)
    (hbest : cs.getBestBlock = .ok bestBlock)
    (hvalid : env.IsBlockValid nblock bestBlock = none)
    (horphan : cs.isOrphan nblock = true) :
    cs.addBlock env fuel nblock (some usedBstate) peerID = some (cs, some .orphanFromBP) := by
  unfold ChainService.addBlock
  simp only [hbest, hvalid, horphan, if_true, Option.isSome_some]

/-- Witness of claim C12: on the example chain of best block number 3, a
block whose parent hash is unknown, handed in with a block state. -/
theorem addBlock_orphan_from_producer_witness :
    (demoChain 3).isOrphan { demoBlock2 with Header := { demoBlock2.Header with BlockNo := 9 } }
      = true ∧
    (demoChain 3).addBlock (demoChainEnv false) 1
        { demoBlock2 with Header := { demoBlock2.Header with BlockNo := 9 } } (some demoBS2) "p"
      = some (demoChain 3, some .orphanFromBP) :=
  ⟨by rfl,
   addBlock_orphan_from_producer (demoChainEnv false) 1 (demoChain 3)
     { demoBlock2 with Header := { demoBlock2.Header with BlockNo := 9 } } demoBS2 "p"
     (demoBlockAt 3) (by rfl) rfl (by rfl)⟩

/-- The defect behind claim C14, evaluated: on the example chain of best
block number 3, block 4 arrives from the network and the block verifier
rejects it. `addBlock` returns the verifier's error and `latest` is still 3,
but the only effect recorded is the opening of the store transaction: it is
neither committed nor discarded. -/
theorem addBlock_failure_leaves_tx_open :
    (demoChain 3).addBlock (demoChainEnv true) 1 (demoBlockAt 4) none "p"
      = some ({ demoChain 3 with trace := [.newTx] }, some (.external 1)) ∧
    (demoChain 3).cdb.latest = 3 ∧
    Event.txDiscard ∉ [Event.newTx] ∧ Event.txCommit ∉ [Event.newTx] :=
  ⟨by rfl, rfl, by decide, by decide⟩

theorem erasePairs_length_le {K V : Type} [DecidableEq K] (l : List (K × V)) (k : K) :
    (erasePairs l k).length ≤ l.length := by
  induction l with
  | nil => simp [erasePairs]
  | cons p t ih =>
    obtain ⟨a, b⟩ := p
    unfold erasePairs
    split
    · simp only [List.length_cons]; omega
    · simp only [List.length_cons]; omega

theorem erasePairs_length_lt {K V : Type} [DecidableEq K] (l : List (K × V)) (k : K) (v : V)
    (h : lookupPairs l k = some v) : (erasePairs l k).length < l.length := by
  induction l with
  | nil => simp [lookupPairs] at h
  | cons p t ih =>
    obtain ⟨a, b⟩ := p
    unfold lookupPairs at h
    unfold erasePairs
    split
    · have := erasePairs_length_le t k
      simp only [List.length_cons]; omega
    · rename_i hne
      rw [if_neg hne] at h
      have := ih h
      simp only [List.length_cons]; omega

theorem executeBlock_effect (cs : ChainService C) (bstate : Option BlockState) (block : Block) :
    (cs.executeBlock env bstate block).1.op = cs.op ∧
    (cs.executeBlock env bstate block).1.cdb = cs.cdb ∧
    (cs.executeBlock env bstate block).1.trace
      = (if (cs.executeBlock env bstate block).2 = none then cs.trace ++ [.executeBlock block]
         else cs.trace) := by
  unfold ChainService.executeBlock
  split
  · exact ⟨rfl, rfl, by simp⟩
  · exact ⟨rfl, rfl, by simp⟩

theorem connectOrphan_effect (cs : ChainService C) (block : Block) :
    (cs.connectOrphan env block).1.trace = cs.trace ∧
    (cs.connectOrphan env block).1.cdb = cs.cdb ∧
    (cs.connectOrphan env block).1.op.cache.len ≤ cs.op.cache.len ∧
    ∀ next, (cs.connectOrphan env block).2 = .ok (some next) →
      (cs.connectOrphan env block).1.op.cache.len < cs.op.cache.len := by
  unfold ChainService.connectOrphan
  simp only
  split
  · exact ⟨rfl, rfl, Nat.le_refl _, fun next h => by cases h⟩
  · rename_i ob hob
    split
    · exact ⟨rfl, rfl, Nat.le_refl _, fun next h => by cases h⟩
    · refine ⟨rfl, rfl, ?_, fun next _ => ?_⟩
      · exact erasePairs_length_le _ _
      · exact erasePairs_length_lt _ _ ob hob

end AddBlockLemmas

section AddBlockOrder

variable {C CS : Type} (env : ChainEnv C CS)

/-- Claim C15. The loop of `addBlock` on the main chain, given fuel for one
iteration more than there are parked orphans, returns, and what it adds to
the record of effects is, for each block it processes in full and in the
order it processes them, the sequence: store transaction opened, block
executed (state DB applied), block added to the store, store transaction
committed, mempool delete requested, `setLatest(blockNo)`, status update,
block notification; followed, when an iteration fails at verification,
execution or the store add, by the effects of that iteration so far, among
which there is no `setLatest`. -/
theorem addBlockLoop_effect_order (nblock : Block) :
    ∀ (fuel : Nat) (cs : ChainService C) (tblock : Block) (usedBstate : Option BlockState),
      cs.op.cache.len < fuel →
      ∃ (cs1 : ChainService C) (r : Except Err Block) (processed : List Block)
          (rest : List Event),
        addBlockLoop env nblock true fuel cs tblock usedBstate = some (cs1, r) ∧
        cs1.trace = cs.trace ++ (processed.map (iterationEvents nblock)).flatten ++ rest ∧
        (∀ e ∈ rest, ∀ n, e ≠ Event.setLatest n) ∧
        (∀ last, r = .ok last → rest = [] ∧ processed.getLast? = some last) := by
  intro fuel
  induction fuel with
  | zero => intro cs tblock usedBstate h; exact absurd h (Nat.not_lt_zero _)
  | succ fuel ih =>
    intro cs tblock usedBstate hfuel
    unfold addBlockLoop
    simp only [if_true]
    split
    · -- the block verifier rejects the block
      refine ⟨_, _, [], [.newTx], rfl, by simp, ?_, ?_⟩
      · intro e he n; simp only [List.mem_singleton] at he; rw [he]; simp
      · intro last h; cases h
    · obtain ⟨x1, x2, x3⟩ := executeBlock_effect env
        ({ cs with trace := cs.trace ++ [.newTx] } : ChainService C) usedBstate tblock
      split
      · -- the execution fails
        rename_i cs2 e hex
        rw [hex] at x3
        simp only [reduceCtorEq, if_false] at x3
        refine ⟨_, _, [], [.newTx], rfl, by simp [x3], ?_, ?_⟩
        · intro e he n; simp only [List.mem_singleton] at he; rw [he]; simp
        · intro last h; cases h
      · rename_i cs2 hex
        rw [hex] at x1 x2 x3
        simp only [if_true] at x1 x2 x3
        split
        · -- the store add fails
          refine ⟨_, _, [], [.newTx, .executeBlock tblock], rfl, by simp [x3], ?_, ?_⟩
          · intro e he n
            simp only [List.mem_cons, List.mem_singleton, List.not_mem_nil, or_false] at he
            rcases he with he | he <;> rw [he] <;> simp
          · intro last h; cases h
        · obtain ⟨o1, o2, o3, o4⟩ := connectOrphan_effect env
            ({ cs2 with
                cdb := (cs2.cdb.commit (ChainDB.addBlockWrites
                  (tblock.BlockHash env.stateEnv.calculateBlockHash) tblock true)).setLatest
                    tblock.Header.BlockNo,
                trace := cs2.trace ++ [.storeAddBlock tblock, .txCommit]
                  ++ [.memPoolDel tblock.Header.BlockNo tblock.Txs,
                      .setLatest tblock.Header.BlockNo, .statusUpdate nblock,
                      .notifyBlock tblock] } : ChainService C) tblock
          have htr : cs2.trace ++ [.storeAddBlock tblock, .txCommit]
              ++ [.memPoolDel tblock.Header.BlockNo tblock.Txs,
                  .setLatest tblock.Header.BlockNo, .statusUpdate nblock, .notifyBlock tblock]
              = cs.trace ++ iterationEvents nblock tblock := by
            rw [x3]; simp [iterationEvents]
          replace o1 := o1.trans htr
          split
          · -- the parked child has a wrong block number
            rename_i cs5 e hco
            rw [hco] at o1
            refine ⟨_, _, [tblock], [], rfl, by simpa using o1, by simp, ?_⟩
            intro last h; cases h
          · -- no parked child: the loop ends
            rename_i cs5 hco
            rw [hco] at o1
            refine ⟨_, _, [tblock], [], rfl, by simpa using o1, by simp, ?_⟩
            intro last h
            simp only [Except.ok.injEq] at h
            rw [← h]
            exact ⟨rfl, rfl⟩
          · -- a parked child: the loop goes on with it
            rename_i cs5 next hco
            rw [hco] at o1 o4
            have hlen : cs5.op.cache.len < fuel := by
              have h4 := o4 next rfl
              simp only at h4
              rw [x1] at h4
              omega
            obtain ⟨cs6, r, processed, rest, h1, h2, h3, h4⟩ := ih cs5 next none hlen
            refine ⟨cs6, r, tblock :: processed, rest, h1, ?_, h3, ?_⟩
            · have o1b : cs5.trace = cs.trace ++ iterationEvents nblock tblock := o1
              rw [h2, o1b]
              simp
            · intro last hl
              obtain ⟨g1, g2⟩ := h4 last hl
              refine ⟨g1, ?_⟩
              cases processed with
              | nil => simp at g2
              | cons p ps => rw [List.getLast?_cons_cons]; exact g2

/-- Witness of claim C15: the first example block arrives while the second
is parked as an orphan; both are processed in full, one after the other. -/
theorem addBlockLoop_effect_order_witness :
    (addBlockLoop (demoChainEnv false) demoBlock1 true 2 demoIngest demoBlock1 none).map
        (fun r => (r.1.trace, r.2))
      = some (iterationEvents demoBlock1 demoBlock1 ++ iterationEvents demoBlock1 demoBlock2,
              .ok demoBlock2) ∧
    ∃ (cs1 : ChainService Unit) (r : Except Err Block) (processed : List Block)
        (rest : List Event),
      addBlockLoop (demoChainEnv false) demoBlock1 true 2 demoIngest demoBlock1 none
        = some (cs1, r) ∧
      cs1.trace = demoIngest.trace ++ (processed.map (iterationEvents demoBlock1)).flatten ++ rest ∧
      (∀ e ∈ rest, ∀ n, e ≠ Event.setLatest n) ∧
      (∀ last, r = .ok last → rest = [] ∧ processed.getLast? = some last) :=
  ⟨by rfl,
   addBlockLoop_effect_order (demoChainEnv false) demoBlock1 2 demoIngest demoBlock1 none
     (by decide)⟩

end AddBlockOrder


/-! ## The shape of the anchor list -/

section AnchorShape

variable {C : Type}

set_option maxRecDepth 1000000 in
theorem anchorNos_low : ∀ n, n < 522 →
    (anchorNos n).getLast? = some 0 ∧ (anchorNos n).length ≤ 20 := by
  decide

theorem anchorNos_tenth (latest : Nat) (h : 10 ≤ latest) :
    (anchorNos latest)[10]? = some (latest - 10) := by
  obtain ⟨c1, c2⟩ := latestNos_closed 10 latest
  have hlen : (latestNos 10 latest).1.length = 10 := by
    rw [c1, List.length_map, List.length_range]; omega
  unfold anchorNos
  rw [c2, if_neg (by omega)]
  simp only
  rw [List.getElem?_append_right (by omega), hlen]
  show (expNos (9 + 1) (latest - 10) 1)[0]? = some (latest - 10)
  rw [expNos, List.getElem?_cons_zero]

/-- The anchors of the example chain of best block number 12: entry 10 is
the hash of block 3 and entry 11 the hash of block 2, another hash; claim C27
has them equal. -/
theorem getAnchorsFromHash_no_repeat :
    (demoChain 12).cdb.latest = 12 ∧
    getAnchorsFromHash (demoChain 12) [7]
      = some [[7], demoID 12, demoID 11, demoID 10, demoID 9, demoID 8, demoID 7, demoID 6,
              demoID 5, demoID 4, demoID 3, demoID 2, demoID 1, demoID 0] ∧
    (demoChain 12).getHashByNo (12 - 9) = .ok (demoID 3) ∧
    ¬ (∃ r h, getAnchorsFromHash (demoChain 12) [7] = some r ∧
        r[10]? = some h ∧ r[11]? = some h) := by
  refine ⟨rfl, by rfl, by rfl, ?_⟩
  rintro ⟨r, h, h1, h2, h3⟩
  have e : getAnchorsFromHash (demoChain 12) [7]
      = some [[7], demoID 12, demoID 11, demoID 10, demoID 9, demoID 8, demoID 7, demoID 6,
              demoID 5, demoID 4, demoID 3, demoID 2, demoID 1, demoID 0] := by rfl
  rw [e] at h1
  simp only [Option.some.injEq] at h1
  subst h1
  simp only [List.getElem?_cons_succ, List.getElem?_cons_zero, Option.some.injEq] at h2 h3
  rw [← h2] at h3
  exact absurd h3 (by decide)

/-- Claim C27, amended. For a chain with `latest >= 10` in which every lookup
of the main index succeeds, entry 10 of the list `getAnchorsFromHash` returns
is the main-chain hash of block `latest - 9`, the last of the ten latest
hashes, and entry 11, the first exponential anchor, is the main-chain hash of
block `latest - 10`, the block below it: the first loop decrements after each
read, so the exponential loop starts one block lower and repeats nothing. -/
theorem getAnchorsFromHash_first_exponential (cs : ChainService C) (seed : List Nat)
    (hall : ∀ n, n ≤ cs.cdb.latest → ∃ h, cs.getHashByNo n = .ok h)
    (hten : 10 ≤ cs.cdb.latest) :
    ∃ r h10 h11, getAnchorsFromHash cs seed = some r ∧
      r[10]? = some h10 ∧ cs.getHashByNo (cs.cdb.latest - 9) = .ok h10 ∧
      r[11]? = some h11 ∧ cs.getHashByNo (cs.cdb.latest - 10) = .ok h11 := by
  refine ⟨_, hashAt cs (cs.cdb.latest - 9), hashAt cs (cs.cdb.latest - 10),
    getAnchorsFromHash_eq cs seed hall, ?_, hashAt_ok cs _ hall _ (Nat.sub_le _ _), ?_,
    hashAt_ok cs _ hall _ (Nat.sub_le _ _)⟩
  · rw [List.getElem?_cons_succ, List.getElem?_map, anchorNos_take _ 9 (by omega)]
    rfl
  · rw [List.getElem?_cons_succ, List.getElem?_map, anchorNos_tenth _ hten]
    rfl

/-- Witness of claim C27 as amended: the example chain of best block
number 12. -/
theorem getAnchorsFromHash_first_exponential_witness :
    10 ≤ (demoChain 12).cdb.latest ∧
    ∃ r h10 h11, getAnchorsFromHash (demoChain 12) [7] = some r ∧
      r[10]? = some h10 ∧ (demoChain 12).getHashByNo ((demoChain 12).cdb.latest - 9) = .ok h10 ∧
      r[11]? = some h11 ∧ (demoChain 12).getHashByNo ((demoChain 12).cdb.latest - 10) = .ok h11 :=
  ⟨by decide,
   getAnchorsFromHash_first_exponential (demoChain 12) [7] (demoChain_hall 12) (by decide)⟩

/-- Claim C29. For a chain in which every lookup of the main index succeeds,
`getAnchorsFromHash` returns at most 21 hashes: the seed, then the main-chain
hashes of the block numbers `anchorNos latest` in the order read, the last
anchor being the hash of the last number read; and the last block number
read is 0 if and only if `latest <= 521`. -/
theorem getAnchorsFromHash_length_and_genesis (cs : ChainService C) (seed : List Nat)
    (hall : ∀ n, n ≤ cs.cdb.latest → ∃ h, cs.getHashByNo n = .ok h) :
    ∃ r, getAnchorsFromHash cs seed = some r ∧
      r.length ≤ 21 ∧
      r.length = (anchorNos cs.cdb.latest).length + 1 ∧
      (∀ i n, (anchorNos cs.cdb.latest)[i]? = some n →
        ∃ h, r[i + 1]? = some h ∧ cs.getHashByNo n = .ok h) ∧
      (∃ n h, (anchorNos cs.cdb.latest).getLast? = some n ∧ r.getLast? = some h ∧
        cs.getHashByNo n = .ok h) ∧
      ((anchorNos cs.cdb.latest).getLast? = some 0 ↔ cs.cdb.latest ≤ 521) := by
  have hle : ∀ n ∈ anchorNos cs.cdb.latest, n ≤ cs.cdb.latest := (anchorNos_props _).2
  have hshape : (anchorNos cs.cdb.latest).length ≤ 20 ∧
      ((anchorNos cs.cdb.latest).getLast? = some 0 ↔ cs.cdb.latest ≤ 521) := by
    by_cases hlow : cs.cdb.latest < 522
    · obtain ⟨l1, l2⟩ := anchorNos_low _ hlow
      exact ⟨l2, ⟨fun _ => by omega, fun _ => l1⟩⟩
    · have hfar : 522 ≤ cs.cdb.latest := by omega
      rw [anchorNos_far _ hfar]
      refine ⟨by simp, ⟨fun h => ?_, fun h => by omega⟩⟩
      simp at h
      omega
  have hidx : ∀ i n, (anchorNos cs.cdb.latest)[i]? = some n →
      ∃ h, (seed :: (anchorNos cs.cdb.latest).map (hashAt cs))[i + 1]? = some h ∧
        cs.getHashByNo n = .ok h := by
    intro i n hi
    refine ⟨hashAt cs n, ?_, hashAt_ok cs _ hall n (hle n (List.getElem?_mem hi))⟩
    rw [List.getElem?_cons_succ, List.getElem?_map, hi]
    rfl
  have hpos : 0 < (anchorNos cs.cdb.latest).length := by
    have h0 := anchorNos_take cs.cdb.latest 0 (by omega)
    exact (List.getElem?_eq_some.1 h0).1
  refine ⟨_, getAnchorsFromHash_eq cs seed hall, ?_, by simp, hidx, ?_, hshape.2⟩
  · simp only [List.length_cons, List.length_map]
    omega
  · have hlast : (anchorNos cs.cdb.latest).getLast?
        = (anchorNos cs.cdb.latest)[(anchorNos cs.cdb.latest).length - 1]? :=
      List.getLast?_eq_getElem? _
    obtain ⟨n, hn⟩ : ∃ n, (anchorNos cs.cdb.latest)[(anchorNos cs.cdb.latest).length - 1]?
        = some n := ⟨_, List.getElem?_eq_getElem (by omega)⟩
    obtain ⟨h, h1, h2⟩ := hidx _ n hn
    refine ⟨n, h, hlast.trans hn, ?_, h2⟩
    rw [List.getLast?_eq_getElem?]
    simp only [List.length_cons, List.length_map, Nat.add_sub_cancel]
    have e : (anchorNos cs.cdb.latest).length - 1 + 1 = (anchorNos cs.cdb.latest).length := by
      omega
    rw [e] at h1
    exact h1

/-- Witness of claim C29: the example chains of best block numbers 521 and
522; the last numbers read are 0 and 1. -/
theorem getAnchorsFromHash_length_and_genesis_witness :
    (anchorNos 521).getLast? = some 0 ∧ (anchorNos 522).getLast? = some 1 ∧
    ∃ r, getAnchorsFromHash (demoChain 521) [7] = some r ∧
      r.length ≤ 21 ∧
      r.length = (anchorNos (demoChain 521).cdb.latest).length + 1 ∧
      (∀ i n, (anchorNos (demoChain 521).cdb.latest)[i]? = some n →
        ∃ h, r[i + 1]? = some h ∧ (demoChain 521).getHashByNo n = .ok h) ∧
      (∃ n h, (anchorNos (demoChain 521).cdb.latest).getLast? = some n ∧
        r.getLast? = some h ∧ (demoChain 521).getHashByNo n = .ok h) ∧
      ((anchorNos (demoChain 521).cdb.latest).getLast? = some 0 ↔
        (demoChain 521).cdb.latest ≤ 521) :=
  ⟨by decide, by decide,
   getAnchorsFromHash_length_and_genesis (demoChain 521) [7] (demoChain_hall 521)⟩

end AnchorShape

/-! ## Stop blocks and candidates off the main chain -/

/-- Candidates that are unknown, or stored with the main index holding
another hash at their height, are all skipped, and `handleMissing` returns
nil results whatever the stop block. -/
theorem handleMissing_skips {C : Type} (cs : ChainService C) (stopHash : Option (List Nat)) :
    ∀ (Hashes : List (List Nat)),
      (∀ h ∈ Hashes, (∃ e, cs.cdb.getBlock h = .error e) ∨
        (∃ b mh, cs.cdb.getBlock h = .ok b ∧ cs.cdb.getHashByNo b.Header.BlockNo = .ok mh ∧
          mh ≠ b.Hash)) →
      findAncestor cs none Hashes = none ∧ handleMissing cs stopHash Hashes = .ok none := by
  have hfind : ∀ (Hashes : List (List Nat)),
      (∀ h ∈ Hashes, (∃ e, cs.cdb.getBlock h = .error e) ∨
        (∃ b mh, cs.cdb.getBlock h = .ok b ∧ cs.cdb.getHashByNo b.Header.BlockNo = .ok mh ∧
          mh ≠ b.Hash)) →
      findAncestor cs none Hashes = none := by
    intro Hashes
    induction Hashes with
    | nil => intro _; rfl
    | cons h rest ih =>
      intro hall
      have hrest := ih (fun x hx => hall x (List.mem_cons_of_mem _ hx))
      rw [findAncestor_cons]
      rcases hall h (List.mem_cons_self _ _) with ⟨e, he⟩ | ⟨b, mh, hb, hmh, hne⟩
      · rw [he]; exact hrest
      · rw [hb]
        simp only
        rw [hmh]
        simp only
        rw [if_neg hne]
        exact hrest
  intro Hashes hall
  refine ⟨hfind Hashes hall, ?_⟩
  unfold handleMissing
  simp only [hfind Hashes hall]
  split <;> rfl

/-- The defect behind claim C21, evaluated: on the example chain of best
block number 5 the candidates are an unknown hash and then the hash of a
stored block of height 7, a height the main index has no entry for. No
candidate identifies a main-chain block, yet the scan keeps the stored block
as the ancestor. With the stored block of height 8 as the stop block one
block is to be collected, and reading the main-chain block of height 7 fails;
with the best block as the stop block the count `5 - 7` wraps to `2^64 - 2`
and the same read fails. -/
theorem handleMissing_unindexed_candidate :
    (∀ h ∈ [[9], demoID 207], mainChainBlock demoBranchChain h = none) ∧
    demoBranchChain.cdb.getBlock (demoID 207) = .ok demoStrayBlock ∧
    demoBranchChain.cdb.getHashByNo 7 = .error .notFound ∧
    findAncestor demoBranchChain none [[9], demoID 207] = some demoStrayBlock ∧
    demoBranchChain.cdb.getBlock (demoID 208) = .ok demoStrayChild ∧
    handleMissing demoBranchChain (some (demoID 208)) [[9], demoID 207]
      = .error .nilDereference ∧
    (5 + u64 - 7) % u64 = 18446744073709551614 ∧
    handleMissing demoBranchChain none [[9], demoID 207] = .error .nilDereference := by
  refine ⟨by decide, by rfl, by rfl, by rfl, by rfl, by rfl, by decide, by rfl⟩

/-- The defect behind claim C28, evaluated: on the example chain of best
block number 5 the stop hash is that of a stored branch block of height 3,
whose height the main index maps to another hash. `handleMissing` does not
return nil: with block 1 as the candidate it returns the main-chain hashes
and numbers of blocks 1 and 2. -/
theorem handleMissing_stop_off_main_chain :
    demoBranchChain.cdb.getBlock (demoID 203) = .ok demoBranchBlock ∧
    demoBranchChain.cdb.getHashByNo 3 = .ok (demoID 3) ∧
    mainChainBlock demoBranchChain (demoID 203) = none ∧
    handleMissing demoBranchChain (some (demoID 203)) [demoID 1]
      = .ok (some ([demoID 1, demoID 2], [1, 2])) := by
  refine ⟨by rfl, by rfl, by rfl, by rfl⟩


/-! ## The trie update is sorted and independent of the map order -/

section TrieUpdateOrder

variable {C CS : Type} (env : Env C CS)

theorem bytesCompare_nil_left (b : List Nat) : bytesCompare [] b ≤ 0 := by
  cases b with
  | nil => simp [bytesCompare]
  | cons y ys => simp [bytesCompare]

theorem bytesCompare_cons_nil (x : Nat) (xs : List Nat) : ¬ bytesCompare (x :: xs) [] ≤ 0 := by
  simp [bytesCompare]

theorem bytesCompare_cons_le (x y : Nat) (xs ys : List Nat) :
    bytesCompare (x :: xs) (y :: ys) ≤ 0 ↔ x < y ∨ (x = y ∧ bytesCompare xs ys ≤ 0) := by
  simp only [bytesCompare]
  by_cases h1 : x < y
  · simp [h1]
  · by_cases h2 : y < x
    · simp only [if_neg h1, if_pos h2]
      constructor
      · intro h; omega
      · rintro (h | ⟨h, -⟩) <;> omega
    · simp only [if_neg h1, if_neg h2]
      have : x = y := by omega
      simp [this]

theorem bytesCompare_total : ∀ (a b : List Nat), bytesCompare a b ≤ 0 ∨ bytesCompare b a ≤ 0
  | [], b => Or.inl (bytesCompare_nil_left b)
  | _ :: _, [] => Or.inr (bytesCompare_nil_left _)
  | x :: xs, y :: ys => by
    rw [bytesCompare_cons_le, bytesCompare_cons_le]
    rcases bytesCompare_total xs ys with h | h
    · rcases Nat.lt_trichotomy x y with h1 | h1 | h1
      · exact Or.inl (Or.inl h1)
      · exact Or.inl (Or.inr ⟨h1, h⟩)
      · exact Or.inr (Or.inl h1)
    · rcases Nat.lt_trichotomy x y with h1 | h1 | h1
      · exact Or.inl (Or.inl h1)
      · exact Or.inr (Or.inr ⟨h1.symm, h⟩)
      · exact Or.inr (Or.inl h1)

theorem bytesCompare_trans : ∀ (a b c : List Nat),
    bytesCompare a b ≤ 0 → bytesCompare b c ≤ 0 → bytesCompare a c ≤ 0
  | [], _, c, _, _ => bytesCompare_nil_left c
  | _ :: _, [], _, h, _ => absurd h (bytesCompare_cons_nil _ _)
  | _ :: _, _ :: _, [], _, h => absurd h (bytesCompare_cons_nil _ _)
  | x :: xs, y :: ys, z :: zs, h1, h2 => by
    rw [bytesCompare_cons_le] at h1 h2 ⊢
    rcases h1 with h1 | ⟨h1, h1'⟩
    · rcases h2 with h2 | ⟨h2, -⟩
      · exact Or.inl (Nat.lt_trans h1 h2)
      · exact Or.inl (h2 ▸ h1)
    · rcases h2 with h2 | ⟨h2, h2'⟩
      · exact Or.inl (h1 ▸ h2)
      · exact Or.inr ⟨h1.trans h2, bytesCompare_trans xs ys zs h1' h2'⟩

theorem bytesCompare_antisymm : ∀ (a b : List Nat),
    bytesCompare a b ≤ 0 → bytesCompare b a ≤ 0 → a = b
  | [], [], _, _ => rfl
  | [], _ :: _, _, h => absurd h (bytesCompare_cons_nil _ _)
  | _ :: _, [], h, _ => absurd h (bytesCompare_cons_nil _ _)
  | x :: xs, y :: ys, h1, h2 => by
    rw [bytesCompare_cons_le] at h1 h2
    rcases h1 with h1 | ⟨h1, h1'⟩
    · rcases h2 with h2 | ⟨h2, -⟩ <;> omega
    · rcases h2 with h2 | ⟨-, h2'⟩
      · omega
      · rw [h1, bytesCompare_antisymm xs ys h1' h2']

/-- `bytesCompare` is `-1` on two different lists the first of which is not
the greater. -/
theorem bytesCompare_lt : ∀ (a b : List Nat),
    bytesCompare a b ≤ 0 → a ≠ b → bytesCompare a b = -1
  | [], [], _, h => absurd rfl h
  | [], _ :: _, _, _ => by simp [bytesCompare]
  | _ :: _, [], h, _ => absurd h (bytesCompare_cons_nil _ _)
  | x :: xs, y :: ys, h1, hne => by
    have h1' := (bytesCompare_cons_le x y xs ys).1 h1
    rcases h1' with h | ⟨h, h'⟩
    · simp [bytesCompare, h]
    · subst h
      have hne' : xs ≠ ys := fun e => hne (by rw [e])
      simp only [bytesCompare, Nat.lt_irrefl, if_false]
      exact bytesCompare_lt xs ys h' hne'

theorem sortAccountIDs_perm (accs : List AccountID) : (sortAccountIDs accs).Perm accs :=
  List.perm_insertionSort _ accs

theorem sortAccountIDs_sorted (accs : List AccountID) :
    (sortAccountIDs accs).Pairwise (fun a b => bytesCompare a b ≤ 0) := by
  haveI : IsTotal (List Nat) (fun a b => bytesCompare a b ≤ 0) := ⟨bytesCompare_total⟩
  haveI : IsTrans (List Nat) (fun a b => bytesCompare a b ≤ 0) := ⟨bytesCompare_trans⟩
  exact List.sorted_insertionSort (fun a b : List Nat => bytesCompare a b ≤ 0) accs

theorem sortAccountIDs_strict (accs : List AccountID) (hnd : accs.Nodup) :
    (sortAccountIDs accs).Pairwise (fun a b => bytesCompare a b = -1) := by
  have hs := sortAccountIDs_sorted accs
  have hn : (sortAccountIDs accs).Nodup := (sortAccountIDs_perm accs).nodup_iff.2 hnd
  have hboth := hs.and hn
  exact hboth.imp (fun {a b} h => bytesCompare_lt a b h.1 h.2)

theorem sortAccountIDs_congr (l1 l2 : List AccountID) (hp : l1.Perm l2) :
    sortAccountIDs l1 = sortAccountIDs l2 := by
  haveI : IsAntisymm (List Nat) (fun a b => bytesCompare a b ≤ 0) := ⟨bytesCompare_antisymm⟩
  exact List.eq_of_perm_of_sorted
    (((sortAccountIDs_perm l1).trans hp).trans (sortAccountIDs_perm l2).symm)
    (sortAccountIDs_sorted l1) (sortAccountIDs_sorted l2)

theorem get?_perm {K V : Type} [DecidableEq K] (m1 m2 : GoMap K V)
    (hp : m1.entries.Perm m2.entries) (k : K) : GoMap.get? m1 k = GoMap.get? m2 k := by
  unfold GoMap.get?
  cases h : lookupPairs m1.entries k with
  | none =>
    have h1 := (lookupPairs_eq_none_iff _ _).1 h
    have h2 : k ∉ m2.entries.map Prod.fst := fun hm => h1 ((hp.map Prod.fst).symm.subset hm)
    exact ((lookupPairs_eq_none_iff _ _).2 h2).symm
  | some v =>
    exact (lookupPairs_of_mem _ m2.nodup k v (hp.subset (mem_of_lookupPairs _ _ _ h))).symm

theorem marshalAll_congr (a1 a2 : GoMap AccountID StatePtr)
    (hget : ∀ k, GoMap.get? a1 k = GoMap.get? a2 k) (l : List AccountID) :
    marshalAll env a1 l = marshalAll env a2 l := by
  induction l with
  | nil => rfl
  | cons v rest ih => simp only [marshalAll, hget v, ih]

theorem marshalAll_ok (accounts : GoMap AccountID StatePtr) :
    ∀ (l : List AccountID),
      (∀ k ∈ l, ∃ v, env.Marshal ((GoMap.get? accounts k).getD none) = .ok v) →
      ∃ vals, marshalAll env accounts l = .ok vals ∧ vals.length = l.length ∧
        ∀ (i : Nat) (k : AccountID), l[i]? = some k →
          ∃ v, vals[i]? = some v ∧ env.Marshal ((GoMap.get? accounts k).getD none) = .ok v := by
  intro l
  induction l with
  | nil => intro _; exact ⟨[], rfl, rfl, by simp⟩
  | cons a rest ih =>
    intro h
    obtain ⟨v, hv⟩ := h a (List.mem_cons_self _ _)
    obtain ⟨vals, e1, e2, e3⟩ := ih (fun k hk => h k (List.mem_cons_of_mem _ hk))
    refine ⟨v :: vals, by simp only [marshalAll, hv, e1], by simp [e2], ?_⟩
    intro i k hi
    cases i with
    | zero =>
      simp only [List.getElem?_cons_zero, Option.some.injEq] at hi
      subst hi
      exact ⟨v, List.getElem?_cons_zero, hv⟩
    | succ j =>
      simp only [List.getElem?_cons_succ] at hi ⊢
      exact e3 j k hi

/-- Claim C26. For a block state with a non-empty account mapping whose
states all serialize, `updateTrie` hands the trie update one keys array and
one values array: the keys are exactly the touched AccountIDs, in strictly
ascending order of `bytes.Compare`; the values array has the same length and
its `i`-th entry is the serialization of the state of the `i`-th key; and a
block state holding the same mapping in another enumeration order hands over
the same two arrays, with the same result. For an empty mapping `updateTrie`
returns the state DB it was given, the trie root with it, and no error, for
every trie: no update is made. -/
theorem updateTrie_sorted_submission (sdb : ChainStateDB C) (bstate : BlockState)
    (hne : 0 < bstate.GetAccountStates.len)
    (hm : ∀ k ∈ GoMap.keys bstate.GetAccountStates,
      ∃ v, env.Marshal ((GoMap.get? bstate.GetAccountStates k).getD none) = .ok v) :
    (∃ keys vals,
      updateTrie env sdb bstate
        = (match env.trieUpdate sdb.trie keys vals with
           | (t, some e) => ({ sdb with trie := t }, some (.external e))
           | (t, none) => ({ sdb with trie := env.trieCommit t }, none)) ∧
      keys.Pairwise (fun a b => bytesCompare a b = -1) ∧
      (∀ a, a ∈ keys ↔ a ∈ GoMap.keys bstate.GetAccountStates) ∧
      vals.length = keys.length ∧
      (∀ (i : Nat) (k : AccountID), keys[i]? = some k →
        ∃ v, vals[i]? = some v ∧
          env.Marshal ((GoMap.get? bstate.GetAccountStates k).getD none) = .ok v) ∧
      (∀ other : BlockState,
        other.GetAccountStates.entries.Perm bstate.GetAccountStates.entries →
          sortAccountIDs (GoMap.keys other.GetAccountStates) = keys ∧
          marshalAll env other.GetAccountStates keys = .ok vals ∧
          updateTrie env sdb other = updateTrie env sdb bstate)) ∧
    (∀ (sdb0 : ChainStateDB C) (empty : BlockState), empty.GetAccountStates.len = 0 →
      updateTrie env sdb0 empty = (sdb0, none) ∧
      (updateTrie env sdb0 empty).1.trie.Root = sdb0.trie.Root) := by
  have hnd : (GoMap.keys bstate.GetAccountStates).Nodup := bstate.GetAccountStates.nodup
  have hmem : ∀ a, a ∈ sortAccountIDs (GoMap.keys bstate.GetAccountStates) ↔
      a ∈ GoMap.keys bstate.GetAccountStates := fun a => (sortAccountIDs_perm _).mem_iff
  obtain ⟨vals, e1, e2, e3⟩ := marshalAll_ok env bstate.GetAccountStates
    (sortAccountIDs (GoMap.keys bstate.GetAccountStates)) (fun k hk => hm k ((hmem k).1 hk))
  have hrun : ∀ b : BlockState, 0 < b.GetAccountStates.len →
      sortAccountIDs (GoMap.keys b.GetAccountStates)
        = sortAccountIDs (GoMap.keys bstate.GetAccountStates) →
      marshalAll env b.GetAccountStates (sortAccountIDs (GoMap.keys bstate.GetAccountStates))
        = .ok vals →
      updateTrie env sdb b
        = (match env.trieUpdate sdb.trie
              (sortAccountIDs (GoMap.keys bstate.GetAccountStates)) vals with
           | (t, some e) => ({ sdb with trie := t }, some (.external e))
           | (t, none) => ({ sdb with trie := env.trieCommit t }, none)) := by
    intro b hb hk hv
    unfold updateTrie
    simp only
    rw [if_neg (by omega), hk, hv]
  refine ⟨⟨_, vals, hrun bstate hne rfl e1, sortAccountIDs_strict _ hnd, hmem, e2, e3, ?_⟩, ?_⟩
  · intro other hp
    have hkeys : sortAccountIDs (GoMap.keys other.GetAccountStates)
        = sortAccountIDs (GoMap.keys bstate.GetAccountStates) :=
      sortAccountIDs_congr _ _ (hp.map Prod.fst)
    have hvals : marshalAll env other.GetAccountStates
        (sortAccountIDs (GoMap.keys bstate.GetAccountStates)) = .ok vals := by
      rw [marshalAll_congr env _ _ (get?_perm _ _ hp)]
      exact e1
    have hlen : 0 < other.GetAccountStates.len := by
      have := hp.length_eq
      unfold GoMap.len at hne ⊢
      omega
    refine ⟨hkeys, hvals, ?_⟩
    rw [hrun other hlen hkeys hvals, hrun bstate hne rfl e1]
  · intro sdb0 empty h0
    have : updateTrie env sdb0 empty = (sdb0, none) := by
      unfold updateTrie
      simp only
      rw [if_pos (by omega)]
    exact ⟨this, by rw [this]⟩

/-- Witness of claim C26: the example block state of block 1, whose mapping
enumerates the account of `"B"` before that of `"A"`; the keys handed over
are in ascending order. -/
theorem updateTrie_sorted_submission_witness :
    GoMap.keys demoBS1.GetAccountStates = [demoID 66, demoID 65] ∧
    sortAccountIDs (GoMap.keys demoBS1.GetAccountStates) = [demoID 65, demoID 66] ∧
    ((∃ keys vals,
      updateTrie demoEnv demoDB demoBS1
        = (match demoEnv.trieUpdate demoDB.trie keys vals with
           | (t, some e) => ({ demoDB with trie := t }, some (.external e))
           | (t, none) => ({ demoDB with trie := demoEnv.trieCommit t }, none)) ∧
      keys.Pairwise (fun a b => bytesCompare a b = -1) ∧
      (∀ a, a ∈ keys ↔ a ∈ GoMap.keys demoBS1.GetAccountStates) ∧
      vals.length = keys.length ∧
      (∀ (i : Nat) (k : AccountID), keys[i]? = some k →
        ∃ v, vals[i]? = some v ∧
          demoEnv.Marshal ((GoMap.get? demoBS1.GetAccountStates k).getD none) = .ok v) ∧
      (∀ other : BlockState,
        other.GetAccountStates.entries.Perm demoBS1.GetAccountStates.entries →
          sortAccountIDs (GoMap.keys other.GetAccountStates) = keys ∧
          marshalAll demoEnv other.GetAccountStates keys = .ok vals ∧
          updateTrie demoEnv demoDB other = updateTrie demoEnv demoDB demoBS1)) ∧
    (∀ (sdb0 : ChainStateDB Unit) (empty : BlockState), empty.GetAccountStates.len = 0 →
      updateTrie demoEnv sdb0 empty = (sdb0, none) ∧
      (updateTrie demoEnv sdb0 empty).1.trie.Root = sdb0.trie.Root)) :=
  ⟨by decide, by decide,
   updateTrie_sorted_submission demoEnv demoDB demoBS1 (by decide)
     (fun k _ => by
       cases (GoMap.get? demoBS1.GetAccountStates k).getD none with
       | none => exact ⟨_, rfl⟩
       | some st => exact ⟨_, rfl⟩)⟩

end TrieUpdateOrder


/-! ## The transaction hash -/

section TxHash

theorem littleEndian_length : ∀ (size v : Nat), (littleEndian size v).length = size
  | 0, _ => rfl
  | size + 1, v => by simp [littleEndian, littleEndian_length size]

theorem littleEndian_getElem? : ∀ (size v i : Nat), i < size →
    (littleEndian size v)[i]? = some (v / 256 ^ i % 256)
  | 0, _, _, h => absurd h (Nat.not_lt_zero _)
  | size + 1, v, 0, _ => by simp [littleEndian]
  | size + 1, v, i + 1, h => by
    rw [littleEndian, List.getElem?_cons_succ,
      littleEndian_getElem? size (v / 256) i (Nat.lt_of_succ_lt_succ h),
      Nat.div_div_eq_div_mul, Nat.pow_succ, Nat.mul_comm]

/-- The transaction hash of the short example transaction, with the
identity in place of sha256 so that the bytes hashed can be read: the type
`NORMAL` takes four zero bytes, where the varint claim C22 names takes one.
So the claim fails as a statement on every hash function and transaction. -/
theorem CalculateTxHash_type_not_varint :
    Tx.CalculateTxHash (fun d => d) demoShortTx
      = [1, 0, 0, 0, 0, 0, 0, 0, 65, 66, 30, 0, 0, 0, 0, 0, 0, 0,
         0, 0, 0, 0, 0, 0, 0, 0, 0, 0, 0, 0, 0, 0, 0, 0, 0, 0, 0, 0, 7] ∧
    txHashInputVarint demoShortTx
      = [1, 0, 0, 0, 0, 0, 0, 0, 65, 66, 30, 0, 0, 0, 0, 0, 0, 0,
         0, 0, 0, 0, 0, 0, 0, 0, 0, 0, 0, 0, 0, 0, 0, 0, 0, 7] ∧
    ¬ (∀ (sha256 : List Nat → List Nat) (tx : Tx),
        Tx.CalculateTxHash sha256 tx = sha256 (txHashInputVarint tx)) := by
  refine ⟨by decide, by decide, fun h => ?_⟩
  have h1 := h (fun d => d) demoShortTx
  exact absurd h1 (by decide)

/-- Claim C22, amended. `CalculateTxHash` is the sha256 digest of the
concatenation, in this order, of: nonce on 8 bytes little-endian, account
bytes, recipient bytes, amount on 8 bytes little-endian, payload bytes, limit
and price on 8 bytes little-endian each, the type on 4 bytes little-endian,
and the sign bytes; byte `i` of a little-endian field of value `v` is
`v / 256^i mod 256`. -/
theorem CalculateTxHash_concat (sha256 : List Nat → List Nat) (tx : Tx) :
    (∃ nonce amount limit price type_ : List Nat,
      Tx.CalculateTxHash sha256 tx
        = sha256 (nonce ++ tx.Body.Account ++ tx.Body.Recipient ++ amount
            ++ tx.Body.Payload.getD [] ++ limit ++ price ++ type_ ++ tx.Body.Sign) ∧
      nonce.length = 8 ∧ amount.length = 8 ∧ limit.length = 8 ∧ price.length = 8 ∧
      type_.length = 4 ∧
      (∀ i, i < 8 →
        nonce[i]? = some (tx.Body.Nonce % 2 ^ 64 / 256 ^ i % 256) ∧
        amount[i]? = some (tx.Body.Amount % 2 ^ 64 / 256 ^ i % 256) ∧
        limit[i]? = some (tx.Body.Limit % 2 ^ 64 / 256 ^ i % 256) ∧
        price[i]? = some (tx.Body.Price % 2 ^ 64 / 256 ^ i % 256)) ∧
      (∀ i, i < 4 → type_[i]? = some (tx.Body.Type_ % 2 ^ 32 / 256 ^ i % 256))) := by
  refine ⟨littleEndian 8 (tx.Body.Nonce % u64), littleEndian 8 (tx.Body.Amount % u64),
    littleEndian 8 (tx.Body.Limit % u64), littleEndian 8 (tx.Body.Price % u64),
    littleEndian 4 (tx.Body.Type_ % 2 ^ 32), ?_, littleEndian_length _ _,
    littleEndian_length _ _, littleEndian_length _ _, littleEndian_length _ _,
    littleEndian_length _ _, ?_, ?_⟩
  · simp [Tx.CalculateTxHash, txDigest, Digest.Sum, Digest.Write, Digest.New,
      binaryWriteUint64, binaryWriteTxType]
  · intro i hi
    exact ⟨littleEndian_getElem? 8 _ i hi, littleEndian_getElem? 8 _ i hi,
      littleEndian_getElem? 8 _ i hi, littleEndian_getElem? 8 _ i hi⟩
  · intro i hi
    exact littleEndian_getElem? 4 _ i hi

end TxHash


/-! ## `CommitTX`: batches and invalid hashes -/

section CommitTXClaims

variable {M : Type} (env : RpcEnv M)

/-- One iteration of the loop of `CommitTX` that ends without error keeps the
batches sent equal to the transactions before `start`, and leaves nothing
unsent after the last transaction. -/
theorem commitStep_sent (txs : List Tx) (st : CommitState M) (i : Nat) (tx : Tx)
    (hi : st.start + st.cnt = i) (hs : st.sent.flatten = txs.take st.start)
    (hok : (commitStep env txs st i tx).2 = none) :
    (commitStep env txs st i tx).1.start + (commitStep env txs st i tx).1.cnt = i + 1 ∧
    (commitStep env txs st i tx).1.sent.flatten
      = txs.take (commitStep env txs st i tx).1.start ∧
    (i + 1 = txs.length → (commitStep env txs st i tx).1.cnt = 0) := by
  unfold commitStep at hok ⊢
  simp only at hok ⊢
  split at hok
  · rename_i hc
    rw [if_pos hc]
    split at hok
    · cases hok
    · cases hok
    · rename_i mp errs hput
      split at hok
      · cases hok
      · rename_i results2 happ
        simp only
        refine ⟨by omega, ?_, fun _ => trivial⟩
        rw [List.flatten_append, hs, List.flatten_singleton, ← List.take_add]
  · rename_i hc
    rw [if_neg hc]
    simp only
    refine ⟨by omega, hs, fun h => absurd (Or.inr h) hc⟩

theorem commitLoop_sent (txs : List Tx) :
    ∀ (rest : List Tx) (i : Nat) (st : CommitState M),
      i + rest.length = txs.length → st.start + st.cnt = i →
      st.sent.flatten = txs.take st.start → (i = txs.length → st.cnt = 0) →
      (commitLoop env txs i rest st).2 = none →
      (commitLoop env txs i rest st).1.sent.flatten
        = txs.take (commitLoop env txs i rest st).1.start ∧
      (commitLoop env txs i rest st).1.start = txs.length := by
  intro rest
  induction rest with
  | nil =>
    intro i st hlen hi hs hc _
    simp only [List.length_nil, Nat.add_zero] at hlen
    have := hc hlen
    exact ⟨hs, by simp only [commitLoop]; omega⟩
  | cons tx rest ih =>
    intro i st hlen hi hs _ hok
    simp only [List.length_cons] at hlen
    rw [commitLoop] at hok ⊢
    have s1 := commitStep_sent env txs st i tx hi hs
    cases hstep : commitStep env txs st i tx with
    | mk st1 e =>
      rw [hstep] at hok s1
      cases e with
      | some e => exact absurd hok (by simp)
      | none =>
        simp only at hok s1 ⊢
        obtain ⟨q1, q2, q3⟩ := s1 trivial
        exact ih (i + 1) st1 (by omega) q1 q2 (fun h => q3 (by omega)) hok

/-- When `CommitTX` returns without error, the batches it sent to the
mempool, put together in the order sent, are exactly the input list. -/
theorem CommitTX_batches_make_up_input (mempool : M) (txs : List Tx)
    (hok : (CommitTX env mempool (some txs)).2 = none) :
    (CommitTX env mempool (some txs)).1.sent.flatten = txs := by
  unfold CommitTX at hok ⊢
  simp only at hok ⊢
  obtain ⟨h1, h2⟩ := commitLoop_sent env txs txs 0
    { results := List.replicate txs.length none, start := 0, cnt := 0, mempool := mempool,
      sent := [] } (by simp) rfl (by simp) (fun _ => rfl) hok
  rw [h1, h2, List.take_length]

/-- The defect behind claim C24, evaluated: with a mempool that accepts
everything, `CommitTX` sends 101 transactions as one batch of 101, and 250
transactions as batches of 101, 100 and 49. -/
theorem CommitTX_first_batch_size :
    (CommitTX demoRpcEnv () (some (List.replicate 101 demoShortTx))).1.sent
      = [List.replicate 101 demoShortTx] ∧
    (CommitTX demoRpcEnv () (some (List.replicate 101 demoShortTx))).2 = none ∧
    (CommitTX demoRpcEnv () (some (List.replicate 250 demoShortTx))).1.sent.map List.length
      = [101, 100, 49] := by
  decide!

/-- The defect behind claim C25, evaluated: the `Hash` field of the example
transaction is empty, which is not its calculated hash; the mempool accepts
the transaction, and the entry `CommitTX` returns for it carries
`convertError(nil)`, here `TX_OK`, not `TX_INVALID_HASH`. -/
theorem CommitTX_invalid_hash_overwritten :
    demoShortTx.Hash ≠ demoShortTx.CalculateTxHash demoRpcEnv.sha256 ∧
    CommitTX demoRpcEnv () (some [demoShortTx])
      = ({ results := [some { Hash := [], Error := .TX_OK }], start := 1, cnt := 0,
           mempool := (), sent := [[demoShortTx]] }, none) := by
  refine ⟨by decide, by rfl⟩

end CommitTXClaims

/-! ## `GatherTXs`: the transaction that hits the size limit -/

section GatherTXsClaims

/-- What `GatherTXs` returns without error is a prefix of the candidates. -/
theorem GatherTXs_prefix {S : Type} (txIn : List Tx) (txOp : TxOpFn S) (s0 : S)
    (txSize : Tx → Nat) (maxBlockBodySize : Nat) (r : List Tx) (bs : Option BlockState)
    (h : GatherTXs txIn txOp s0 txSize maxBlockBodySize = .ok (r, bs)) : r <+: txIn := by
  unfold GatherTXs at h
  split at h
  · simp only [Except.ok.injEq, Prod.mk.injEq] at h
    rw [← h.1]
  · simp only at h
    split at h
    · cases h
    · cases h
      exact List.take_prefix _ _

/-- The defect behind claim C30, evaluated: two candidates of serialized
size 60 each and a block body limit of 100, with a `TxOp` that accepts
everything. The size limit rejects the second candidate, and `GatherTXs`
returns both, 120 bytes in all. -/
theorem GatherTXs_returns_rejected_tx :
    GatherTXs [demoShortTx, demoTx [66] 5 2] demoAcceptOp () (fun _ => 60) 100
      = .ok ([demoShortTx, demoTx [66] 5 2], none) ∧
    (newBlockLimitOp (fun _ => 60) 100 60 (demoTx [66] 5 2)).2.2 = some .blockSizeLimit ∧
    (NewCompTxOp (newBlockLimitOp (fun _ => 60) 100) demoAcceptOp (60, ())
      (demoTx [66] 5 2)).2.2 = some .blockSizeLimit ∧
    (([demoShortTx, demoTx [66] 5 2].map (fun _ => 60)).sum = 120) := by
  refine ⟨by rfl, by rfl, by rfl, by rfl⟩

end GatherTXsClaims

/-! ## Block headers requests and their cap -/

section HeadersClaims

theorem headersFromHash_length (lookup : BlockLookup) :
    ∀ (n : Nat) (hash : List Nat), (headersFromHash lookup n hash).length ≤ n := by
  intro n
  induction n with
  | zero => intro hash; simp [headersFromHash]
  | succ n ih =>
    intro hash
    unfold headersFromHash
    cases lookup.byHash hash with
    | none => simp
    | some b =>
      simp only [List.length_cons]
      split
      · simp
      · have := ih b.Header.PrevBlockHash
        omega

theorem headersFromHeight_step (lookup : BlockLookup) (end_ fuel i : Nat) (found : List Block) :
    headersFromHeight lookup end_ (fuel + 1) i found
      = if i < end_ then some found
        else
          match lookup.byNo i with
          | none => some found
          | some foundBlock =>
            headersFromHeight lookup end_ fuel ((i + u64 - 1) % u64) (found ++ [foundBlock]) := by
  rw [headersFromHeight]

/-- The loop by height with lower bound 0 on a chain that has every block up
to `i` and no block of number `2^64 - 1`: it returns `i + 1` blocks. -/
theorem headersFromHeight_to_zero (lookup : BlockLookup) (hmax : lookup.byNo (u64 - 1) = none) :
    ∀ (i fuel : Nat) (found : List Block), i < u64 - 1 →
      (∀ n, n ≤ i → (lookup.byNo n).isSome = true) → i + 2 ≤ fuel →
      ∃ r, headersFromHeight lookup 0 fuel i found = some r ∧
        r.length = found.length + i + 1 := by
  intro i
  induction i with
  | zero =>
    intro fuel found _ hall hfuel
    obtain ⟨f, rfl⟩ : ∃ f, fuel = f + 2 := ⟨fuel - 2, by omega⟩
    obtain ⟨b, hb⟩ := Option.isSome_iff_exists.1 (hall 0 (Nat.le_refl _))
    have hw : (0 + u64 - 1) % u64 = u64 - 1 := by decide
    rw [headersFromHeight_step, if_neg (Nat.not_lt_zero _), hb]
    simp only
    rw [hw, headersFromHeight_step, if_neg (Nat.not_lt_zero _), hmax]
    exact ⟨_, rfl, by simp⟩
  | succ i ih =>
    intro fuel found hi hall hfuel
    obtain ⟨f, rfl⟩ : ∃ f, fuel = f + 1 := ⟨fuel - 1, by omega⟩
    obtain ⟨b, hb⟩ := Option.isSome_iff_exists.1 (hall (i + 1) (Nat.le_refl _))
    have hw : (i + 1 + u64 - 1) % u64 = i := by
      have h1 : i + 1 + u64 - 1 = i + u64 := by omega
      rw [h1, Nat.add_mod_right]
      exact Nat.mod_eq_of_lt (by omega)
    rw [headersFromHeight_step, if_neg (Nat.not_lt_zero _), hb]
    simp only
    rw [hw]
    obtain ⟨r, h1, h2⟩ := ih f (found ++ [b]) (by omega)
      (fun n hn => hall n (by omega)) (by omega)
    exact ⟨r, h1, by rw [h2]; simp; omega⟩

/-- The loop by height with a lower bound of at least 1 returns, and finds
at most `i + 1 - end_` blocks. -/
theorem headersFromHeight_bounded (lookup : BlockLookup) (end_ : Nat) (hend : 1 ≤ end_) :
    ∀ (fuel i : Nat) (found : List Block), i < u64 → 1 ≤ fuel → i + 2 ≤ fuel + end_ →
      ∃ r, headersFromHeight lookup end_ fuel i found = some r ∧
        r.length ≤ found.length + (i + 1 - end_) := by
  intro fuel
  induction fuel with
  | zero => intro i found _ h1 _; exact absurd h1 (by omega)
  | succ fuel ih =>
    intro i found hi _ hfuel
    rw [headersFromHeight_step]
    by_cases hlt : i < end_
    · rw [if_pos hlt]
      exact ⟨found, rfl, by omega⟩
    · rw [if_neg hlt]
      cases hb : lookup.byNo i with
      | none => exact ⟨found, rfl, by omega⟩
      | some b =>
        simp only
        have hu : u64 = 18446744073709551616 := by decide
        have hw : (i + u64 - 1) % u64 = i - 1 := by
          rw [hu] at hi ⊢
          omega
        rw [hw]
        obtain ⟨r, h1, h2⟩ := ih (i - 1) (found ++ [b]) (by omega) (by omega) (by omega)
        refine ⟨r, h1, ?_⟩
        simp only [List.length_append, List.length_singleton] at h2
        omega

/-- The loop by height with lower bound 0, on a chain without a block of
number `2^64 - 1`, returns, and finds at most `i + 1` blocks. -/
theorem headersFromHeight_bounded_zero (lookup : BlockLookup)
    (hmax : lookup.byNo (u64 - 1) = none) :
    ∀ (i fuel : Nat) (found : List Block), i < u64 - 1 → i + 3 ≤ fuel →
      ∃ r, headersFromHeight lookup 0 fuel i found = some r ∧
        r.length ≤ found.length + i + 1 := by
  intro i
  induction i with
  | zero =>
    intro fuel found _ hfuel
    obtain ⟨f, rfl⟩ : ∃ f, fuel = f + 2 := ⟨fuel - 2, by omega⟩
    rw [headersFromHeight_step, if_neg (Nat.not_lt_zero _)]
    cases hb : lookup.byNo 0 with
    | none => exact ⟨found, rfl, by omega⟩
    | some b =>
      simp only
      have hw : (0 + u64 - 1) % u64 = u64 - 1 := by decide
      rw [hw, headersFromHeight_step, if_neg (Nat.not_lt_zero _), hmax]
      exact ⟨_, rfl, by simp⟩
  | succ i ih =>
    intro fuel found hi hfuel
    obtain ⟨f, rfl⟩ : ∃ f, fuel = f + 1 := ⟨fuel - 1, by omega⟩
    rw [headersFromHeight_step, if_neg (Nat.not_lt_zero _)]
    cases hb : lookup.byNo (i + 1) with
    | none => exact ⟨found, rfl, by omega⟩
    | some b =>
      simp only
      have hw : (i + 1 + u64 - 1) % u64 = i := by
        have h1 : i + 1 + u64 - 1 = i + u64 := by omega
        rw [h1, Nat.add_mod_right]
        exact Nat.mod_eq_of_lt (by omega)
      rw [hw]
      obtain ⟨r, h1, h2⟩ := ih f (found ++ [b]) (by omega) (by omega)
      refine ⟨r, h1, ?_⟩
      simp only [List.length_append, List.length_singleton] at h2
      omega

/-- The loop by height of the two handlers, with the lower bound they
compute from the cap `m`, returns at most `m` blocks when `m >= 1` or the
height is below `2^32 - 1`. -/
theorem headersFromHeight_capped (lookup : BlockLookup) (fuel H m : Nat) (hm : m ≤ 1000)
    (hH : H < u64) (hmax : lookup.byNo (u64 - 1) = none) (hcase : 1 ≤ m ∨ H < u32 - 1)
    (hfuel : 1002 ≤ fuel) :
    ∃ r, headersFromHeight lookup
        (if H ≥ m then (H + u64 - (m + u32 - 1) % u32) % u64 else 0) fuel H [] = some r ∧
      r.length ≤ m := by
  have hu : u64 = 18446744073709551616 := by decide
  have hv : u32 = 4294967296 := by decide
  by_cases hm0 : m = 0
  · subst hm0
    have hlow : H < u32 - 1 := by omega
    have hend : (H + u64 - (0 + u32 - 1) % u32) % u64 = H + u64 - (u32 - 1) := by
      rw [hu, hv] at *
      omega
    obtain ⟨f, rfl⟩ : ∃ f, fuel = f + 1 := ⟨fuel - 1, by omega⟩
    rw [if_pos (Nat.zero_le _), hend, headersFromHeight_step, if_pos (by rw [hu, hv] at *; omega)]
    exact ⟨[], rfl, by simp⟩
  · have hdec : (m + u32 - 1) % u32 = m - 1 := by
      rw [hv]
      omega
    by_cases hge : H ≥ m
    · have hend : (H + u64 - (m + u32 - 1) % u32) % u64 = H - (m - 1) := by
        rw [hdec]
        rw [hu] at hH ⊢
        omega
      rw [if_pos hge, hend]
      obtain ⟨r, h1, h2⟩ := headersFromHeight_bounded lookup (H - (m - 1)) (by omega) fuel H []
        hH (by omega) (by omega)
      refine ⟨r, h1, ?_⟩
      simp only [List.length_nil] at h2
      omega
    · rw [if_neg hge]
      obtain ⟨r, h1, h2⟩ := headersFromHeight_bounded_zero lookup hmax H fuel []
        (by rw [hu]; omega) (by omega)
      refine ⟨r, h1, ?_⟩
      simp only [List.length_nil] at h2
      omega

/-- Where the cap on block headers does hold: for a request of size at least
1, or at a height below `2^32 - 1`, on a chain without a block of number
`2^64 - 1`, the peer handler and the RPC both return, with at most
`min(size, 1000)` blocks. -/
theorem listBlockHeaders_capped (lookup : BlockLookup) (fuel : Nat) (data : HeadersRequest)
    (hheight : data.Height < u64) (hmax : lookup.byNo (u64 - 1) = none)
    (hcase : 1 ≤ data.Size ∨ data.Height < u32 - 1) (hfuel : 1002 ≤ fuel) :
    (∃ r, listBlockHeadersRequestHandler_handle lookup fuel data = some r ∧
      r.length ≤ min data.Size 1000) ∧
    (∃ r, ListBlockHeaders lookup fuel data = some r ∧ r.length ≤ min data.Size 1000) := by
  have hmin : minUint32 1000 data.Size = min data.Size 1000 := by
    unfold minUint32
    split <;> omega
  have hmin2 : (if data.Size > 1000 then 1000 else data.Size) = min data.Size 1000 := by
    split <;> omega
  have hm : min data.Size 1000 ≤ 1000 := Nat.min_le_right _ _
  have hcase2 : 1 ≤ min data.Size 1000 ∨ data.Height < u32 - 1 := by
    rcases hcase with h | h
    · exact Or.inl (by omega)
    · exact Or.inr h
  obtain ⟨r, h1, h2⟩ := headersFromHeight_capped lookup fuel data.Height (min data.Size 1000)
    hm hheight hmax hcase2 hfuel
  constructor
  · unfold listBlockHeadersRequestHandler_handle
    simp only [hmin]
    split
    · exact ⟨_, rfl, headersFromHash_length lookup _ _⟩
    · exact ⟨r, h1, h2⟩
  · unfold ListBlockHeaders
    simp only [hmin2]
    split
    · exact ⟨_, rfl, by rw [List.length_map]; exact headersFromHash_length lookup _ _⟩
    · exact ⟨r.map (fun b => { b with Txs := [] }), by rw [h1]; rfl, by simpa using h2⟩

/-- The defect behind claim C23, evaluated: on a chain of `2^32 + 1` blocks,
a request by height for `size = 0` headers at height `2^32 - 1`. The cap
`maxFetchSize` is 0, `maxFetchSize - 1` wraps to `2^32 - 1` as a `uint32`, and
the lower bound `height - (maxFetchSize - 1)` is 0 without wrapping: the peer
handler and the RPC both return `2^32` blocks, not none. -/
theorem listBlockHeaders_size_zero :
    minUint32 1000 0 = 0 ∧
    (4294967295 + u64 - (0 + u32 - 1) % u32) % u64 = 0 ∧
    (∃ r, listBlockHeadersRequestHandler_handle demoLongChain 4294967297
        { Hash := [], Height := 4294967295, Size := 0 } = some r ∧ r.length = 4294967296) ∧
    (∃ r, ListBlockHeaders demoLongChain 4294967297
        { Hash := [], Height := 4294967295, Size := 0 } = some r ∧ r.length = 4294967296) := by
  have hmax : demoLongChain.byNo (u64 - 1) = none := by decide
  have hall : ∀ n, n ≤ 4294967295 → (demoLongChain.byNo n).isSome = true := by
    intro n hn
    have : n ≤ 4294967296 := by omega
    simp [demoLongChain, this]
  obtain ⟨r, h1, h2⟩ := headersFromHeight_to_zero demoLongChain hmax 4294967295 4294967297 []
    (by decide) hall (by decide)
  have hp : listBlockHeadersRequestHandler_handle demoLongChain 4294967297
      { Hash := [], Height := 4294967295, Size := 0 }
      = headersFromHeight demoLongChain 0 4294967297 4294967295 [] := by
    unfold listBlockHeadersRequestHandler_handle
    simp only
    rw [if_neg (by decide), if_pos (by decide)]
    have he : (4294967295 + u64 - (minUint32 1000 0 + u32 - 1) % u32) % u64 = 0 := by decide
    rw [he]
  have hr : ListBlockHeaders demoLongChain 4294967297
      { Hash := [], Height := 4294967295, Size := 0 }
      = (headersFromHeight demoLongChain 0 4294967297 4294967295 []).map
          (fun bs => bs.map (fun b => { b with Txs := [] })) := by
    unfold ListBlockHeaders
    have c1 : (if (0 : Nat) > 1000 then 1000 else 0) = 0 := by decide
    have c2 : ¬ (([] : List Nat).length > 0) := by decide
    have c3 : (4294967295 : Nat) ≥ 0 := by decide
    have he : (4294967295 + u64 - (0 + u32 - 1) % u32) % u64 = 0 := by decide
    simp only [c1]
    rw [if_neg c2, if_pos c3, he]
  refine ⟨by decide, by decide, ⟨r, by rw [hp, h1], by simpa using h2⟩, ?_⟩
  refine ⟨r.map (fun b => { b with Txs := [] }), by rw [hr, h1]; rfl, by simpa using h2⟩

end HeadersClaims

end Aergo
